import Mathlib

/-!
# Pylon reflective importer (`pylon-reflect/Import.cpp`)

A shallow embedding of `PylonTypeImporter::convertType`, `convertTypeFrom`,
`convertFrom`, `import` and `importInto`, followed by theorems about them.

Modelling conventions.

* A failed `PLY_ASSERT` aborts the process.  Every assertion site of the source
  is a constructor of `Error`; an aborted call reports the site that fired and
  the destination storage as it was at that moment.
* Both importers are recursive over caller supplied, pointer linked data.  The
  embedding bounds the recursion depth by a `fuel` argument; `none` means that
  the bound was reached, never that the program failed.  The results do not
  depend on the bound (`convertType_mono`, `convertFrom_mono`), and every call
  returns under a large enough bound (`convertType_returns`,
  `convertFrom_returns`).
* Destination storage (`TypedPtr::ptr`) is modelled by the value stored there.
  The sub-object that the source addresses as `PLY_PTR_OFFSET (base, offset)` is
  the slot of that member or element inside the enclosing value: member `k` of a
  struct is slot `k`, element `i` of an array is slot `i`.  Byte offsets remain
  data of the type descriptors (they are computed by `convertType`), but two
  distinct slots never share storage.
* The Pylon node interface, the reflection runtime (`appendMember` of a struct
  descriptor, the arena, `create`, `construct`, `destruct`, `realloc`,
  `ensureStateIs`) is not part of `Import.cpp`; each of these is modelled from
  the specification and says so.  The default constructed value of a type is a
  parameter, `construct`, of the value importer.
-/

namespace pylon

/-! ## Pylon nodes -/

/-- One `key: value` entry of an object node (`Node::Object::Item`). -/
structure Item (N : Type) where
  key : String
  value : N

/-- A parsed Pylon value (`pylon::Node`).  `Invalid` is the sentinel that the
lookups return on a miss. -/
inductive Node where
  | Invalid
  | Text (s : String)
  | Object (items : List (Item Node))
  | Array (elems : List Node)

/-- The value of a C++ `double`: the number `num / den` in lowest terms, negated
when `neg` is set; `den = 0` stands for an infinite value. -/
structure Double where
  neg : Bool
  num : Nat
  den : Nat
  deriving DecidableEq, Repr

/-- The value of a C++ `float`, in the same form as `Double`. -/
structure Float32 where
  neg : Bool
  num : Nat
  den : Nat
  deriving DecidableEq, Repr

/-- The position of the leading binary digit of `n`, that is the integer part of
its binary logarithm; `fuel` bounds the number of halvings. -/
def log2Floor : Nat → Nat → Nat
  | 0, _ => 0
  | fuel + 1, n => if n < 2 then 0 else log2Floor fuel (n / 2) + 1

/-- Rounding of the positive number `num / den` to the nearest value of the
binary floating point format with `precision` significant binary digits and
exponents from `emin` to `emax`, ties to the even significand, as numerator and
denominator in lowest terms; values below the normal range are rounded to the
spacing of the subnormal values, and a value that rounds past the largest finite
value becomes infinite, `(1, 0)`. -/
def roundToBinary (precision : Nat) (emin emax : Int) (num den : Nat) : Nat × Nat :=
  if num = 0 then (0, 1)
  else
    let e0 : Int := (log2Floor num num : Int) - (log2Floor den den : Int)
    let reached : Bool :=
      if 0 ≤ e0 then den * 2 ^ e0.toNat ≤ num else den ≤ num * 2 ^ (-e0).toNat
    let e : Int := max (if reached then e0 else e0 - 1) emin
    let s : Int := e - ((precision : Int) - 1)
    let a : Nat := if 0 ≤ s then num else num * 2 ^ (-s).toNat
    let b : Nat := if 0 ≤ s then den * 2 ^ s.toNat else den
    let k := a / b
    let r := a % b
    let m := if 2 * r < b then k else if b < 2 * r then k + 1 else if k % 2 = 0 then k else k + 1
    if 0 ≤ s then
      if 2 ^ (emax + 1).toNat ≤ m * 2 ^ s.toNat then (1, 0) else (m * 2 ^ s.toNat, 1)
    else (m / Nat.gcd m (2 ^ (-s).toNat), 2 ^ (-s).toNat / Nat.gcd m (2 ^ (-s).toNat))

/-- The `double` nearest to the decimal number `num / den` (IEEE 754 binary64,
round to nearest, ties to even). -/
def Double.nearest (neg : Bool) (num den : Nat) : Double :=
  let r := roundToBinary 53 (-1022) 1023 num den
  ⟨neg, r.1, r.2⟩

/-- The cast `(float) x`: the `float` nearest to the `double` (IEEE 754 binary32,
round to nearest, ties to even); an infinite value stays infinite. -/
def Double.toFloat (x : Double) : Float32 :=
  if x.den = 0 then ⟨x.neg, 1, 0⟩
  else
    let r := roundToBinary 24 (-126) 127 x.num x.den
    ⟨x.neg, r.1, r.2⟩

namespace Node

/-- Modelled from the spec: `Node::isValid`, the type test that only the miss
sentinel fails. -/
def isValid : Node → Bool
  | .Invalid => false
  | _ => true

/-- Modelled from the spec: `Node::isText`. -/
def isText : Node → Bool
  | .Text _ => true
  | _ => false

/-- Modelled from the spec: `Node::isObject`. -/
def isObject : Node → Bool
  | .Object _ => true
  | _ => false

/-- Modelled from the spec: `Node::isArray`. -/
def isArray : Node → Bool
  | .Array _ => true
  | _ => false

/-- Modelled from the spec: `Node::text`; a node that is not text has the empty
text. -/
def text : Node → String
  | .Text s => s
  | _ => ""

/-- Modelled from the spec: the first-match search behind `Node::get (key)`. -/
def lookup (key : String) : List (Item Node) → Node
  | [] => .Invalid
  | item :: rest => if item.key = key then item.value else lookup key rest

/-- Modelled from the spec: `Node::get (key)`, first-match lookup in an object
node, the invalid sentinel on a miss or on a node that is not an object. -/
def get (aNode : Node) (key : String) : Node :=
  match aNode with
  | .Object items => lookup key items
  | _ => .Invalid

/-- Modelled from the spec: `Node::arrayView`, the elements of an array node;
empty for every other node. -/
def arrayView : Node → List Node
  | .Array elems => elems
  | _ => []

/-- Modelled from the spec: `Node::get (index)`, the invalid sentinel when the
index is past the end or the node is not an array. -/
def getAt (aNode : Node) (i : Nat) : Node :=
  (aNode.arrayView.get? i).getD .Invalid

/-- Modelled from the spec: `Node::object ().items`, the entries of an object
node in insertion order. -/
def items : Node → List (Item Node)
  | .Object its => its
  | _ => []

end Node

/-- Modelled from the spec: part of `Node::numeric`, the value of a run of
decimal digits, most significant first, on top of `acc`. -/
def parseDigits : List Char → Nat → Option Nat
  | [], acc => some acc
  | c :: rest, acc =>
    if c.isDigit then parseDigits rest (acc * 10 + (c.toNat - 48)) else none

/-- Modelled from the spec: part of `Node::numeric`, an unsigned decimal
literal `digits` or `digits.digits` as numerator and denominator. -/
def parseUnsigned (cs : List Char) : Option (Nat × Nat) :=
  let whole := cs.takeWhile (fun c => c != '.')
  let rest := cs.dropWhile (fun c => c != '.')
  if whole.isEmpty then none
  else
    match rest with
    | [] => (parseDigits whole 0).map (fun n => (n, 1))
    | _ :: frac =>
      if frac.isEmpty then none
      else (parseDigits (whole ++ frac) 0).map (fun n => (n, 10 ^ frac.length))

/-- Modelled from the spec: `Node::numeric`, which reports whether the node is
text coercible to a number, and the number as a `double`.  The accepted literals
are an optional minus sign, digits, and an optional fraction; the number is the
`double` nearest to the literal. -/
def Node.numeric : Node → Bool × Double
  | .Text s =>
    match s.toList with
    | '-' :: cs =>
      match parseUnsigned cs with
      | some (n, d) => (true, Double.nearest true n d)
      | none => (false, ⟨false, 0, 1⟩)
    | cs =>
      match parseUnsigned cs with
      | some (n, d) => (true, Double.nearest false n d)
      | none => (false, ⟨false, 0, 1⟩)
  | _ => (false, ⟨false, 0, 1⟩)

/-- Truncation toward zero, the integer part that a C++ cast of a `double` to an
integer type keeps.  The cast of an infinite value is undefined in C++; the
embedding yields 0 for it. -/
def Double.trunc (x : Double) : Int :=
  if x.neg then -((x.num / x.den : Nat) : Int) else ((x.num / x.den : Nat) : Int)

/-- The cast `(uN) x` for `N = 8 * width`.  A value outside the destination range
is undefined in C++; the embedding wraps it modulo `2 ^ N`. -/
def Double.toUnsigned (x : Double) (bits : Nat) : Nat :=
  (x.trunc % (2 ^ bits : Nat)).toNat

/-- The cast `(s32) x`; out of range values wrap to two-complement. -/
def Double.toS32 (x : Double) : Int :=
  ((x.trunc + 2 ^ 31) % 2 ^ 32) - 2 ^ 31

/-! ## Type descriptors -/

/-- Entry of `TypeDescriptor_Struct::members`. -/
structure Member (T : Type) where
  name : String
  offset : Nat
  type : T

/-- Entry of `TypeDescriptor_Enum::identifiers`. -/
structure Identifier where
  name : String
  value : Nat
  deriving DecidableEq, Repr

/-- Entry of `TypeDescriptor_Switch::states`. -/
structure State (T : Type) where
  name : String
  structType : T

/-- Payload of an enum descriptor (`TypeDescriptor_Enum`). -/
structure TypeDescriptor_Enum where
  fixedSize : Nat
  identifiers : List Identifier
  deriving DecidableEq, Repr

/-- Runtime description of a type (`ply::TypeDescriptor`), one constructor per
`TypeKey` that `convertFrom` tests, and `other` for every remaining key. -/
inductive TypeDescriptor where
  | struct (fixedSize : Nat) (name : String) (members : List (Member TypeDescriptor))
  | float
  | u8
  | u16
  | bool
  | u32
  | s32
  | fixedArray (fixedSize : Nat) (itemType : TypeDescriptor) (numItems : Nat)
  | string (fixedSize : Nat)
  | array (fixedSize : Nat) (itemType : TypeDescriptor)
  | enumIndexedArray (fixedSize : Nat) (itemType : TypeDescriptor) (enumType : TypeDescriptor_Enum)
  | enum (desc : TypeDescriptor_Enum)
  | savedTypedPtr (fixedSize : Nat)
  | typedArray (fixedSize : Nat)
  | switch (fixedSize : Nat) (storageOffset : Nat) (states : List (State TypeDescriptor))
  | owned (fixedSize : Nat) (targetType : TypeDescriptor)
  | other (fixedSize : Nat)

/-- The field `TypeDescriptor::fixedSize`. -/
def TypeDescriptor.fixedSize : TypeDescriptor → Nat
  | .struct fs _ _ => fs
  | .float => 4
  | .u8 => 1
  | .u16 => 2
  | .bool => 1
  | .u32 => 4
  | .s32 => 4
  | .fixedArray fs _ _ => fs
  | .string fs => fs
  | .array fs _ => fs
  | .enumIndexedArray fs _ _ => fs
  | .enum desc => desc.fixedSize
  | .savedTypedPtr fs => fs
  | .typedArray fs => fs
  | .switch fs _ _ => fs
  | .owned fs _ => fs
  | .other fs => fs

/-- Whether the descriptor has the type key `TypeKey_Struct`. -/
def TypeDescriptor.isStruct : TypeDescriptor → Bool
  | .struct _ _ _ => true
  | _ => false

/-- The member list of a struct descriptor; empty for every other kind. -/
def TypeDescriptor.members : TypeDescriptor → List (Member TypeDescriptor)
  | .struct _ _ ms => ms
  | _ => []

/-- The descriptor `TypeResolver<u16[n]>::get ()`: a fixed array of `n` items of
type `u16`. -/
def TypeDescriptor.u16Array (n : Nat) : TypeDescriptor :=
  .fixedArray (TypeDescriptor.u16.fixedSize * n) .u16 n

/-- A struct descriptor while it is being built (`TypeDescriptor_Struct`). -/
structure TypeDescriptor_Struct where
  fixedSize : Nat
  name : String
  members : List (Member TypeDescriptor)

/-- The finished struct as a descriptor. -/
def TypeDescriptor_Struct.toDescriptor (s : TypeDescriptor_Struct) : TypeDescriptor :=
  .struct s.fixedSize s.name s.members

/-- Modelled from the spec: `TypeDescriptor_Struct::appendMember`, which places
the member at the current fixed size and grows the fixed size by the fixed size
of the member type. -/
def TypeDescriptor_Struct.appendMember (s : TypeDescriptor_Struct) (memberName : String)
    (memberType : TypeDescriptor) : TypeDescriptor_Struct :=
  { s with
    members := s.members ++ [⟨memberName, s.fixedSize, memberType⟩]
    fixedSize := s.fixedSize + memberType.fixedSize }

/-- Modelled from the spec: the arena `TypeDescriptorOwner`, the descriptors it
has adopted (oldest first) and the one it designates as root. -/
structure TypeDescriptorOwner where
  types : List TypeDescriptor
  rootType : Option TypeDescriptor

/-- Modelled from the spec: `new TypeDescriptorOwner`, an arena that owns
nothing and has no root yet. -/
def TypeDescriptorOwner.new : TypeDescriptorOwner := ⟨[], none⟩

/-- Modelled from the spec: `TypeDescriptorOwner::adoptType`. -/
def TypeDescriptorOwner.adoptType (o : TypeDescriptorOwner) (t : TypeDescriptor) :
    TypeDescriptorOwner :=
  { o with types := o.types ++ [t] }

/-- Modelled from the spec: `TypeDescriptorOwner::setRootType`. -/
def TypeDescriptorOwner.setRootType (o : TypeDescriptorOwner) (t : TypeDescriptor) :
    TypeDescriptorOwner :=
  { o with rootType := some t }

/-- Modelled from the spec: `TypeDescriptorOwner::getRootType`. -/
def TypeDescriptorOwner.getRootType (o : TypeDescriptorOwner) : Option TypeDescriptor :=
  o.rootType

/-! ## Errors -/

/-- The three node shapes an assertion can demand. -/
inductive NodeKind where
  | text
  | object
  | array
  deriving DecidableEq, Repr

/-- The assertion sites of `Import.cpp`, under the names of the error taxonomy
where it has one. -/
inductive Error where
  /-- Line 42, `PLY_ASSERT (typeDesc)`. -/
  | UnknownTypeName
  /-- Line 49, `PLY_ASSERT (typeOwner)`. -/
  | MissingTypeOwner
  /-- Line 62, `PLY_ASSERT (alignment == 2)`. -/
  | UnsupportedStructLayout
  /-- Lines 73, 74 and 79: a member list that is neither an object nor an array
  of two-element arrays. -/
  | InvalidMemberListShape
  /-- Line 84. -/
  | UnrecognizedTypeKey
  /-- Line 88. -/
  | UnconvertibleTypeNode
  /-- Line 106, `PLY_ASSERT (aNode->isValid ())`. -/
  | InvalidNode
  /-- Lines 52, 110, 142, 156, 175, 187, 210, 217 and 229: the node has not the
  shape that the destination kind requires. -/
  | NodeShapeMismatch (expected : NodeKind)
  /-- Lines 121, 125, 129, 135 and 139, `PLY_ASSERT (pair.first)`. -/
  | NumericCoercionFailed
  /-- Lines 193 and 196: the enumerator value exceeds the storage width. -/
  | EnumValueOutOfRange
  /-- Line 201. -/
  | UnsupportedEnumWidth
  /-- Line 207, `PLY_ASSERT (found)` of the enum branch. -/
  | UnknownEnumerator
  /-- Line 231. -/
  | ExactlyOneStateRequired
  /-- Line 245, `PLY_ASSERT (found)` of the switch branch. -/
  | UnknownSwitchState
  /-- Line 253. -/
  | UnsupportedMemberType
  /-- A root type that was never set (`TypedPtr::create` on a null descriptor);
  unreachable, `convertTypeFrom` always sets the root. -/
  | NullRootType
  deriving DecidableEq, Repr

/-! ## The type importer -/

/-- The callback `Functor<TypeFromName>`; `none` is the functor that is not
valid, and a call returns `none` for the null descriptor. -/
abbrev TypeFromName := Option (String → Option TypeDescriptor)

/-- The importer object: the arena it adopts synthesized structs into (null
when `none`) and the name resolver. -/
structure PylonTypeImporter where
  typeOwner : Option TypeDescriptorOwner
  typeFromName : TypeFromName

/-- Outcome of a type importer call when the recursion bound was not reached:
the assertion that aborted it, or the result together with the importer state. -/
abbrev Converted (α : Type) := Except Error (α × PylonTypeImporter)

/-- The lambda `appendMember` of `convertType`: append the member, then align
the running fixed size to four bytes with a `u16` member named `padding`. -/
def appendMember (structType : TypeDescriptor_Struct) (memberName : String)
    (memberType : TypeDescriptor) : Except Error TypeDescriptor_Struct :=
  let structType := structType.appendMember memberName memberType
  let alignment := structType.fixedSize % 4
  if alignment > 0 then
    if alignment = 2 then
      .ok (structType.appendMember "padding" .u16)
    else
      .error .UnsupportedStructLayout
  else
    .ok structType

/-- The loop over `aMembers->object ().items` (lines 68 to 70); `conv` is the
recursive call of `convertType`. -/
def convertObjectMembers (conv : PylonTypeImporter → Node → Option (Converted TypeDescriptor)) :
    List (Item Node) → PylonTypeImporter → TypeDescriptor_Struct →
      Option (Converted TypeDescriptor_Struct)
  | [], importer, structType => some (.ok (structType, importer))
  | item :: rest, importer, structType =>
    match conv importer item.value with
    | none => none
    | some (.error e) => some (.error e)
    | some (.ok (memberType, importer)) =>
      match appendMember structType item.key memberType with
      | .error e => some (.error e)
      | .ok structType => convertObjectMembers conv rest importer structType

/-- The loop over `aMembers->arrayView ()` (lines 72 to 77). -/
def convertArrayMembers (conv : PylonTypeImporter → Node → Option (Converted TypeDescriptor)) :
    List Node → PylonTypeImporter → TypeDescriptor_Struct →
      Option (Converted TypeDescriptor_Struct)
  | [], importer, structType => some (.ok (structType, importer))
  | aMember :: rest, importer, structType =>
    if !aMember.isArray then some (.error .InvalidMemberListShape)
    else if aMember.arrayView.length ≠ 2 then some (.error .InvalidMemberListShape)
    else
      match conv importer (aMember.arrayView.getD 1 .Invalid) with
      | none => none
      | some (.error e) => some (.error e)
      | some (.ok (memberType, importer)) =>
        match appendMember structType (aMember.arrayView.getD 0 .Invalid).text memberType with
        | .error e => some (.error e)
        | .ok structType => convertArrayMembers conv rest importer structType

/-- The method `PylonTypeImporter::convertType` (lines 20 to 91). -/
def convertType : Nat → PylonTypeImporter → Node → Option (Converted TypeDescriptor)
  | 0, _, _ => none
  | fuel + 1, importer, aNode =>
    if aNode.isText then
      let str := aNode.text
      if str = "u16" then some (.ok (.u16, importer))
      else if str = "u16_2" then some (.ok (.u16Array 2, importer))
      else if str = "u16_3" then some (.ok (.u16Array 3, importer))
      else if str = "u16_4" then some (.ok (.u16Array 4, importer))
      else if str = "float" then some (.ok (.float, importer))
      else
        let typeDesc : Option TypeDescriptor :=
          match importer.typeFromName with
          | some call => call str
          | none => none
        match typeDesc with
        | none => some (.error .UnknownTypeName)
        | some typeDesc => some (.ok (typeDesc, importer))
    else if aNode.isObject then
      let key := (aNode.get "key").text
      if key = "struct" then
        match importer.typeOwner with
        | none => some (.error .MissingTypeOwner)
        | some _ =>
          let aName := aNode.get "name"
          if !aName.isText then some (.error (.NodeShapeMismatch .text))
          else
            let structType : TypeDescriptor_Struct := ⟨0, aName.text, []⟩
            let aMembers := aNode.get "members"
            let built : Option (Converted TypeDescriptor_Struct) :=
              if aMembers.isObject then
                convertObjectMembers (convertType fuel) aMembers.items importer structType
              else if aMembers.isArray then
                convertArrayMembers (convertType fuel) aMembers.arrayView importer structType
              else some (.error .InvalidMemberListShape)
            match built with
            | none => none
            | some (.error e) => some (.error e)
            | some (.ok (structType, importer)) =>
              some (.ok (structType.toDescriptor,
                { importer with
                  typeOwner := importer.typeOwner.map (·.adoptType structType.toDescriptor) }))
      else some (.error .UnrecognizedTypeKey)
    else some (.error .UnconvertibleTypeNode)

/-- The function `convertTypeFrom` (lines 94 to 100): a fresh arena, the
conversion into it, and the result marked as root. -/
def convertTypeFrom (fuel : Nat) (aNode : Node) (typeFromName : TypeFromName) :
    Option (Except Error TypeDescriptorOwner) :=
  let importer : PylonTypeImporter := ⟨some TypeDescriptorOwner.new, typeFromName⟩
  match convertType fuel importer aNode with
  | none => none
  | some (.error e) => some (.error e)
  | some (.ok (typeDesc, importer)) =>
    match importer.typeOwner with
    | some typeOwner => some (.ok (typeOwner.setRootType typeDesc))
    | none => some (.error .MissingTypeOwner)

/-! ## Destination storage -/

/-- Contents of a piece of destination storage.  `slots` is inline storage made
of sub-objects (the members of a struct, the items of a fixed or enum indexed
array); `array` and `typedArray` are array headers together with the heap block
of their items; `owned` and `savedTypedPtr` are pointers together with the
instance they point to. -/
inductive Value where
  | indeterminate
  | float (v : Float32)
  | u8 (v : Nat)
  | u16 (v : Nat)
  | bool (b : Bool)
  | u32 (v : Nat)
  | s32 (v : Int)
  | string (s : String)
  | slots (sub : Nat → Value)
  | array (numItems : Nat) (items : Nat → Value)
  | savedTypedPtr (typeOwner : TypeDescriptorOwner) (ownedType : TypeDescriptor) (owned : Value)
  | typedArray (typeOwner : TypeDescriptorOwner) (numItems : Nat) (items : Nat → Value)
  | switch (id : Nat) (storage : Value)
  | owned (target : Value)

namespace Value

/-- The sub-object in slot `i`: a struct member, a fixed array item, or an item
of the heap block of an array. -/
def slot : Value → Nat → Value
  | .slots sub, i => sub i
  | .array _ items, i => items i
  | .typedArray _ _ items, i => items i
  | _, _ => .indeterminate

/-- Storage `obj` after slot `i` was overwritten by `v`. -/
def setSlot : Value → Nat → Value → Value
  | .slots sub, i, v => .slots (Function.update sub i v)
  | .array n items, i, v => .array n (Function.update items i v)
  | .typedArray o n items, i, v => .typedArray o n (Function.update items i v)
  | _, i, v => .slots (Function.update (fun _ => .indeterminate) i v)

/-- The field `BaseArray::m_numItems` of an array header. -/
def numItems : Value → Nat
  | .array n _ => n
  | .typedArray _ n _ => n
  | _ => 0

/-- The discriminant of a switch. -/
def switchId : Value → Option Nat
  | .switch id _ => some id
  | _ => none

/-- The payload storage of a switch. -/
def switchStorage : Value → Value
  | .switch _ storage => storage
  | _ => .indeterminate

/-- Storage of a switch after its payload storage was overwritten. -/
def setSwitchStorage : Value → Value → Value
  | .switch id _, v => .switch id v
  | _, v => .switch 0 v

end Value

/-- A destination handle (`ply::TypedPtr`): the storage and its descriptor. -/
structure TypedPtr where
  ptr : Value
  type : TypeDescriptor

/-- State of a `convertFrom` call when it returned or aborted: the destination
storage at that moment, and the assertion that aborted the call, if one did. -/
structure Outcome where
  obj : Value
  failure : Option Error

/-- Sequencing of two steps of a decode: the second runs on the storage that the
first left, unless the first aborted. -/
def Outcome.andThen (first : Option Outcome) (next : Value → Option Outcome) : Option Outcome :=
  match first with
  | none => none
  | some ⟨obj, some e⟩ => some ⟨obj, some e⟩
  | some ⟨obj, none⟩ => next obj

/-- Counted loop `for (i = start; i < start + count; i++) body (i)`, which an
abort of the body leaves. -/
def forRange (body : Nat → Value → Option Outcome) : Nat → Nat → Value → Option Outcome
  | 0, _, obj => some ⟨obj, none⟩
  | count + 1, i, obj => Outcome.andThen (body i obj) (forRange body count (i + 1))

/-- Decode of `aNode` into the sub-object in slot `i` of `obj`; the slot holds
whatever the decode wrote, also when it aborted. -/
def decodeSlot (conv : TypedPtr → Node → Option Outcome) (type : TypeDescriptor) (i : Nat)
    (aNode : Node) (obj : Value) : Option Outcome :=
  match conv ⟨obj.slot i, type⟩ aNode with
  | none => none
  | some ⟨v, failure⟩ => some ⟨obj.setSlot i v, failure⟩

/-- Modelled from the spec: `TypedPtr::create`, a fresh, default constructed
instance of the type.  The default constructed value of each type is the
parameter `construct`. -/
def TypedPtr.create (construct : TypeDescriptor → Value) (type : TypeDescriptor) : TypedPtr :=
  ⟨construct type, type⟩

/-- Modelled from the spec: `TypedPtr::construct`, default construction in
place; the default constructed value of each type is the parameter `construct`. -/
def TypedPtr.construct (construct : TypeDescriptor → Value) (obj : TypedPtr) : Value :=
  construct obj.type

/-- Modelled from the spec: `TypedPtr::destruct`; the storage of a destroyed
object holds nothing determinate. -/
def TypedPtr.destruct (_obj : TypedPtr) : Value :=
  .indeterminate

/-- Modelled from the spec: `BaseArray::realloc`, which reallocates the heap
block for the new number of items and keeps the items below both the old and
the new length. -/
def BaseArray.realloc (arr : Value) (newNumItems : Nat) : Value :=
  .array newNumItems (fun i =>
    if i < arr.numItems ∧ i < newNumItems then arr.slot i else .indeterminate)

/-- Counted loop `for (i = start; i < start + count; i++) body (i)` whose body
cannot abort. -/
def forRangeDo (body : Nat → Value → Value) : Nat → Nat → Value → Value
  | 0, _, obj => obj
  | count + 1, i, obj => forRangeDo body count (i + 1) (body i obj)

/-- Lines 160 to 169, the resize of a dynamic array: the items past the new
length are destroyed, the block is reallocated, and the slots past the old
length are default constructed. -/
def resizeArray (construct : TypeDescriptor → Value) (itemType : TypeDescriptor)
    (arr : Value) (newArrSize : Nat) : Value :=
  let oldArrSize := arr.numItems
  let arr := forRangeDo (fun i arr => arr.setSlot i (TypedPtr.destruct ⟨arr.slot i, itemType⟩))
    (oldArrSize - newArrSize) newArrSize arr
  let arr := BaseArray.realloc arr newArrSize
  forRangeDo (fun i arr => arr.setSlot i (TypedPtr.construct construct ⟨arr.slot i, itemType⟩))
    (newArrSize - oldArrSize) oldArrSize arr

/-- Modelled from the spec: `TypedArray::create`, storage sized to the given
number of items of the root type of the arena. -/
def TypedArray.create (typeOwner : TypeDescriptorOwner) (numItems : Nat) : Value :=
  .typedArray typeOwner numItems (fun _ => .indeterminate)

/-- Modelled from the spec: `TypeDescriptor_Switch::ensureStateIs`, which sets
the discriminant of the switch to the given state. -/
def ensureStateIs (obj : Value) (stateID : Nat) : Value :=
  .switch stateID obj.switchStorage

/-- The loop over `structDesc->members` (lines 112 to 118); member `k` lives in
slot `k`. -/
def convertStructMembers (conv : TypedPtr → Node → Option Outcome) (aNode : Node) :
    List (Member TypeDescriptor) → Nat → Value → Option Outcome
  | [], _, obj => some ⟨obj, none⟩
  | member :: rest, k, obj =>
    let aMember := aNode.get member.name
    if aMember.isValid then
      Outcome.andThen (decodeSlot conv member.type k aMember obj)
        (convertStructMembers conv aNode rest (k + 1))
    else convertStructMembers conv aNode rest (k + 1) obj

/-- The loop over `arrayDesc->enumType->identifiers` (lines 177 to 185); the
item of an enumerator lives in the slot of its value. -/
def convertEnumIndexed (conv : TypedPtr → Node → Option Outcome) (aNode : Node)
    (itemType : TypeDescriptor) : List Identifier → Value → Option Outcome
  | [], obj => some ⟨obj, none⟩
  | identifier :: rest, obj =>
    let aMember := aNode.get identifier.name
    if aMember.isValid then
      Outcome.andThen (decodeSlot conv itemType identifier.value aMember obj)
        (convertEnumIndexed conv aNode itemType rest)
    else convertEnumIndexed conv aNode itemType rest obj

/-- The search of lines 235 to 244: the first state with the given name, and its
index, counted from `i`. -/
def findState (stateName : String) :
    List (State TypeDescriptor) → Nat → Option (Nat × State TypeDescriptor)
  | [], _ => none
  | state :: rest, i =>
    if state.name = stateName then some (i, state) else findState stateName rest (i + 1)

/-- The function `convertFrom` (lines 102 to 255). -/
def convertFrom (construct : TypeDescriptor → Value) (typeFromName : TypeFromName) :
    Nat → TypedPtr → Node → Option Outcome
  | 0, _, _ => none
  | fuel + 1, obj, aNode =>
    if !aNode.isValid then some ⟨obj.ptr, some .InvalidNode⟩
    else
      match obj.type with
      | .struct _ _ members =>
        if !aNode.isObject then some ⟨obj.ptr, some (.NodeShapeMismatch .object)⟩
        else convertStructMembers (convertFrom construct typeFromName fuel) aNode members 0 obj.ptr
      | .float =>
        let pair := aNode.numeric
        if !pair.1 then some ⟨obj.ptr, some .NumericCoercionFailed⟩
        else some ⟨.float pair.2.toFloat, none⟩
      | .u8 =>
        let pair := aNode.numeric
        if !pair.1 then some ⟨obj.ptr, some .NumericCoercionFailed⟩
        else some ⟨.u8 (pair.2.toUnsigned 8), none⟩
      | .u16 =>
        let pair := aNode.numeric
        if !pair.1 then some ⟨obj.ptr, some .NumericCoercionFailed⟩
        else some ⟨.u16 (pair.2.toUnsigned 16), none⟩
      | .bool => some ⟨.bool (aNode.text = "true"), none⟩
      | .u32 =>
        let pair := aNode.numeric
        if !pair.1 then some ⟨obj.ptr, some .NumericCoercionFailed⟩
        else some ⟨.u32 (pair.2.toUnsigned 32), none⟩
      | .s32 =>
        let pair := aNode.numeric
        if !pair.1 then some ⟨obj.ptr, some .NumericCoercionFailed⟩
        else some ⟨.s32 pair.2.toS32, none⟩
      | .fixedArray _ itemType numItems =>
        if !aNode.isArray then some ⟨obj.ptr, some (.NodeShapeMismatch .array)⟩
        else
          forRange
            (fun i => decodeSlot (convertFrom construct typeFromName fuel) itemType i (aNode.getAt i))
            numItems 0 obj.ptr
      | .string _ =>
        if aNode.isText then some ⟨.string aNode.text, none⟩
        else some ⟨obj.ptr, none⟩
      | .array _ itemType =>
        if !aNode.isArray then some ⟨obj.ptr, some (.NodeShapeMismatch .array)⟩
        else
          let aNodeArr := aNode.arrayView
          let newArrSize := aNodeArr.length
          forRange
            (fun i => decodeSlot (convertFrom construct typeFromName fuel) itemType i
              (aNodeArr.getD i .Invalid))
            newArrSize 0 (resizeArray construct itemType obj.ptr newArrSize)
      | .enumIndexedArray _ itemType enumType =>
        if !aNode.isObject then some ⟨obj.ptr, some (.NodeShapeMismatch .object)⟩
        else
          convertEnumIndexed (convertFrom construct typeFromName fuel) aNode itemType
            enumType.identifiers obj.ptr
      | .enum enumDesc =>
        if !aNode.isText then some ⟨obj.ptr, some (.NodeShapeMismatch .text)⟩
        else
          match enumDesc.identifiers.find? (fun identifier => identifier.name = aNode.text) with
          | some identifier =>
            if enumDesc.fixedSize = 1 then
              if identifier.value ≤ 255 then some ⟨.u8 identifier.value, none⟩
              else some ⟨obj.ptr, some .EnumValueOutOfRange⟩
            else if enumDesc.fixedSize = 2 then
              if identifier.value ≤ 65535 then some ⟨.u16 identifier.value, none⟩
              else some ⟨obj.ptr, some .EnumValueOutOfRange⟩
            else if enumDesc.fixedSize = 4 then some ⟨.u32 identifier.value, none⟩
            else some ⟨obj.ptr, some .UnsupportedEnumWidth⟩
          | none => some ⟨obj.ptr, some .UnknownEnumerator⟩
      | .savedTypedPtr _ =>
        if !aNode.isObject then some ⟨obj.ptr, some (.NodeShapeMismatch .object)⟩
        else
          match convertTypeFrom fuel (aNode.get "type") typeFromName with
          | none => none
          | some (.error e) => some ⟨obj.ptr, some e⟩
          | some (.ok targetTypeOwner) =>
            match targetTypeOwner.getRootType with
            | none => some ⟨obj.ptr, some .NullRootType⟩
            | some rootType =>
              let owned := TypedPtr.create construct rootType
              match convertFrom construct typeFromName fuel owned (aNode.get "value") with
              | none => none
              | some ⟨v, failure⟩ => some ⟨.savedTypedPtr targetTypeOwner rootType v, failure⟩
      | .typedArray _ =>
        if !aNode.isObject then some ⟨obj.ptr, some (.NodeShapeMismatch .object)⟩
        else
          match convertTypeFrom fuel (aNode.get "type") typeFromName with
          | none => none
          | some (.error e) => some ⟨obj.ptr, some e⟩
          | some (.ok itemTypeOwner) =>
            let aDataArr := (aNode.get "data").arrayView
            match itemTypeOwner.getRootType with
            | none => some ⟨obj.ptr, some .NullRootType⟩
            | some rootType =>
              forRange
                (fun i => decodeSlot (convertFrom construct typeFromName fuel) rootType i
                  (aDataArr.getD i .Invalid))
                aDataArr.length 0 (TypedArray.create itemTypeOwner aDataArr.length)
      | .switch _ _ states =>
        if !aNode.isObject then some ⟨obj.ptr, some (.NodeShapeMismatch .object)⟩
        else
          match aNode.items with
          | [iter] =>
            match findState iter.key states 0 with
            | some (i, state) =>
              let selected := ensureStateIs obj.ptr (i % 65536)
              match convertFrom construct typeFromName fuel
                  ⟨selected.switchStorage, state.structType⟩ iter.value with
              | none => none
              | some ⟨v, failure⟩ => some ⟨selected.setSwitchStorage v, failure⟩
            | none => some ⟨obj.ptr, some .UnknownSwitchState⟩
          | _ => some ⟨obj.ptr, some .ExactlyOneStateRequired⟩
      | .owned _ targetType =>
        let created := TypedPtr.create construct targetType
        match convertFrom construct typeFromName fuel created aNode with
        | none => none
        | some ⟨v, failure⟩ => some ⟨.owned v, failure⟩
      | .other _ => some ⟨obj.ptr, some .UnsupportedMemberType⟩

/-- The function `import` (lines 257 to 262), under another name because the
source name is a keyword: decode into a fresh instance of the type. -/
def importNew (construct : TypeDescriptor → Value) (fuel : Nat) (typeDesc : TypeDescriptor)
    (aRoot : Node) (typeFromName : TypeFromName) : Option Outcome :=
  convertFrom construct typeFromName fuel (TypedPtr.create construct typeDesc) aRoot

/-- The function `importInto` (lines 264 to 267). -/
def importInto (construct : TypeDescriptor → Value) (fuel : Nat) (obj : TypedPtr) (aRoot : Node)
    (typeFromName : TypeFromName) : Option Outcome :=
  convertFrom construct typeFromName fuel obj aRoot

/-! ## Predicates and example inputs of the theorems -/

/-- Layout invariant of a struct under construction: members are laid out one
after the other without overlap, none reaches past the fixed size, the last one
ends at the fixed size, and the fixed size is a multiple of four. -/
def Packed (s : TypeDescriptor_Struct) : Prop :=
  s.members.Pairwise (fun m n => m.offset ≤ n.offset ∧ m.offset + m.type.fixedSize ≤ n.offset) ∧
  (∀ m ∈ s.members, m.offset + m.type.fixedSize ≤ s.fixedSize) ∧
  (∀ m, s.members.getLast? = some m → m.offset + m.type.fixedSize = s.fixedSize) ∧
  (s.members = [] → s.fixedSize = 0)

/-- Example input: the type node of a struct `S` with the members `a: u16` and
`b: u16`, given as an object. -/
def twoU16Node : Node :=
  .Object [⟨"key", .Text "struct"⟩, ⟨"name", .Text "S"⟩,
    ⟨"members", .Object [⟨"a", .Text "u16"⟩, ⟨"b", .Text "u16"⟩]⟩]

/-- The descriptor that `convertType` synthesizes from `twoU16Node`. -/
def twoU16Struct : TypeDescriptor :=
  .struct 8 "S" [⟨"a", 0, .u16⟩, ⟨"padding", 2, .u16⟩, ⟨"b", 4, .u16⟩, ⟨"padding", 6, .u16⟩]

/-- Example input: the type node of a struct `S` with the single member
`a: byte`, where `byte` is a name for the resolver. -/
def byteMemberNode : Node :=
  .Object [⟨"key", .Text "struct"⟩, ⟨"name", .Text "S"⟩,
    ⟨"members", .Object [⟨"a", .Text "byte"⟩]⟩]

/-- Example resolver: every name stands for the one-byte type `u8`. -/
def byteResolver : TypeFromName := some (fun _ => some .u8)

/-- The type node of a struct with the given name whose member list is the
object `members`. -/
def structNode (name : String) (members : List (Item Node)) : Node :=
  .Object [⟨"key", .Text "struct"⟩, ⟨"name", .Text name⟩, ⟨"members", .Object members⟩]

/-- The integer that an unsigned scalar holds; `none` for every other value. -/
def Value.unsigned : Value → Option Nat
  | .u8 v => some v
  | .u16 v => some v
  | .u32 v => some v
  | _ => none

/-- Example input: a switch with the states `Idle`, an empty struct, and
`Running`, a struct with the member `pid: u32`. -/
def processSwitch : TypeDescriptor :=
  .switch 8 4 [⟨"Idle", .struct 0 "Idle" []⟩, ⟨"Running", .struct 4 "Running" [⟨"pid", 0, .u32⟩]⟩]

/-- Example input: the enum with `Red = 0`, `Green = 1`, `Blue = 2` in one byte
of storage. -/
def colorEnum : TypeDescriptor :=
  .enum ⟨1, [⟨"Red", 0⟩, ⟨"Green", 1⟩, ⟨"Blue", 2⟩]⟩

mutual
/-- Nesting depth of a node: 0 for text and the invalid sentinel, one more than
the deepest entry or element for an object or array. -/
def Node.depth : Node → Nat
  | .Invalid => 0
  | .Text _ => 0
  | .Object items => Node.depthItems items + 1
  | .Array elems => Node.depthElems elems + 1
/-- Depth of the deepest value of an entry list. -/
def Node.depthItems : List (Item Node) → Nat
  | [] => 0
  | item :: rest => max (Node.depthItem item) (Node.depthItems rest)
/-- Depth of the value of an entry. -/
def Node.depthItem : Item Node → Nat
  | ⟨_, value⟩ => value.depth
/-- Depth of the deepest node of a list. -/
def Node.depthElems : List Node → Nat
  | [] => 0
  | elem :: rest => max elem.depth (Node.depthElems rest)
end

/-- Number of `Owned` layers at the head of a descriptor. -/
def TypeDescriptor.ownedDepth : TypeDescriptor → Nat
  | .owned _ targetType => targetType.ownedDepth + 1
  | _ => 0

/-- The entry that a two-element member `[name, type]` of an array shaped member
list stands for. -/
def memberItem (aMember : Node) : Item Node :=
  ⟨(aMember.arrayView.getD 0 .Invalid).text, aMember.arrayView.getD 1 .Invalid⟩

/-- The declared members of a `members` entry as name and type node entries, in
order: the entries of an object, or the pairs of an array all of whose elements
are arrays of two elements.  Every other shape declares no member list. -/
def declaredMembers : Node → Option (List (Item Node))
  | .Object items => some items
  | .Array elems =>
    if elems.all (fun aMember => aMember.isArray && aMember.arrayView.length == 2) then
      some (elems.map memberItem)
    else none
  | _ => none

/-- The text that a `String` holds; `none` for every other value. -/
def Value.stringValue : Value → Option String
  | .string s => some s
  | _ => none

/-- Example input: a struct with the members `label: String` and `count: u16`. -/
def labelledCount : TypeDescriptor :=
  .struct 20 "LabelledCount" [⟨"label", 0, .string 16⟩, ⟨"count", 16, .u16⟩]

/-- Example input: a struct with the members `a`, `b` and `c`, all `u16`. -/
def threeU16Struct : TypeDescriptor :=
  .struct 12 "T" [⟨"a", 0, .u16⟩, ⟨"b", 4, .u16⟩, ⟨"c", 8, .u16⟩]

/-- Example input: a struct with the members `a: u16` and `b: u16`. -/
def pairStruct : TypeDescriptor :=
  .struct 4 "Pair" [⟨"a", 0, .u16⟩, ⟨"b", 2, .u16⟩]

/-- Example of default construction: a struct of zeroes, an empty `String`,
zero for `u16`, and nothing determinate for the other types. -/
def exampleConstruct : TypeDescriptor → Value
  | .struct _ _ _ => .slots (fun _ => .u16 0)
  | .string _ => .string ""
  | .u16 => .u16 0
  | _ => .indeterminate

/-- The arena of the importer `importer2` extends the one of `importer`: the
resolver is the same, and when `importer` has an arena, `importer2` has one with
the same root and the same adopted descriptors, followed by newly adopted ones. -/
def OwnerExtends (importer importer2 : PylonTypeImporter) : Prop :=
  importer2.typeFromName = importer.typeFromName ∧
  ∀ o, importer.typeOwner = some o →
    ∃ o2 added, importer2.typeOwner = some o2 ∧ o2.rootType = o.rootType ∧
      o2.types = o.types ++ added

/-- Example resolver: the name `Pair` stands for the struct `pairStruct`. -/
def pairResolver : TypeFromName :=
  some (fun str => if str = "Pair" then some pairStruct else none)

/-- Example input: an enum in which the enumerators `First` and `Default` share
the value 0. -/
def aliasedEnum : TypeDescriptor_Enum :=
  ⟨1, [⟨"First", 0⟩, ⟨"Default", 0⟩, ⟨"Second", 1⟩]⟩

/-- Example input: the enum with `Red = 0`, `Green = 1`, `Blue = 2`. -/
def rgbEnum : TypeDescriptor_Enum :=
  ⟨1, [⟨"Red", 0⟩, ⟨"Green", 1⟩, ⟨"Blue", 2⟩]⟩

/-- Whether the storage is made of slots: inline sub-objects or the items of an
array block. -/
def Value.isComposite : Value → Bool
  | .slots _ => true
  | .array _ _ => true
  | .typedArray _ _ _ => true
  | _ => false

/-- One step of a decode loop: the slot, the type of the sub-object in it, and
the node that is decoded into it. -/
structure SlotStep where
  slot : Nat
  type : TypeDescriptor
  node : Node

/-- A sequence of slot decodes, which the first abort ends. -/
def decodeSteps (conv : TypedPtr → Node → Option Outcome) :
    List SlotStep → Value → Option Outcome
  | [], obj => some ⟨obj, none⟩
  | step :: rest, obj =>
    Outcome.andThen (decodeSlot conv step.type step.slot step.node obj) (decodeSteps conv rest)

/-- The steps of the member loop of a struct: one for each member with a valid
entry in the node, at the position of the member. -/
def structSteps (aNode : Node) : List (Member TypeDescriptor) → Nat → List SlotStep
  | [], _ => []
  | member :: rest, k =>
    if (aNode.get member.name).isValid then
      ⟨k, member.type, aNode.get member.name⟩ :: structSteps aNode rest (k + 1)
    else structSteps aNode rest (k + 1)

/-- The steps of a positional loop over `count` slots from `start` on. -/
def rangeSteps (type : TypeDescriptor) (nodeAt : Nat → Node) : Nat → Nat → List SlotStep
  | 0, _ => []
  | count + 1, i => ⟨i, type, nodeAt i⟩ :: rangeSteps type nodeAt count (i + 1)

/-- The steps of the loop over the enumerators of an enum indexed array: one for
each enumerator with a valid entry in the node, at the value of the enumerator. -/
def enumSteps (aNode : Node) (itemType : TypeDescriptor) : List Identifier → List SlotStep
  | [] => []
  | identifier :: rest =>
    if (aNode.get identifier.name).isValid then
      ⟨identifier.value, itemType, aNode.get identifier.name⟩ :: enumSteps aNode itemType rest
    else enumSteps aNode itemType rest

mutual
/-- Whether every enum indexed array that is decoded in place within a
destination of this type has one element per enumerator, that is, no two
enumerators of its enum share a value.  The types behind `Owned`, and the
synthesized types of dynamically typed values, are decoded into fresh instances
and do not count. -/
def TypeDescriptor.enumeratorsDistinct : TypeDescriptor → Bool
  | .struct _ _ members => enumeratorsDistinctMembers members
  | .fixedArray _ itemType _ => itemType.enumeratorsDistinct
  | .array _ itemType => itemType.enumeratorsDistinct
  | .enumIndexedArray _ itemType enumType =>
    decide (enumType.identifiers.Pairwise (fun a b => a.value ≠ b.value)) &&
      itemType.enumeratorsDistinct
  | .switch _ _ states => enumeratorsDistinctStates states
  | _ => true
/-- The same for the types of a member list. -/
def enumeratorsDistinctMembers : List (Member TypeDescriptor) → Bool
  | [] => true
  | member :: rest => enumeratorsDistinctMember member && enumeratorsDistinctMembers rest
/-- The same for the type of a member. -/
def enumeratorsDistinctMember : Member TypeDescriptor → Bool
  | ⟨_, _, type⟩ => type.enumeratorsDistinct
/-- The same for the struct types of a state list. -/
def enumeratorsDistinctStates : List (State TypeDescriptor) → Bool
  | [] => true
  | state :: rest => enumeratorsDistinctState state && enumeratorsDistinctStates rest
/-- The same for the struct type of a state. -/
def enumeratorsDistinctState : State TypeDescriptor → Bool
  | ⟨_, structType⟩ => structType.enumeratorsDistinct
end

/-- A member list given as an object: one entry `name: type node` for each pair,
in order. -/
def objectMembers (pairs : List (String × Node)) : Node :=
  .Object (pairs.map (fun p => ⟨p.1, p.2⟩))

/-- A member list given as an array: one two-element array `[name, type node]`
for each pair, in order. -/
def arrayMembers (pairs : List (String × Node)) : Node :=
  .Array (pairs.map (fun p => .Array [.Text p.1, p.2]))

/-- The type node of a struct with the given name and the given `members`
entry. -/
def structNodeOf (name : String) (aMembers : Node) : Node :=
  .Object [⟨"key", .Text "struct"⟩, ⟨"name", .Text name⟩, ⟨"members", aMembers⟩]

/-- Example input: the type node of a struct `O` whose only member `m` is the
nested struct `I` with the single member `x: byte`. -/
def nestedByteNode : Node :=
  structNode "O" [⟨"m", structNode "I" [⟨"x", .Text "byte"⟩]⟩]

/-- Example input: a struct descriptor of 8 bytes whose last member, `b`, ends
at byte 6. -/
def gapStruct : TypeDescriptor :=
  .struct 8 "Gap" [⟨"a", 0, .u32⟩, ⟨"b", 4, .u16⟩]

-- END-DEFS

end pylon

namespace pylon

/-! ## Storage lemmas -/

theorem Value.slot_setSlot_same (obj : Value) (i : Nat) (v : Value) :
    (obj.setSlot i v).slot i = v := by
  cases obj <;> simp [Value.setSlot, Value.slot]

theorem Value.slot_setSlot_other (obj : Value) (i k : Nat) (v : Value) (h : k ≠ i) :
    (obj.setSlot i v).slot k = obj.slot k := by
  cases obj <;> simp [Value.setSlot, Value.slot, Function.update, h]

theorem Node.lookup_absent (key : String) (items : List (Item Node))
    (h : ∀ item ∈ items, item.key ≠ key) : Node.lookup key items = .Invalid := by
  induction items with
  | nil => rfl
  | cons item rest ih =>
    have h1 : item.key ≠ key := h item (List.mem_cons_self _ _)
    have h2 : ∀ it ∈ rest, it.key ≠ key := fun it hit => h it (List.mem_cons_of_mem _ hit)
    simp [Node.lookup, h1, ih h2]

/-- Slots that no step of the member loop addresses keep their contents, whether
the loop finished or aborted. -/
theorem convertStructMembers_frame (conv : TypedPtr → Node → Option Outcome) (aNode : Node)
    (members : List (Member TypeDescriptor)) :
    ∀ (k0 : Nat) (obj : Value) (out : Outcome),
      convertStructMembers conv aNode members k0 obj = some out →
      ∀ k : Nat,
        (∀ m, k0 ≤ k → members.get? (k - k0) = some m → (aNode.get m.name).isValid = false) →
        out.obj.slot k = obj.slot k := by
  induction members with
  | nil =>
    intro k0 obj out h k _
    simp [convertStructMembers] at h
    subst h
    rfl
  | cons member rest ih =>
    intro k0 obj out h k hk
    have hrest : ∀ m, k0 + 1 ≤ k → rest.get? (k - (k0 + 1)) = some m →
        (aNode.get m.name).isValid = false := by
      intro m hle hm
      apply hk m (by omega)
      have : k - k0 = (k - (k0 + 1)) + 1 := by omega
      rw [this]
      simpa using hm
    unfold convertStructMembers at h
    by_cases hv : (aNode.get member.name).isValid = true
    · have hne : k ≠ k0 := by
        intro hkk
        subst hkk
        have := hk member (le_refl _) (by simp)
        rw [hv] at this
        cases this
      simp only [hv, if_true] at h
      unfold decodeSlot at h
      cases hc : conv ⟨obj.slot k0, member.type⟩ (aNode.get member.name) with
      | none => simp [hc, Outcome.andThen] at h
      | some o =>
        obtain ⟨v, failure⟩ := o
        cases failure with
        | some e =>
          simp [hc, Outcome.andThen] at h
          subst h
          exact Value.slot_setSlot_other obj k0 k v hne
        | none =>
          simp [hc, Outcome.andThen] at h
          rw [ih (k0 + 1) _ out h k hrest]
          exact Value.slot_setSlot_other obj k0 k v hne
    · simp only [hv] at h
      exact ih (k0 + 1) obj out h k hrest

/-! ## Struct decode -/

/-- C1 (sparse struct update).  When `convertFrom` decodes an object node into a
struct, every slot that is not the slot of a declared member whose name is a key
of the node holds afterwards exactly what it held before: a declared member
whose name is no key of the node is untouched, and nothing outside the members
that the node names is written.  This holds for the storage that a successful
decode returns and also for the storage that an aborted decode leaves. -/
theorem struct_decode_keeps_absent_members (construct : TypeDescriptor → Value)
    (typeFromName : TypeFromName) (fuel fixedSize : Nat) (name : String)
    (members : List (Member TypeDescriptor)) (ptr : Value) (items : List (Item Node))
    (out : Outcome)
    (h : convertFrom construct typeFromName fuel ⟨ptr, .struct fixedSize name members⟩
      (.Object items) = some out)
    (k : Nat)
    (habsent : ∀ m, members.get? k = some m → ∀ item ∈ items, item.key ≠ m.name) :
    out.obj.slot k = ptr.slot k := by
  cases fuel with
  | zero => simp [convertFrom] at h
  | succ fuel =>
    simp only [convertFrom, Node.isValid, Node.isObject] at h
    refine convertStructMembers_frame _ _ members 0 ptr out (by simpa using h) k ?_
    intro m _ hm
    have hk : Node.lookup m.name items = .Invalid :=
      Node.lookup_absent m.name items (habsent m (by simpa using hm))
    simp [Node.get, hk, Node.isValid]

/-- Witness for C1: a struct of two `u16` members that hold 5 and 6, decoded from
a node that names only the first; the second member still holds 6. -/
theorem struct_decode_keeps_absent_members_witness :
    convertFrom (fun _ => .indeterminate) none 2
        ⟨.slots (fun i => .u16 (5 + i)), .struct 8 "S" [⟨"a", 0, .u16⟩, ⟨"b", 4, .u16⟩]⟩
        (.Object [⟨"a", .Text "1"⟩])
      = some ⟨(Value.slots (fun i => .u16 (5 + i))).setSlot 0 (.u16 1), none⟩
    ∧ ((Value.slots (fun i => .u16 (5 + i))).setSlot 0 (.u16 1)).slot 1
      = (Value.slots (fun i => .u16 (5 + i))).slot 1 :=
  ⟨rfl,
    struct_decode_keeps_absent_members (fun _ => .indeterminate) none 2 8 "S"
      [⟨"a", 0, .u16⟩, ⟨"b", 4, .u16⟩] (.slots (fun i => .u16 (5 + i)))
      [⟨"a", .Text "1"⟩] ⟨(Value.slots (fun i => .u16 (5 + i))).setSlot 0 (.u16 1), none⟩ rfl 1
      (by
        intro m hm item hitem
        simp at hm hitem
        subst hm hitem
        decide)⟩

/-! ## Layout of synthesized structs -/

/-- The layout part of `Packed` survives `TypeDescriptor_Struct::appendMember`. -/
theorem Packed.appendMember {s : TypeDescriptor_Struct} (h : Packed s) (memberName : String)
    (memberType : TypeDescriptor) : Packed (s.appendMember memberName memberType) := by
  obtain ⟨hpair, hend, _, _⟩ := h
  refine ⟨?_, ?_, ?_, ?_⟩
  · simp only [TypeDescriptor_Struct.appendMember]
    rw [List.pairwise_append]
    refine ⟨hpair, List.pairwise_singleton _ _, ?_⟩
    intro a ha b hb
    simp only [List.mem_singleton] at hb
    subst hb
    have := hend a ha
    exact ⟨by simp only; omega, this⟩
  · intro m hm
    simp only [TypeDescriptor_Struct.appendMember, List.mem_append, List.mem_singleton] at hm ⊢
    rcases hm with hm | hm
    · have := hend m hm
      omega
    · subst hm
      exact le_refl _
  · intro m hm
    simp [TypeDescriptor_Struct.appendMember] at hm
    subst hm
    rfl
  · intro hnil
    simp [TypeDescriptor_Struct.appendMember] at hnil

/-- The running size after the lambda `appendMember` returned is a multiple of
four, and the struct keeps its name. -/
theorem appendMember_ok {s r : TypeDescriptor_Struct} {memberName : String}
    {memberType : TypeDescriptor} (h : appendMember s memberName memberType = .ok r)
    (hs : Packed s) : Packed r ∧ r.fixedSize % 4 = 0 ∧ r.name = s.name := by
  unfold appendMember at h
  simp only at h
  split at h
  · split at h
    · rename_i h2
      injection h with h
      subst h
      refine ⟨(hs.appendMember _ _).appendMember _ _, ?_, rfl⟩
      simp only [TypeDescriptor_Struct.appendMember, TypeDescriptor.fixedSize] at h2 ⊢
      omega
    · cases h
  · rename_i h1
    injection h with h
    subst h
    refine ⟨hs.appendMember _ _, ?_, rfl⟩
    omega

theorem convertObjectMembers_packed
    (conv : PylonTypeImporter → Node → Option (Converted TypeDescriptor)) :
    ∀ (items : List (Item Node)) (importer : PylonTypeImporter) (s r : TypeDescriptor_Struct)
      (importer2 : PylonTypeImporter),
      convertObjectMembers conv items importer s = some (.ok (r, importer2)) →
      Packed s → s.fixedSize % 4 = 0 → Packed r ∧ r.fixedSize % 4 = 0 ∧ r.name = s.name := by
  intro items
  induction items with
  | nil =>
    intro importer s r importer2 h hs h4
    simp [convertObjectMembers] at h
    obtain ⟨h, _⟩ := h
    subst h
    exact ⟨hs, h4, rfl⟩
  | cons item rest ih =>
    intro importer s r importer2 h hs _
    unfold convertObjectMembers at h
    split at h
    · cases h
    · cases h
    · rename_i memberType imp1 _
      split at h
      · cases h
      · rename_i s1 happ
        obtain ⟨hp1, h41, hn1⟩ := appendMember_ok happ hs
        obtain ⟨hp, h4, hn⟩ := ih imp1 s1 r importer2 h hp1 h41
        exact ⟨hp, h4, hn.trans hn1⟩

theorem convertArrayMembers_packed
    (conv : PylonTypeImporter → Node → Option (Converted TypeDescriptor)) :
    ∀ (elems : List Node) (importer : PylonTypeImporter) (s r : TypeDescriptor_Struct)
      (importer2 : PylonTypeImporter),
      convertArrayMembers conv elems importer s = some (.ok (r, importer2)) →
      Packed s → s.fixedSize % 4 = 0 → Packed r ∧ r.fixedSize % 4 = 0 ∧ r.name = s.name := by
  intro elems
  induction elems with
  | nil =>
    intro importer s r importer2 h hs h4
    simp [convertArrayMembers] at h
    obtain ⟨h, _⟩ := h
    subst h
    exact ⟨hs, h4, rfl⟩
  | cons aMember rest ih =>
    intro importer s r importer2 h hs _
    unfold convertArrayMembers at h
    split at h
    · cases h
    · split at h
      · cases h
      · split at h
        · cases h
        · cases h
        · rename_i memberType imp1 _
          split at h
          · cases h
          · rename_i s1 happ
            obtain ⟨hp1, h41, hn1⟩ := appendMember_ok happ hs
            obtain ⟨hp, h4, hn⟩ := ih imp1 s1 r importer2 h hp1 h41
            exact ⟨hp, h4, hn.trans hn1⟩

/-- A struct that `convertType` synthesized from an object node is packed. -/
theorem convertType_object_packed (fuel : Nat) (importer importer2 : PylonTypeImporter)
    (items : List (Item Node)) (typeDesc : TypeDescriptor)
    (h : convertType fuel importer (.Object items) = some (.ok (typeDesc, importer2))) :
    ∃ s : TypeDescriptor_Struct, typeDesc = s.toDescriptor ∧ Packed s ∧ s.fixedSize % 4 = 0 := by
  cases fuel with
  | zero => simp [convertType] at h
  | succ fuel =>
    have h0 : Packed ⟨0, (Node.get (.Object items) "name").text, []⟩ :=
      ⟨List.Pairwise.nil, by simp, by simp, fun _ => rfl⟩
    simp only [convertType, Node.isText, Node.isObject] at h
    simp only [Bool.false_eq_true, if_false, if_true] at h
    split at h
    · split at h
      · cases h
      · split at h
        · cases h
        · split at h
          · cases h
          · cases h
          · rename_i s imp hbuilt
            simp only [Option.some.injEq, Except.ok.injEq, Prod.mk.injEq] at h
            refine ⟨s, h.1.symm, ?_⟩
            split at hbuilt
            · obtain ⟨hp, h4, _⟩ := convertObjectMembers_packed _ _ _ _ _ _ hbuilt h0 rfl
              exact ⟨hp, h4⟩
            · split at hbuilt
              · obtain ⟨hp, h4, _⟩ := convertArrayMembers_packed _ _ _ _ _ _ hbuilt h0 rfl
                exact ⟨hp, h4⟩
              · cases hbuilt
    · cases h

/-- The lambda `appendMember` aborts exactly when the running size after the
append has remainder 1 or 3, and then with `UnsupportedStructLayout`. -/
theorem appendMember_error_iff (s : TypeDescriptor_Struct) (memberName : String)
    (memberType : TypeDescriptor) (e : Error) :
    appendMember s memberName memberType = .error e ↔
      e = .UnsupportedStructLayout ∧
        ((s.fixedSize + memberType.fixedSize) % 4 = 1 ∨
          (s.fixedSize + memberType.fixedSize) % 4 = 3) := by
  unfold appendMember
  simp only [TypeDescriptor_Struct.appendMember]
  have hlt : (s.fixedSize + memberType.fixedSize) % 4 < 4 := Nat.mod_lt _ (by decide)
  constructor
  · intro h
    split at h
    · split at h
      · cases h
      · rename_i h1 h2
        injection h with h
        exact ⟨h.symm, by omega⟩
    · cases h
  · rintro ⟨he, hr⟩
    subst he
    rw [if_pos (by omega), if_neg (by omega)]

/-- The member loop aborts with `UnsupportedStructLayout` exactly when there is a
member such that the members before it were converted and appended, and either
the conversion of its own type aborts with `UnsupportedStructLayout`, or its type
is converted and appending it brings the running size to a remainder of 1 or
3. -/
theorem convertObjectMembers_layout_cases
    (conv : PylonTypeImporter → Node → Option (Converted TypeDescriptor)) :
    ∀ (items : List (Item Node)) (importer : PylonTypeImporter) (s : TypeDescriptor_Struct),
      (convertObjectMembers conv items importer s = some (.error .UnsupportedStructLayout) ↔
        ∃ (pre : List (Item Node)) (item : Item Node) (post : List (Item Node))
          (sp : TypeDescriptor_Struct) (imp : PylonTypeImporter),
          items = pre ++ item :: post ∧
          convertObjectMembers conv pre importer s = some (.ok (sp, imp)) ∧
          (conv imp item.value = some (.error .UnsupportedStructLayout) ∨
            ∃ (t : TypeDescriptor) (imp2 : PylonTypeImporter),
              conv imp item.value = some (.ok (t, imp2)) ∧
              ((sp.fixedSize + t.fixedSize) % 4 = 1 ∨ (sp.fixedSize + t.fixedSize) % 4 = 3))) := by
  intro items
  induction items with
  | nil =>
    intro importer s
    constructor
    · intro h
      simp [convertObjectMembers] at h
    · rintro ⟨pre, item, post, _, _, h, _⟩
      simp at h
  | cons head rest ih =>
    intro importer s
    -- a decomposition with an empty prefix speaks about `head` and `importer`
    have hnil : ∀ (item : Item Node) (post : List (Item Node)) (sp : TypeDescriptor_Struct)
        (imp : PylonTypeImporter), head :: rest = [] ++ item :: post →
        convertObjectMembers conv [] importer s = some (.ok (sp, imp)) →
        item = head ∧ sp = s ∧ imp = importer := by
      intro item post sp imp hsplit hpre
      simp at hsplit
      simp [convertObjectMembers] at hpre
      exact ⟨hsplit.1.symm, hpre.1.symm, hpre.2.symm⟩
    cases hc : conv importer head.value with
    | none =>
      constructor
      · intro h
        simp [convertObjectMembers, hc] at h
      · rintro ⟨pre, item, post, sp, imp, hsplit, hpre, hcase⟩
        cases pre with
        | nil =>
          obtain ⟨h1, _, h3⟩ := hnil item post sp imp hsplit hpre
          subst h1 h3
          rw [hc] at hcase
          rcases hcase with h | ⟨_, _, h, _⟩ <;> cases h
        | cons p pre =>
          simp at hsplit
          obtain ⟨h1, _⟩ := hsplit
          subst h1
          simp [convertObjectMembers, hc] at hpre
    | some r =>
      cases r with
      | error e =>
        constructor
        · intro h
          simp [convertObjectMembers, hc] at h
          subst h
          exact ⟨[], head, rest, s, importer, rfl, rfl, Or.inl hc⟩
        · rintro ⟨pre, item, post, sp, imp, hsplit, hpre, hcase⟩
          cases pre with
          | nil =>
            obtain ⟨h1, _, h3⟩ := hnil item post sp imp hsplit hpre
            subst h1 h3
            rw [hc] at hcase
            rcases hcase with h | ⟨_, _, h, _⟩
            · simp only [Option.some.injEq, Except.error.injEq] at h
              subst h
              simp [convertObjectMembers, hc]
            · cases h
          | cons p pre =>
            simp at hsplit
            obtain ⟨h1, _⟩ := hsplit
            subst h1
            simp [convertObjectMembers, hc] at hpre
      | ok pair =>
        obtain ⟨t1, imp1⟩ := pair
        cases ha : appendMember s head.key t1 with
        | error e =>
          have hiff := (appendMember_error_iff s head.key t1 e).mp ha
          obtain ⟨he, hr⟩ := hiff
          subst he
          constructor
          · intro _
            exact ⟨[], head, rest, s, importer, rfl, rfl, Or.inr ⟨t1, imp1, hc, hr⟩⟩
          · intro _
            simp [convertObjectMembers, hc, ha]
        | ok s1 =>
          have hstep : convertObjectMembers conv (head :: rest) importer s
              = convertObjectMembers conv rest imp1 s1 := by
            simp [convertObjectMembers, hc, ha]
          rw [hstep, ih imp1 s1]
          constructor
          · rintro ⟨pre, item, post, sp, imp, hsplit, hpre, hcase⟩
            refine ⟨head :: pre, item, post, sp, imp, by simp [hsplit], ?_, hcase⟩
            simp [convertObjectMembers, hc, ha, hpre]
          · rintro ⟨pre, item, post, sp, imp, hsplit, hpre, hcase⟩
            cases pre with
            | nil =>
              obtain ⟨h1, h2, h3⟩ := hnil item post sp imp hsplit hpre
              subst h1 h2 h3
              rw [hc] at hcase
              rcases hcase with h | ⟨t, imp2, h, hr⟩
              · cases h
              · simp only [Option.some.injEq, Except.ok.injEq, Prod.mk.injEq] at h
                obtain ⟨h1, _⟩ := h
                subst h1
                have := (appendMember_error_iff sp item.key t1 .UnsupportedStructLayout).mpr
                  ⟨rfl, hr⟩
                rw [ha] at this
                cases this
            | cons p pre =>
              simp at hsplit
              obtain ⟨h1, h2⟩ := hsplit
              subst h1
              refine ⟨pre, item, post, sp, imp, h2, ?_, hcase⟩
              simpa [convertObjectMembers, hc, ha] using hpre

/-- Unfolding of `convertType` on a struct node whose member list is an object. -/
theorem convertType_struct_object (fuel : Nat) (importer : PylonTypeImporter)
    (items mitems : List (Item Node))
    (howner : importer.typeOwner.isSome = true)
    (hkey : (Node.get (.Object items) "key").text = "struct")
    (hname : (Node.get (.Object items) "name").isText = true)
    (hmembers : Node.get (.Object items) "members" = .Object mitems) :
    convertType (fuel + 1) importer (.Object items) =
      match convertObjectMembers (convertType fuel) mitems importer
          ⟨0, (Node.get (.Object items) "name").text, []⟩ with
      | none => none
      | some (.error e) => some (.error e)
      | some (.ok (structType, imp)) =>
        some (.ok (structType.toDescriptor,
          { imp with typeOwner := imp.typeOwner.map (·.adoptType structType.toDescriptor) })) := by
  cases hown : importer.typeOwner with
  | none => simp [hown] at howner
  | some o =>
    rw [convertType]
    simp only [show (Node.Object items).isText = false from rfl,
      show (Node.Object items).isObject = true from rfl, hkey, hown, hname, hmembers]
    simp [Node.isObject, Node.items]

/-- On a member list that is an array of two-element arrays, the array loop
does what the object loop does on the entries that the pairs stand for. -/
theorem convertArrayMembers_eq_object
    (conv : PylonTypeImporter → Node → Option (Converted TypeDescriptor)) :
    ∀ (elems : List Node) (importer : PylonTypeImporter) (s : TypeDescriptor_Struct),
      (elems.all (fun aMember => aMember.isArray && aMember.arrayView.length == 2)) = true →
      convertArrayMembers conv elems importer s
        = convertObjectMembers conv (elems.map memberItem) importer s := by
  intro elems
  induction elems with
  | nil =>
    intro importer s _
    rfl
  | cons aMember rest ih =>
    intro importer s hall
    simp only [List.all_cons, Bool.and_eq_true, beq_iff_eq] at hall
    obtain ⟨⟨h1, h2⟩, hrest⟩ := hall
    simp only [List.map_cons]
    unfold convertArrayMembers convertObjectMembers
    rw [if_neg (by simp [h1]), if_neg (by simp [h2])]
    simp only [memberItem]
    cases conv importer (aMember.arrayView.getD 1 .Invalid) with
    | none => rfl
    | some c =>
      cases c with
      | error e => rfl
      | ok pair =>
        obtain ⟨t, imp⟩ := pair
        simp only
        cases appendMember s (aMember.arrayView.getD 0 .Invalid).text t with
        | error e => rfl
        | ok s1 =>
          simp only
          exact ih imp s1 hrest

/-- Unfolding of `convertType` on a struct node with a well-shaped member list,
object or array. -/
theorem convertType_struct_members (fuel : Nat) (importer : PylonTypeImporter)
    (items mitems : List (Item Node))
    (howner : importer.typeOwner.isSome = true)
    (hkey : (Node.get (.Object items) "key").text = "struct")
    (hname : (Node.get (.Object items) "name").isText = true)
    (hmembers : declaredMembers (Node.get (.Object items) "members") = some mitems) :
    convertType (fuel + 1) importer (.Object items) =
      match convertObjectMembers (convertType fuel) mitems importer
          ⟨0, (Node.get (.Object items) "name").text, []⟩ with
      | none => none
      | some (.error e) => some (.error e)
      | some (.ok (structType, imp)) =>
        some (.ok (structType.toDescriptor,
          { imp with typeOwner := imp.typeOwner.map (·.adoptType structType.toDescriptor) })) := by
  cases hm : Node.get (.Object items) "members" with
  | Object its =>
    rw [hm] at hmembers
    simp only [declaredMembers, Option.some.injEq] at hmembers
    subst hmembers
    exact convertType_struct_object fuel importer items its howner hkey hname hm
  | Array elems =>
    rw [hm] at hmembers
    simp only [declaredMembers] at hmembers
    split at hmembers
    · rename_i hall
      simp only [Option.some.injEq] at hmembers
      subst hmembers
      cases hown : importer.typeOwner with
      | none => simp [hown] at howner
      | some o =>
        rw [convertType]
        simp only [show (Node.Object items).isText = false from rfl,
          show (Node.Object items).isObject = true from rfl, hkey, hown, hname, hm]
        simp only [Node.isObject, Node.isArray, Node.arrayView,
          convertArrayMembers_eq_object _ elems importer _ hall]
        simp
    · cases hmembers
  | Invalid =>
    rw [hm] at hmembers
    simp [declaredMembers] at hmembers
  | Text str =>
    rw [hm] at hmembers
    simp [declaredMembers] at hmembers

/-- A text node never makes `convertType` abort for the layout reason. -/
theorem convertType_text_ne_layout (fuel : Nat) (importer : PylonTypeImporter) (str : String) :
    convertType fuel importer (.Text str) ≠ some (.error .UnsupportedStructLayout) := by
  cases fuel with
  | zero => simp [convertType]
  | succ fuel =>
    simp only [convertType, Node.isText, Node.text, if_true]
    repeat' split
    all_goals simp

/-! ## Claims about the type importer -/

/-- C2 (amended): for every object type node on which `convertType` succeeds, the
result is a struct descriptor whose fixed size is a multiple of 4 bytes. -/
theorem synthesized_struct_size_multiple_of_four (fuel : Nat)
    (importer importer2 : PylonTypeImporter) (items : List (Item Node))
    (typeDesc : TypeDescriptor)
    (h : convertType fuel importer (.Object items) = some (.ok (typeDesc, importer2))) :
    typeDesc.isStruct = true ∧ typeDesc.fixedSize % 4 = 0 := by
  obtain ⟨s, hs, _, h4⟩ := convertType_object_packed fuel importer importer2 items typeDesc h
  subst hs
  exact ⟨rfl, h4⟩

/-- Witness for C2: the struct with members `a: u16` and `b: u16` is synthesized
with fixed size 8. -/
theorem synthesized_struct_size_multiple_of_four_witness :
    convertType 2 ⟨some .new, none⟩ twoU16Node
      = some (.ok (twoU16Struct, ⟨some ⟨[twoU16Struct], none⟩, none⟩))
    ∧ twoU16Struct.isStruct = true ∧ twoU16Struct.fixedSize % 4 = 0 :=
  ⟨rfl, synthesized_struct_size_multiple_of_four 2 ⟨some .new, none⟩
    ⟨some ⟨[twoU16Struct], none⟩, none⟩
    [⟨"key", .Text "struct"⟩, ⟨"name", .Text "S"⟩,
      ⟨"members", .Object [⟨"a", .Text "u16"⟩, ⟨"b", .Text "u16"⟩]⟩]
    twoU16Struct rfl⟩

/-- Counterexample to C2 as stated: on the text node `Foo`, with a resolver that
maps the name to a struct descriptor of 6 bytes, `convertType` succeeds with
that struct descriptor, whose fixed size has remainder 2 modulo 4. -/
theorem resolved_struct_size_not_multiple_of_four :
    (convertType 1 ⟨none, some (fun _ => some (.struct 6 "Foo" [⟨"x", 0, .u16Array 3⟩]))⟩
        (.Text "Foo")).map
      (fun r => r.toOption.map (fun x => (x.1.isStruct, x.1.fixedSize % 4)))
      = some (some (true, 2)) := by
  decide

/-- Counterexample to C3: the struct `O` whose only member `m` is the nested
struct `I` with the one-byte member `x`.  The synthesis of `O` aborts with
`UnsupportedStructLayout`, but no member of `O` is appended at all, so no prefix
of its members reaches a running size with remainder 1 or 3: the abort is the
one of the nested struct `I`. -/
theorem nested_struct_layout_abort :
    convertType 3 ⟨some .new, byteResolver⟩ nestedByteNode
      = some (.error .UnsupportedStructLayout) ∧
    ¬ ∃ (pre : List (Item Node)) (item : Item Node) (post : List (Item Node))
        (sp : TypeDescriptor_Struct) (imp : PylonTypeImporter) (t : TypeDescriptor)
        (imp2 : PylonTypeImporter),
        [(⟨"m", structNode "I" [⟨"x", .Text "byte"⟩]⟩ : Item Node)] = pre ++ item :: post ∧
        convertObjectMembers (convertType 2) pre ⟨some .new, byteResolver⟩ ⟨0, "O", []⟩
          = some (.ok (sp, imp)) ∧
        convertType 2 imp item.value = some (.ok (t, imp2)) ∧
        ((sp.fixedSize + t.fixedSize) % 4 = 1 ∨ (sp.fixedSize + t.fixedSize) % 4 = 3) := by
  refine ⟨rfl, ?_⟩
  rintro ⟨pre, item, post, sp, imp, t, imp2, hsplit, hpre, hconv, _⟩
  cases pre with
  | nil =>
    simp only [List.nil_append, List.cons.injEq] at hsplit
    obtain ⟨h1, _⟩ := hsplit
    subst h1
    simp only [convertObjectMembers, Option.some.injEq, Except.ok.injEq, Prod.mk.injEq] at hpre
    obtain ⟨_, h2⟩ := hpre
    subst h2
    have herr : convertType 2 ⟨some .new, byteResolver⟩ (structNode "I" [⟨"x", .Text "byte"⟩])
        = some (.error .UnsupportedStructLayout) := rfl
    rw [herr] at hconv
    cases hconv
  | cons p pre =>
    simp only [List.cons_append, List.cons.injEq] at hsplit
    obtain ⟨_, h2⟩ := hsplit
    cases pre <;> simp at h2

/-- C3 (amended padding rule).  First part, one step of the lambda
`appendMember`: when the running fixed size after the append has remainder 0
nothing more is appended, when it has remainder 2 exactly one `u16` member named
`padding` is appended, and when it has remainder 1 or 3 the synthesis aborts with
`UnsupportedStructLayout`.  Second part, for a struct node with an arena, a text
name and a member list `mitems` (given as an object, or as an array of
`[name, type]` pairs): the synthesis aborts with `UnsupportedStructLayout` if and
only if there is a member such that the members before it were converted and
appended, and either the conversion of its own type aborts with
`UnsupportedStructLayout`, as for a nested struct, or appending it brings the
running size to remainder 1 or 3. -/
theorem padding_rule (s : TypeDescriptor_Struct) (memberName : String)
    (memberType : TypeDescriptor) (fuel : Nat) (importer : PylonTypeImporter)
    (items mitems : List (Item Node))
    (howner : importer.typeOwner.isSome = true)
    (hkey : (Node.get (.Object items) "key").text = "struct")
    (hname : (Node.get (.Object items) "name").isText = true)
    (hmembers : declaredMembers (Node.get (.Object items) "members") = some mitems) :
    (((s.fixedSize + memberType.fixedSize) % 4 = 0 →
        appendMember s memberName memberType = .ok (s.appendMember memberName memberType)) ∧
      ((s.fixedSize + memberType.fixedSize) % 4 = 2 →
        appendMember s memberName memberType =
          .ok ((s.appendMember memberName memberType).appendMember "padding" .u16)) ∧
      ((s.fixedSize + memberType.fixedSize) % 4 = 1 ∨
          (s.fixedSize + memberType.fixedSize) % 4 = 3 →
        appendMember s memberName memberType = .error .UnsupportedStructLayout)) ∧
    (convertType (fuel + 1) importer (.Object items) = some (.error .UnsupportedStructLayout) ↔
      ∃ (pre : List (Item Node)) (item : Item Node) (post : List (Item Node))
        (sp : TypeDescriptor_Struct) (imp : PylonTypeImporter),
        mitems = pre ++ item :: post ∧
        convertObjectMembers (convertType fuel) pre importer
          ⟨0, (Node.get (.Object items) "name").text, []⟩ = some (.ok (sp, imp)) ∧
        (convertType fuel imp item.value = some (.error .UnsupportedStructLayout) ∨
          ∃ (t : TypeDescriptor) (imp2 : PylonTypeImporter),
            convertType fuel imp item.value = some (.ok (t, imp2)) ∧
            ((sp.fixedSize + t.fixedSize) % 4 = 1 ∨ (sp.fixedSize + t.fixedSize) % 4 = 3))) := by
  refine ⟨⟨?_, ?_, ?_⟩, ?_⟩
  · intro h0
    simp [appendMember, TypeDescriptor_Struct.appendMember, h0]
  · intro h2
    simp [appendMember, TypeDescriptor_Struct.appendMember, h2]
  · intro h13
    exact (appendMember_error_iff s memberName memberType _).mpr ⟨rfl, h13⟩
  · rw [convertType_struct_members fuel importer items mitems howner hkey hname hmembers,
      ← convertObjectMembers_layout_cases (convertType fuel) mitems importer _]
    cases convertObjectMembers (convertType fuel) mitems importer
        ⟨0, (Node.get (.Object items) "name").text, []⟩ with
    | none => simp
    | some r =>
      cases r with
      | error e => simp
      | ok pair => simp

/-- Witness for C3 as amended: a struct whose only member has a one-byte type
aborts with `UnsupportedStructLayout`, the running size 1 having remainder 1;
and the struct `O` of `nestedByteNode` aborts with it because the synthesis of
its member type, the nested struct `I`, does. -/
theorem padding_rule_witness :
    convertType 2 ⟨some .new, byteResolver⟩ byteMemberNode
      = some (.error .UnsupportedStructLayout) ∧
    convertType 3 ⟨some .new, byteResolver⟩ nestedByteNode
      = some (.error .UnsupportedStructLayout) :=
  ⟨(padding_rule ⟨0, "S", []⟩ "a" .u8 1 ⟨some .new, byteResolver⟩
      [⟨"key", .Text "struct"⟩, ⟨"name", .Text "S"⟩, ⟨"members", .Object [⟨"a", .Text "byte"⟩]⟩]
      [⟨"a", .Text "byte"⟩] rfl (by decide) rfl rfl).2.mpr
    ⟨[], ⟨"a", .Text "byte"⟩, [], ⟨0, "S", []⟩, ⟨some .new, byteResolver⟩, rfl, rfl,
      Or.inr ⟨.u8, ⟨some .new, byteResolver⟩, rfl, Or.inl rfl⟩⟩,
    (padding_rule ⟨0, "S", []⟩ "a" .u8 2 ⟨some .new, byteResolver⟩
      [⟨"key", .Text "struct"⟩, ⟨"name", .Text "O"⟩,
        ⟨"members", .Object [⟨"m", structNode "I" [⟨"x", .Text "byte"⟩]⟩]⟩]
      [⟨"m", structNode "I" [⟨"x", .Text "byte"⟩]⟩] rfl (by decide) rfl rfl).2.mpr
    ⟨[], ⟨"m", structNode "I" [⟨"x", .Text "byte"⟩]⟩, [], ⟨0, "O", []⟩,
      ⟨some .new, byteResolver⟩, rfl, rfl, Or.inl rfl⟩⟩

/-- C4 (amended): a struct whose declared members are exactly two fields of
two-byte types is synthesized with one `padding` member after each of them, two
in all, at the offsets 0, 2, 4 and 6 and with the fixed size 8, a multiple of 4;
a struct whose only member is one field of a four-byte type is synthesized
without a padding member and with the fixed size 4. -/
theorem two_byte_fields_get_two_paddings (fuel : Nat) (importer imp1 imp2 imp3 : PylonTypeImporter)
    (name a b : String) (aTypeNode bTypeNode cTypeNode : Node) (aType bType cType : TypeDescriptor)
    (howner : importer.typeOwner.isSome = true)
    (ha : convertType (fuel + 1) importer aTypeNode = some (.ok (aType, imp1)))
    (hb : convertType (fuel + 1) imp1 bTypeNode = some (.ok (bType, imp2)))
    (hc : convertType (fuel + 1) importer cTypeNode = some (.ok (cType, imp3)))
    (hasize : aType.fixedSize = 2) (hbsize : bType.fixedSize = 2)
    (hcsize : cType.fixedSize = 4) :
    convertType (fuel + 2) importer (structNode name [⟨a, aTypeNode⟩, ⟨b, bTypeNode⟩])
      = some (.ok (.struct 8 name
          [⟨a, 0, aType⟩, ⟨"padding", 2, .u16⟩, ⟨b, 4, bType⟩, ⟨"padding", 6, .u16⟩],
        { imp2 with
          typeOwner := imp2.typeOwner.map (·.adoptType (.struct 8 name
            [⟨a, 0, aType⟩, ⟨"padding", 2, .u16⟩, ⟨b, 4, bType⟩, ⟨"padding", 6, .u16⟩])) }))
    ∧ convertType (fuel + 2) importer (structNode name [⟨a, cTypeNode⟩])
      = some (.ok (.struct 4 name [⟨a, 0, cType⟩],
        { imp3 with
          typeOwner := imp3.typeOwner.map (·.adoptType (.struct 4 name [⟨a, 0, cType⟩])) })) := by
  constructor
  · rw [structNode, convertType_struct_object (fuel + 1) importer _ [⟨a, aTypeNode⟩, ⟨b, bTypeNode⟩]
      howner (by simp [Node.get, Node.lookup, Node.text])
      (by simp [Node.get, Node.lookup, Node.isText]) (by simp [Node.get, Node.lookup])]
    have hu : TypeDescriptor.u16.fixedSize = 2 := rfl
    simp [convertObjectMembers, ha, hb, appendMember, TypeDescriptor_Struct.appendMember, hasize,
      hbsize, hu, TypeDescriptor_Struct.toDescriptor, Node.get, Node.lookup, Node.text]
  · rw [structNode, convertType_struct_object (fuel + 1) importer _ [⟨a, cTypeNode⟩]
      howner (by simp [Node.get, Node.lookup, Node.text])
      (by simp [Node.get, Node.lookup, Node.isText]) (by simp [Node.get, Node.lookup])]
    simp [convertObjectMembers, hc, appendMember, TypeDescriptor_Struct.appendMember, hcsize,
      TypeDescriptor_Struct.toDescriptor, Node.get, Node.lookup, Node.text]

/-- Witness for C4: the members `a: u16` and `b: u16`, and the single member
`a: float`. -/
theorem two_byte_fields_get_two_paddings_witness :
    convertType 2 ⟨some .new, none⟩ (structNode "S" [⟨"a", .Text "u16"⟩, ⟨"b", .Text "u16"⟩])
      = some (.ok (.struct 8 "S"
          [⟨"a", 0, .u16⟩, ⟨"padding", 2, .u16⟩, ⟨"b", 4, .u16⟩, ⟨"padding", 6, .u16⟩],
        ⟨some (TypeDescriptorOwner.new.adoptType (.struct 8 "S"
          [⟨"a", 0, .u16⟩, ⟨"padding", 2, .u16⟩, ⟨"b", 4, .u16⟩, ⟨"padding", 6, .u16⟩])), none⟩))
    ∧ convertType 2 ⟨some .new, none⟩ (structNode "S" [⟨"a", .Text "float"⟩])
      = some (.ok (.struct 4 "S" [⟨"a", 0, .float⟩],
        ⟨some (TypeDescriptorOwner.new.adoptType (.struct 4 "S" [⟨"a", 0, .float⟩])), none⟩)) :=
  two_byte_fields_get_two_paddings 0 ⟨some .new, none⟩ ⟨some .new, none⟩ ⟨some .new, none⟩
    ⟨some .new, none⟩ "S" "a" "b" (.Text "u16") (.Text "u16") (.Text "float") .u16 .u16 .float
    rfl rfl rfl rfl rfl rfl rfl

/-- Counterexample to C4 as stated: the struct with the two members `a: u16`
and `b: u16` is synthesized with two members named `padding`, not one, and with
the fixed size 8. -/
theorem two_u16_fields_not_one_padding :
    (convertType 2 ⟨some .new, none⟩ twoU16Node).map
      (fun r => r.toOption.map
        (fun x => (x.1.members.map (fun m => (m.name, m.offset)), x.1.fixedSize)))
      = some (some ([("a", 0), ("padding", 2), ("b", 4), ("padding", 6)], 8)) := by
  decide

/-- Counterexample to C5 as stated: on the text node `Gap`, with a resolver that
maps the name to the struct descriptor `gapStruct`, `convertType` succeeds with
that struct descriptor, of fixed size 8, whose last member `b` has the offset 4
and a type of 2 bytes: it ends at 6, not at the fixed size. -/
theorem resolved_struct_not_packed :
    (convertType 1 ⟨none, some (fun _ => some gapStruct)⟩ (.Text "Gap")).map
      (fun r => r.toOption.map (fun x => (x.1.isStruct,
        x.1.members.map (fun m => (m.name, m.offset, m.type.fixedSize)), x.1.fixedSize)))
      = some (some (true, [("a", 0, 4), ("b", 4, 2)], 8)) ∧
    convertType 1 ⟨none, some (fun _ => some gapStruct)⟩ (.Text "Gap")
      = some (.ok (gapStruct, ⟨none, some (fun _ => some gapStruct)⟩)) ∧
    ¬ (∀ m, gapStruct.members.getLast? = some m →
      m.offset + m.type.fixedSize = gapStruct.fixedSize) := by
  refine ⟨rfl, rfl, ?_⟩
  intro h
  have h6 := h ⟨"b", 4, .u16⟩ rfl
  revert h6
  decide

/-- C5 (amended layout of a synthesized struct).  In every struct descriptor that
`convertType` synthesizes from an object node, the members (declared ones and
padding, in append order) have increasing offsets and do not overlap: for each
member and each later member, the offset of the first plus the fixed size of its
type is at most the offset of the second; and the last member ends at the fixed
size of the struct. -/
theorem synthesized_struct_members_packed (fuel : Nat)
    (importer importer2 : PylonTypeImporter) (items : List (Item Node))
    (typeDesc : TypeDescriptor)
    (h : convertType fuel importer (.Object items) = some (.ok (typeDesc, importer2))) :
    typeDesc.members.Pairwise
        (fun m n => m.offset ≤ n.offset ∧ m.offset + m.type.fixedSize ≤ n.offset) ∧
      (∀ m, typeDesc.members.getLast? = some m →
        m.offset + m.type.fixedSize = typeDesc.fixedSize) := by
  obtain ⟨s, hs, hp, _⟩ := convertType_object_packed fuel importer importer2 items typeDesc h
  subst hs
  exact ⟨hp.1, hp.2.2.1⟩

/-- Witness for C5: the layout of the struct synthesized from `twoU16Node`. -/
theorem synthesized_struct_members_packed_witness :
    twoU16Struct.members.Pairwise
        (fun m n => m.offset ≤ n.offset ∧ m.offset + m.type.fixedSize ≤ n.offset) ∧
      (∀ m, twoU16Struct.members.getLast? = some m →
        m.offset + m.type.fixedSize = twoU16Struct.fixedSize) :=
  synthesized_struct_members_packed 2 ⟨some .new, none⟩ ⟨some ⟨[twoU16Struct], none⟩, none⟩
    [⟨"key", .Text "struct"⟩, ⟨"name", .Text "S"⟩,
      ⟨"members", .Object [⟨"a", .Text "u16"⟩, ⟨"b", .Text "u16"⟩]⟩]
    twoU16Struct rfl

/-- C6 (text type nodes).  On a text node, each of the built-in names `u16`,
`u16_2`, `u16_3`, `u16_4` and `float` yields its built-in descriptor whatever
the resolver is; every other text yields exactly the descriptor that the
resolver returns for it, and the conversion aborts, with `UnknownTypeName`, if
and only if there is no resolver or the resolver returns no descriptor.  The
importer state is not changed. -/
theorem text_type_node (fuel : Nat) (importer : PylonTypeImporter) (str : String) :
    (str = "u16" → convertType (fuel + 1) importer (.Text str) = some (.ok (.u16, importer))) ∧
    (str = "u16_2" →
      convertType (fuel + 1) importer (.Text str)
        = some (.ok (.fixedArray 4 .u16 2, importer))) ∧
    (str = "u16_3" →
      convertType (fuel + 1) importer (.Text str)
        = some (.ok (.fixedArray 6 .u16 3, importer))) ∧
    (str = "u16_4" →
      convertType (fuel + 1) importer (.Text str)
        = some (.ok (.fixedArray 8 .u16 4, importer))) ∧
    (str = "float" →
      convertType (fuel + 1) importer (.Text str) = some (.ok (.float, importer))) ∧
    (str ≠ "u16" → str ≠ "u16_2" → str ≠ "u16_3" → str ≠ "u16_4" → str ≠ "float" →
      (∀ call typeDesc, importer.typeFromName = some call → call str = some typeDesc →
        convertType (fuel + 1) importer (.Text str) = some (.ok (typeDesc, importer))) ∧
      (convertType (fuel + 1) importer (.Text str) = some (.error .UnknownTypeName) ↔
        importer.typeFromName = none ∨
          ∃ call, importer.typeFromName = some call ∧ call str = none) ∧
      (∀ e, convertType (fuel + 1) importer (.Text str) = some (.error e) →
        e = .UnknownTypeName) ∧
      convertType (fuel + 1) importer (.Text str) ≠ none) := by
  refine ⟨?_, ?_, ?_, ?_, ?_, ?_⟩
  · intro h
    subst h
    rfl
  · intro h
    subst h
    rfl
  · intro h
    subst h
    rfl
  · intro h
    subst h
    rfl
  · intro h
    subst h
    rfl
  · intro h1 h2 h3 h4 h5
    have hrun : convertType (fuel + 1) importer (.Text str) =
        match (match importer.typeFromName with
          | some call => call str
          | none => none : Option TypeDescriptor) with
        | none => some (.error .UnknownTypeName)
        | some typeDesc => some (.ok (typeDesc, importer)) := by
      simp [convertType, Node.isText, Node.text, h1, h2, h3, h4, h5]
    rw [hrun]
    cases hres : importer.typeFromName with
    | none => simp
    | some call =>
      cases hcall : call str with
      | none =>
        simp only [hcall]
        refine ⟨?_, ?_, ?_, ?_⟩
        · intro call2 t2 hc2 hs2
          injection hc2 with hc2
          subst hc2
          rw [hcall] at hs2
          cases hs2
        · exact ⟨fun _ => Or.inr ⟨call, rfl, hcall⟩, fun _ => by simp⟩
        · intro e h
          injection h with h
          injection h with h
          exact h.symm
        · simp
      | some t =>
        simp only [hcall]
        refine ⟨?_, ?_, ?_, ?_⟩
        · intro call2 t2 hc2 hs2
          injection hc2 with hc2
          subst hc2
          rw [hcall] at hs2
          injection hs2 with hs2
          subst hs2
          rfl
        · constructor
          · intro h
            cases h
          · rintro (h | ⟨call2, hc2, hs2⟩)
            · cases h
            · injection hc2 with hc2
              subst hc2
              rw [hcall] at hs2
              cases hs2
        · intro e h
          cases h
        · simp

/-! ## Positional loops -/

theorem decodeSlot_eq_some {conv : TypedPtr → Node → Option Outcome} {type : TypeDescriptor}
    {i : Nat} {aNode : Node} {obj : Value} {out : Outcome}
    (h : decodeSlot conv type i aNode obj = some out) :
    ∃ o, conv ⟨obj.slot i, type⟩ aNode = some o ∧ out = ⟨obj.setSlot i o.obj, o.failure⟩ := by
  unfold decodeSlot at h
  cases hc : conv ⟨obj.slot i, type⟩ aNode with
  | none => simp [hc] at h
  | some o =>
    obtain ⟨v, f⟩ := o
    simp [hc] at h
    exact ⟨⟨v, f⟩, rfl, h.symm⟩

/-- Effect of a positional loop `for i in [start, start + count)` that decodes
`nodeAt i` into slot `i`: slots outside the range are untouched; when the loop
finished, every slot of the range holds what the decode of its element wrote
into the contents the slot had before the loop; when it aborted, some element
decode aborted with that error after all earlier ones had succeeded. -/
theorem forRange_decodeSlot (conv : TypedPtr → Node → Option Outcome) (type : TypeDescriptor)
    (nodeAt : Nat → Node) :
    ∀ (count start : Nat) (obj : Value) (out : Outcome),
      forRange (fun i => decodeSlot conv type i (nodeAt i)) count start obj = some out →
      (∀ k, k < start ∨ start + count ≤ k → out.obj.slot k = obj.slot k) ∧
      (out.failure = none → ∀ i, start ≤ i → i < start + count →
        ∃ o, conv ⟨obj.slot i, type⟩ (nodeAt i) = some o ∧ o.failure = none ∧
          out.obj.slot i = o.obj) ∧
      (∀ e, out.failure = some e → ∃ i, start ≤ i ∧ i < start + count ∧
        (∃ o, conv ⟨obj.slot i, type⟩ (nodeAt i) = some o ∧ o.failure = some e) ∧
        ∀ j, start ≤ j → j < i →
          ∃ o, conv ⟨obj.slot j, type⟩ (nodeAt j) = some o ∧ o.failure = none) := by
  intro count
  induction count with
  | zero =>
    intro start obj out h
    simp [forRange] at h
    subst h
    refine ⟨fun _ _ => rfl, ?_, ?_⟩
    · intro _ i h1 h2
      omega
    · intro e he
      cases he
  | succ count ih =>
    intro start obj out h
    unfold forRange at h
    cases hb : decodeSlot conv type start (nodeAt start) obj with
    | none => simp [hb, Outcome.andThen] at h
    | some first =>
      obtain ⟨o, hconv, hfirst⟩ := decodeSlot_eq_some hb
      obtain ⟨v, f⟩ := o
      subst hfirst
      cases f with
      | some e =>
        simp [hb, Outcome.andThen] at h
        subst h
        refine ⟨?_, ?_, ?_⟩
        · intro k hk
          exact Value.slot_setSlot_other obj start k v (by omega)
        · intro hnone
          cases hnone
        · intro e2 he2
          simp at he2
          subst he2
          exact ⟨start, le_refl _, by omega, ⟨⟨v, some e⟩, hconv, rfl⟩, fun j h1 h2 => by omega⟩
      | none =>
        simp [hb, Outcome.andThen] at h
        obtain ⟨hframe, hok, herr⟩ := ih (start + 1) (obj.setSlot start v) out h
        have hother : ∀ i, start + 1 ≤ i → (obj.setSlot start v).slot i = obj.slot i :=
          fun i hi => Value.slot_setSlot_other obj start i v (by omega)
        refine ⟨?_, ?_, ?_⟩
        · intro k hk
          rw [hframe k (by omega)]
          exact Value.slot_setSlot_other obj start k v (by omega)
        · intro hnone i h1 h2
          by_cases hi : i = start
          · subst hi
            refine ⟨⟨v, none⟩, hconv, rfl, ?_⟩
            rw [hframe i (by omega)]
            exact Value.slot_setSlot_same obj i v
          · obtain ⟨o, ho, hof, hslot⟩ := hok hnone i (by omega) (by omega)
            rw [hother i (by omega)] at ho
            exact ⟨o, ho, hof, hslot⟩
        · intro e he
          obtain ⟨i, h1, h2, ⟨o, ho, hof⟩, hbefore⟩ := herr e he
          rw [hother i h1] at ho
          refine ⟨i, by omega, by omega, ⟨o, ho, hof⟩, ?_⟩
          intro j hj1 hj2
          by_cases hj : j = start
          · subst hj
            exact ⟨⟨v, none⟩, hconv, rfl⟩
          · obtain ⟨o2, ho2, hof2⟩ := hbefore j (by omega) hj2
            rw [hother j (by omega)] at ho2
            exact ⟨o2, ho2, hof2⟩

/-- A positional loop returns when every element decode of its range returns. -/
theorem forRange_decodeSlot_returns (conv : TypedPtr → Node → Option Outcome)
    (type : TypeDescriptor) (nodeAt : Nat → Node) :
    ∀ (count start : Nat) (obj : Value),
      (∀ i, start ≤ i → i < start + count →
        ∃ o, conv ⟨obj.slot i, type⟩ (nodeAt i) = some o) →
      ∃ out, forRange (fun i => decodeSlot conv type i (nodeAt i)) count start obj = some out := by
  intro count
  induction count with
  | zero =>
    intro start obj _
    exact ⟨⟨obj, none⟩, rfl⟩
  | succ count ih =>
    intro start obj hall
    obtain ⟨⟨v, f⟩, ho⟩ := hall start (le_refl _) (by omega)
    have hb : decodeSlot conv type start (nodeAt start) obj = some ⟨obj.setSlot start v, f⟩ := by
      simp [decodeSlot, ho]
    cases f with
    | some e =>
      exact ⟨⟨obj.setSlot start v, some e⟩, by simp [forRange, hb, Outcome.andThen]⟩
    | none =>
      have hrest : ∀ i, start + 1 ≤ i → i < start + 1 + count →
          ∃ o, conv ⟨(obj.setSlot start v).slot i, type⟩ (nodeAt i) = some o := by
        intro i h1 h2
        rw [Value.slot_setSlot_other obj start i v (by omega)]
        exact hall i (by omega) (by omega)
      obtain ⟨out, hout⟩ := ih (start + 1) (obj.setSlot start v) hrest
      exact ⟨out, by simp [forRange, hb, Outcome.andThen, hout]⟩

/-! ## Claims about the value importer -/

theorem findState_first (stateName : String) :
    ∀ (states : List (State TypeDescriptor)) (start i : Nat) (state : State TypeDescriptor),
      states.get? i = some state → state.name = stateName →
      (∀ j st, j < i → states.get? j = some st → st.name ≠ stateName) →
      findState stateName states start = some (start + i, state) := by
  intro states
  induction states with
  | nil =>
    intro start i state hget _ _
    simp at hget
  | cons head rest ih =>
    intro start i state hget hname hfirst
    cases i with
    | zero =>
      simp at hget
      subst hget
      simp [findState, hname]
    | succ i =>
      have hhead : head.name ≠ stateName := hfirst 0 head (by omega) (by simp)
      have hrest := ih (start + 1) i state (by simpa using hget) hname
        (fun j st hj hst => hfirst (j + 1) st (by omega) (by simpa using hst))
      simp only [findState, hhead, if_false]
      rw [hrest]
      congr 2
      omega

theorem findState_none (stateName : String) :
    ∀ (states : List (State TypeDescriptor)) (start : Nat),
      (∀ st ∈ states, st.name ≠ stateName) → findState stateName states start = none := by
  intro states
  induction states with
  | nil =>
    intro start _
    rfl
  | cons head rest ih =>
    intro start h
    have hhead : head.name ≠ stateName := h head (List.mem_cons_self _ _)
    simp only [findState, hhead, if_false]
    exact ih (start + 1) (fun st hst => h st (List.mem_cons_of_mem _ hst))

/-- C7 (switch decode, success case).  For an object node with exactly one
entry whose key is the name of a declared state, where `i` is the index of the
first state with that name (and fits the 16 bit discriminant), the decode sets
the discriminant to `i` and the payload storage to what the decode of the value
of the entry into the struct type of that state, on the payload storage of the
switch, leaves; it succeeds or aborts as that decode does. -/
theorem switch_decode_selects_state (construct : TypeDescriptor → Value)
    (typeFromName : TypeFromName) (fuel fixedSize storageOffset : Nat)
    (states : List (State TypeDescriptor)) (ptr : Value) (key : String) (value : Node)
    (i : Nat) (state : State TypeDescriptor)
    (hget : states.get? i = some state) (hname : state.name = key)
    (hfirst : ∀ j st, j < i → states.get? j = some st → st.name ≠ key)
    (hi : i < 65536) :
    convertFrom construct typeFromName (fuel + 1) ⟨ptr, .switch fixedSize storageOffset states⟩
        (.Object [⟨key, value⟩])
      = match convertFrom construct typeFromName fuel ⟨ptr.switchStorage, state.structType⟩
          value with
        | none => none
        | some ⟨v, failure⟩ => some ⟨.switch i v, failure⟩ := by
  have hfind := findState_first key states 0 i state hget hname hfirst
  rw [Nat.zero_add] at hfind
  rw [convertFrom]
  simp only [Node.isValid, Node.isObject, Node.items, hfind, ensureStateIs, Value.switchStorage,
    Value.setSwitchStorage, Nat.mod_eq_of_lt hi]
  simp

/-- Witness for C7: decoding the node with the one entry `Running` that holds
`pid = 42` into the example switch, in state 0 before, yields the discriminant
1 and the member `pid` equal to 42. -/
theorem switch_decode_selects_state_witness :
    (convertFrom (fun _ => .indeterminate) none 3 ⟨.switch 0 .indeterminate, processSwitch⟩
        (.Object [⟨"Running", .Object [⟨"pid", .Text "42"⟩]⟩])).map
      (fun out => (out.obj.switchId, (out.obj.switchStorage.slot 0).unsigned, out.failure))
      = some (some 1, some 42, none) := by
  unfold processSwitch
  rw [switch_decode_selects_state (fun _ => .indeterminate) none 2 8 4
    [⟨"Idle", .struct 0 "Idle" []⟩, ⟨"Running", .struct 4 "Running" [⟨"pid", 0, .u32⟩]⟩]
    (.switch 0 .indeterminate) "Running" (.Object [⟨"pid", .Text "42"⟩]) 1
    ⟨"Running", .struct 4 "Running" [⟨"pid", 0, .u32⟩]⟩ rfl rfl
    (by
      intro j st hj hst
      have hj0 : j = 0 := by omega
      subst hj0
      simp at hst
      subst hst
      decide)
    (by decide)]
  decide

/-- C8 (switch decode, failure cases).  Decoding an object node whose number of
entries is not one into a switch aborts with `ExactlyOneStateRequired`, whatever
the keys are; decoding an object node with one entry whose key names no declared
state aborts with `UnknownSwitchState`.  In both cases the storage of the
switch, discriminant and payload, is left as it was. -/
theorem switch_decode_failures (construct : TypeDescriptor → Value)
    (typeFromName : TypeFromName) (fuel fixedSize storageOffset : Nat)
    (states : List (State TypeDescriptor)) (ptr : Value) (items : List (Item Node)) :
    (items.length ≠ 1 →
      convertFrom construct typeFromName (fuel + 1)
          ⟨ptr, .switch fixedSize storageOffset states⟩ (.Object items)
        = some ⟨ptr, some .ExactlyOneStateRequired⟩) ∧
    (∀ key value, items = [⟨key, value⟩] → (∀ st ∈ states, st.name ≠ key) →
      convertFrom construct typeFromName (fuel + 1)
          ⟨ptr, .switch fixedSize storageOffset states⟩ (.Object items)
        = some ⟨ptr, some .UnknownSwitchState⟩) := by
  constructor
  · intro hlen
    rw [convertFrom]
    simp only [Node.isValid, Node.isObject, Node.items]
    match items, hlen with
    | [], _ => simp
    | [_], h => simp at h
    | _ :: _ :: _, _ => simp
  · intro key value hitems hnone
    subst hitems
    rw [convertFrom]
    simp only [Node.isValid, Node.isObject, Node.items, findState_none key states 0 hnone]
    simp

/-- C9 (amended enum decode).  For an enum descriptor with 1, 2 or 4 bytes of
storage and a text node: when `identifier` is the first enumerator whose name
equals the text, the decode writes its value at the storage width and succeeds,
provided the value fits the width (at most 255 for one byte, at most 65535 for
two); a value that does not fit aborts with `EnumValueOutOfRange` and writes
nothing.  Text that equals no enumerator name aborts with `UnknownEnumerator`
and writes nothing.  So the decode succeeds if and only if the text equals an
enumerator name and the value of the first such enumerator fits the width. -/
theorem enum_decode (construct : TypeDescriptor → Value) (typeFromName : TypeFromName)
    (fuel : Nat) (desc : TypeDescriptor_Enum) (ptr : Value) (str : String)
    (hwidth : desc.fixedSize = 1 ∨ desc.fixedSize = 2 ∨ desc.fixedSize = 4) :
    (∀ identifier,
      desc.identifiers.find? (fun identifier => identifier.name = str) = some identifier →
      (desc.fixedSize = 1 → identifier.value ≤ 255 →
        convertFrom construct typeFromName (fuel + 1) ⟨ptr, .enum desc⟩ (.Text str)
          = some ⟨.u8 identifier.value, none⟩) ∧
      (desc.fixedSize = 2 → identifier.value ≤ 65535 →
        convertFrom construct typeFromName (fuel + 1) ⟨ptr, .enum desc⟩ (.Text str)
          = some ⟨.u16 identifier.value, none⟩) ∧
      (desc.fixedSize = 4 →
        convertFrom construct typeFromName (fuel + 1) ⟨ptr, .enum desc⟩ (.Text str)
          = some ⟨.u32 identifier.value, none⟩) ∧
      ((desc.fixedSize = 1 ∧ 255 < identifier.value) ∨
          (desc.fixedSize = 2 ∧ 65535 < identifier.value) →
        convertFrom construct typeFromName (fuel + 1) ⟨ptr, .enum desc⟩ (.Text str)
          = some ⟨ptr, some .EnumValueOutOfRange⟩)) ∧
    ((∀ identifier ∈ desc.identifiers, identifier.name ≠ str) →
      convertFrom construct typeFromName (fuel + 1) ⟨ptr, .enum desc⟩ (.Text str)
        = some ⟨ptr, some .UnknownEnumerator⟩) ∧
    ((∃ v, convertFrom construct typeFromName (fuel + 1) ⟨ptr, .enum desc⟩ (.Text str)
        = some ⟨v, none⟩) ↔
      ∃ identifier,
        desc.identifiers.find? (fun identifier => identifier.name = str) = some identifier ∧
        (desc.fixedSize = 1 → identifier.value ≤ 255) ∧
        (desc.fixedSize = 2 → identifier.value ≤ 65535)) := by
  have hrun : convertFrom construct typeFromName (fuel + 1) ⟨ptr, .enum desc⟩ (.Text str) =
      match desc.identifiers.find? (fun identifier => identifier.name = str) with
      | some identifier =>
        if desc.fixedSize = 1 then
          if identifier.value ≤ 255 then some ⟨.u8 identifier.value, none⟩
          else some ⟨ptr, some .EnumValueOutOfRange⟩
        else if desc.fixedSize = 2 then
          if identifier.value ≤ 65535 then some ⟨.u16 identifier.value, none⟩
          else some ⟨ptr, some .EnumValueOutOfRange⟩
        else if desc.fixedSize = 4 then some ⟨.u32 identifier.value, none⟩
        else some ⟨ptr, some .UnsupportedEnumWidth⟩
      | none => some ⟨ptr, some .UnknownEnumerator⟩ := by
    rw [convertFrom]
    simp [Node.isValid, Node.isText, Node.text]
  rw [hrun]
  refine ⟨?_, ?_, ?_⟩
  · intro identifier hfind
    rw [hfind]
    refine ⟨?_, ?_, ?_, ?_⟩
    · intro h1 hfit
      simp [h1, hfit]
    · intro h2 hfit
      simp [h2, hfit]
    · intro h4
      simp [h4]
    · rintro (⟨h1, hbig⟩ | ⟨h2, hbig⟩)
      · simp [h1, Nat.not_le.mpr hbig]
      · simp [h2, Nat.not_le.mpr hbig]
  · intro hnone
    have hfind : desc.identifiers.find? (fun identifier => identifier.name = str) = none := by
      rw [List.find?_eq_none]
      intro identifier hmem
      simpa using hnone identifier hmem
    rw [hfind]
  · cases hfind : desc.identifiers.find? (fun identifier => identifier.name = str) with
    | none => simp
    | some identifier =>
      simp only [Option.some.injEq, exists_eq_left']
      rcases hwidth with h1 | h2 | h4
      · by_cases hfit : identifier.value ≤ 255
        · simp [h1, hfit]
        · simp [h1, hfit]
      · by_cases hfit : identifier.value ≤ 65535
        · simp [h2, hfit]
        · simp [h2, hfit]
      · simp [h4]

/-- Witness for C9: `Blue` against the example enum writes the byte 2, and
`Purple` aborts with `UnknownEnumerator` and leaves the storage as it was. -/
theorem enum_decode_witness :
    convertFrom (fun _ => .indeterminate) none 1 ⟨.u8 0, colorEnum⟩ (.Text "Blue")
      = some ⟨.u8 2, none⟩ ∧
    convertFrom (fun _ => .indeterminate) none 1 ⟨.u8 0, colorEnum⟩ (.Text "Purple")
      = some ⟨.u8 0, some .UnknownEnumerator⟩ :=
  ⟨((enum_decode (fun _ => .indeterminate) none 0 ⟨1, [⟨"Red", 0⟩, ⟨"Green", 1⟩, ⟨"Blue", 2⟩]⟩
      (.u8 0) "Blue" (Or.inl rfl)).1 ⟨"Blue", 2⟩ (by decide)).1 rfl (by decide),
    (enum_decode (fun _ => .indeterminate) none 0 ⟨1, [⟨"Red", 0⟩, ⟨"Green", 1⟩, ⟨"Blue", 2⟩]⟩
      (.u8 0) "Purple" (Or.inl rfl)).2.1 (by decide)⟩

/-- Counterexample to C9 as stated: the text `Big` equals the name of a declared
enumerator of an enum with one byte of storage, yet the decode aborts, because
the value 300 of that enumerator does not fit one byte; the storage still holds
the 7 it held before. -/
theorem enum_decode_value_out_of_range :
    (convertFrom (fun _ => .indeterminate) none 1 ⟨.u8 7, .enum ⟨1, [⟨"Big", 300⟩]⟩⟩
        (.Text "Big")).map (fun out => (out.obj.unsigned, out.failure))
      = some (some 7, some .EnumValueOutOfRange) := by
  decide

theorem forRange_congr (body1 body2 : Nat → Value → Option Outcome) :
    ∀ (count start : Nat) (obj : Value),
      (∀ i, start ≤ i → i < start + count → ∀ v, body1 i v = body2 i v) →
      forRange body1 count start obj = forRange body2 count start obj := by
  intro count
  induction count with
  | zero =>
    intro start obj _
    rfl
  | succ count ih =>
    intro start obj h
    unfold forRange
    rw [h start (le_refl _) (by omega) obj]
    have hnext : forRange body1 count (start + 1) = forRange body2 count (start + 1) := by
      funext v
      exact ih (start + 1) v (fun i h1 h2 v => h i (by omega) (by omega) v)
    rw [hnext]

/-- A decode of the invalid sentinel aborts at the validity assertion. -/
theorem convertFrom_invalid (construct : TypeDescriptor → Value) (typeFromName : TypeFromName)
    (fuel : Nat) (obj : TypedPtr) (out : Outcome)
    (h : convertFrom construct typeFromName fuel obj .Invalid = some out) :
    out = ⟨obj.ptr, some .InvalidNode⟩ := by
  cases fuel with
  | zero => simp [convertFrom] at h
  | succ fuel =>
    rw [convertFrom] at h
    simp [Node.isValid] at h
    exact h.symm

theorem convertFrom_fixedArray (construct : TypeDescriptor → Value)
    (typeFromName : TypeFromName) (fuel fixedSize : Nat) (itemType : TypeDescriptor)
    (numItems : Nat) (ptr : Value) (elems : List Node) :
    convertFrom construct typeFromName (fuel + 1) ⟨ptr, .fixedArray fixedSize itemType numItems⟩
        (.Array elems)
      = forRange
          (fun i => decodeSlot (convertFrom construct typeFromName fuel) itemType i
            ((Node.Array elems).getAt i))
          numItems 0 ptr := by
  rw [convertFrom]
  simp [Node.isValid, Node.isArray]

/-- C10 (amended fixed array decode).  Decoding an array node into a fixed array
of `numItems` items: (1) when the node is shorter than `numItems` the decode
never succeeds, and when the elements that exist decode, it aborts at the
validity assertion for the first missing element; (2) the decode returns
whenever the element decodes return; (3) when it succeeds, the node has at least
`numItems` elements and every slot `i < numItems` holds what the decode of
element `i` into that slot wrote; (4) when the node has at least `numItems`
elements, of which the first `numItems` decode, the decode succeeds, so a longer
node is not rejected; (5) the elements from index `numItems` on are ignored;
(6) slots from `numItems` on are untouched. -/
theorem fixed_array_decode (construct : TypeDescriptor → Value) (typeFromName : TypeFromName)
    (fuel fixedSize : Nat) (itemType : TypeDescriptor) (numItems : Nat) (ptr : Value)
    (elems : List Node) :
    (elems.length < numItems →
      (∀ out,
        convertFrom construct typeFromName (fuel + 1)
          ⟨ptr, .fixedArray fixedSize itemType numItems⟩ (.Array elems) = some out →
        out.failure ≠ none) ∧
      ((∀ i, i < elems.length →
          ∃ o, convertFrom construct typeFromName fuel ⟨ptr.slot i, itemType⟩
            ((Node.Array elems).getAt i) = some o ∧ o.failure = none) →
        ∀ out,
          convertFrom construct typeFromName (fuel + 1)
            ⟨ptr, .fixedArray fixedSize itemType numItems⟩ (.Array elems) = some out →
          out.failure = some .InvalidNode)) ∧
    ((∀ i, i < numItems →
        ∃ o, convertFrom construct typeFromName fuel ⟨ptr.slot i, itemType⟩
          ((Node.Array elems).getAt i) = some o) →
      ∃ out,
        convertFrom construct typeFromName (fuel + 1)
          ⟨ptr, .fixedArray fixedSize itemType numItems⟩ (.Array elems) = some out) ∧
    (∀ out,
      convertFrom construct typeFromName (fuel + 1)
        ⟨ptr, .fixedArray fixedSize itemType numItems⟩ (.Array elems) = some out →
      out.failure = none →
      numItems ≤ elems.length ∧
        ∀ i, i < numItems →
          ∃ o, convertFrom construct typeFromName fuel ⟨ptr.slot i, itemType⟩
            ((Node.Array elems).getAt i) = some o ∧ o.failure = none ∧
            out.obj.slot i = o.obj) ∧
    (numItems ≤ elems.length →
      (∀ i, i < numItems →
        ∃ o, convertFrom construct typeFromName fuel ⟨ptr.slot i, itemType⟩
          ((Node.Array elems).getAt i) = some o ∧ o.failure = none) →
      ∃ out,
        convertFrom construct typeFromName (fuel + 1)
          ⟨ptr, .fixedArray fixedSize itemType numItems⟩ (.Array elems) = some out ∧
        out.failure = none) ∧
    (convertFrom construct typeFromName (fuel + 1)
        ⟨ptr, .fixedArray fixedSize itemType numItems⟩ (.Array elems)
      = convertFrom construct typeFromName (fuel + 1)
        ⟨ptr, .fixedArray fixedSize itemType numItems⟩ (.Array (elems.take numItems))) ∧
    (∀ out,
      convertFrom construct typeFromName (fuel + 1)
        ⟨ptr, .fixedArray fixedSize itemType numItems⟩ (.Array elems) = some out →
      ∀ k, numItems ≤ k → out.obj.slot k = ptr.slot k) := by
  have hmissing : ∀ i, elems.length ≤ i → (Node.Array elems).getAt i = .Invalid := by
    intro i hi
    simp [Node.getAt, Node.arrayView, List.getElem?_eq_none hi]
  have hshort : elems.length < numItems → ∀ out,
      convertFrom construct typeFromName (fuel + 1)
        ⟨ptr, .fixedArray fixedSize itemType numItems⟩ (.Array elems) = some out →
      out.failure ≠ none := by
    intro hlen out h hnone
    rw [convertFrom_fixedArray] at h
    obtain ⟨_, hok, _⟩ := forRange_decodeSlot _ _ _ _ _ _ _ h
    obtain ⟨o, ho, hof, _⟩ := hok hnone elems.length (Nat.zero_le _) (by omega)
    rw [hmissing _ (le_refl _)] at ho
    have := convertFrom_invalid _ _ _ _ _ ho
    rw [this] at hof
    cases hof
  refine ⟨?_, ?_, ?_, ?_, ?_, ?_⟩
  · intro hlen
    refine ⟨hshort hlen, ?_⟩
    intro hall out h
    have hne := hshort hlen out h
    cases hf : out.failure with
    | none => exact absurd hf hne
    | some e =>
      rw [convertFrom_fixedArray] at h
      obtain ⟨_, _, herr⟩ := forRange_decodeSlot _ _ _ _ _ _ _ h
      obtain ⟨i, _, _, ⟨o, ho, hof⟩, _⟩ := herr e hf
      by_cases hi : i < elems.length
      · obtain ⟨o2, ho2, hof2⟩ := hall i hi
        rw [ho] at ho2
        injection ho2 with ho2
        subst ho2
        rw [hof] at hof2
        cases hof2
      · rw [hmissing i (by omega)] at ho
        have := convertFrom_invalid _ _ _ _ _ ho
        rw [this] at hof
        simp at hof
        rw [hof]
  · intro hall
    rw [convertFrom_fixedArray]
    exact forRange_decodeSlot_returns _ _ _ _ _ _ (fun i _ hi => hall i (by omega))
  · intro out h hnone
    have hlen : numItems ≤ elems.length := by
      by_contra hcon
      exact hshort (by omega) out h hnone
    refine ⟨hlen, ?_⟩
    rw [convertFrom_fixedArray] at h
    obtain ⟨_, hok, _⟩ := forRange_decodeSlot _ _ _ _ _ _ _ h
    intro i hi
    exact hok hnone i (Nat.zero_le _) (by omega)
  · intro _ hall
    obtain ⟨out, hout⟩ := forRange_decodeSlot_returns
      (convertFrom construct typeFromName fuel) itemType (fun i => (Node.Array elems).getAt i)
      numItems 0 ptr
      (fun i _ hi => by
        obtain ⟨o, ho, _⟩ := hall i (by omega)
        exact ⟨o, ho⟩)
    refine ⟨out, by rw [convertFrom_fixedArray]; exact hout, ?_⟩
    cases hf : out.failure with
    | none => rfl
    | some e =>
      obtain ⟨_, _, herr⟩ := forRange_decodeSlot _ _ _ _ _ _ _ hout
      obtain ⟨i, _, hi, ⟨o, ho, hof⟩, _⟩ := herr e hf
      obtain ⟨o2, ho2, hof2⟩ := hall i (by omega)
      rw [ho] at ho2
      injection ho2 with ho2
      subst ho2
      rw [hof] at hof2
      cases hof2
  · rw [convertFrom_fixedArray, convertFrom_fixedArray]
    apply forRange_congr
    intro i _ hi v
    have : (Node.Array elems).getAt i = (Node.Array (elems.take numItems)).getAt i := by
      simp only [Node.getAt, Node.arrayView]
      rw [List.get?_eq_getElem?, List.get?_eq_getElem?, List.getElem?_take_of_lt (by omega)]
    simp only [this]
  · intro out h k hk
    rw [convertFrom_fixedArray] at h
    obtain ⟨hframe, _, _⟩ := forRange_decodeSlot _ _ _ _ _ _ _ h
    exact hframe k (Or.inr (by omega))

/-- Counterexample to C10 as stated: an array node of two elements decoded into
a fixed array of one `u16` is not rejected; the decode succeeds, writes the
first element into slot 0 and ignores the second. -/
theorem fixed_array_accepts_longer_node :
    (convertFrom (fun _ => .indeterminate) none 2
        ⟨.slots (fun _ => .u16 0), .fixedArray 2 .u16 1⟩
        (.Array [.Text "1", .Text "2"])).map
      (fun out => ((out.obj.slot 0).unsigned, (out.obj.slot 1).unsigned, out.failure))
      = some (some 1, some 0, none) := by
  decide

/-! ## Independence of the recursion bound

A call that returned under some bound returns the same under every larger
bound. -/

theorem convertObjectMembers_mono
    (conv1 conv2 : PylonTypeImporter → Node → Option (Converted TypeDescriptor))
    (hconv : ∀ imp n r, conv1 imp n = some r → conv2 imp n = some r) :
    ∀ (items : List (Item Node)) (importer : PylonTypeImporter) (s : TypeDescriptor_Struct)
      (r : Converted TypeDescriptor_Struct),
      convertObjectMembers conv1 items importer s = some r →
      convertObjectMembers conv2 items importer s = some r := by
  intro items
  induction items with
  | nil =>
    intro importer s r h
    exact h
  | cons item rest ih =>
    intro importer s r h
    unfold convertObjectMembers at h ⊢
    cases hc : conv1 importer item.value with
    | none => simp [hc] at h
    | some c =>
      rw [hconv _ _ _ hc]
      rw [hc] at h
      cases c with
      | error e => exact h
      | ok pair =>
        obtain ⟨t, imp⟩ := pair
        simp only at h ⊢
        cases ha : appendMember s item.key t with
        | error e =>
          simp only [ha] at h ⊢
          exact h
        | ok s1 =>
          simp only [ha] at h ⊢
          exact ih imp s1 r h

theorem convertArrayMembers_mono
    (conv1 conv2 : PylonTypeImporter → Node → Option (Converted TypeDescriptor))
    (hconv : ∀ imp n r, conv1 imp n = some r → conv2 imp n = some r) :
    ∀ (elems : List Node) (importer : PylonTypeImporter) (s : TypeDescriptor_Struct)
      (r : Converted TypeDescriptor_Struct),
      convertArrayMembers conv1 elems importer s = some r →
      convertArrayMembers conv2 elems importer s = some r := by
  intro elems
  induction elems with
  | nil =>
    intro importer s r h
    exact h
  | cons aMember rest ih =>
    intro importer s r h
    unfold convertArrayMembers at h ⊢
    by_cases h1 : (!aMember.isArray) = true
    · rw [if_pos h1] at h ⊢
      exact h
    · rw [if_neg h1] at h ⊢
      by_cases h2 : aMember.arrayView.length ≠ 2
      · rw [if_pos h2] at h ⊢
        exact h
      · rw [if_neg h2] at h ⊢
        cases hc : conv1 importer (aMember.arrayView.getD 1 .Invalid) with
        | none =>
          rw [hc] at h
          cases h
        | some c =>
          rw [hconv _ _ _ hc]
          rw [hc] at h
          cases c with
          | error e => exact h
          | ok pair =>
            obtain ⟨t, imp⟩ := pair
            simp only at h ⊢
            cases ha : appendMember s (aMember.arrayView.getD 0 .Invalid).text t with
            | error e =>
              simp only [ha] at h ⊢
              exact h
            | ok s1 =>
              simp only [ha] at h ⊢
              exact ih imp s1 r h

/-- A type conversion that returned under the bound `fuel` returns the same
under the bound `fuel + 1`. -/
theorem convertType_mono :
    ∀ (fuel : Nat) (importer : PylonTypeImporter) (aNode : Node) (r : Converted TypeDescriptor),
      convertType fuel importer aNode = some r → convertType (fuel + 1) importer aNode = some r := by
  intro fuel
  induction fuel with
  | zero =>
    intro importer aNode r h
    simp [convertType] at h
  | succ fuel ih =>
    intro importer aNode r h
    rw [convertType] at h ⊢
    generalize convertType fuel = c1 at h ih
    generalize convertType (fuel + 1) = c2 at ih ⊢
    by_cases ht : aNode.isText = true
    · rw [if_pos ht] at h ⊢
      exact h
    · rw [if_neg ht] at h ⊢
      by_cases ho : aNode.isObject = true
      · rw [if_pos ho] at h ⊢
        simp only at h ⊢
        by_cases hk : (aNode.get "key").text = "struct"
        · rw [if_pos hk] at h ⊢
          cases hown : importer.typeOwner with
          | none =>
            simp only [hown] at h ⊢
            exact h
          | some o =>
            simp only [hown] at h ⊢
            by_cases hn : (!(aNode.get "name").isText) = true
            · rw [if_pos hn] at h ⊢
              exact h
            · rw [if_neg hn] at h ⊢
              by_cases hmo : (aNode.get "members").isObject = true
              · simp only [hmo, if_true] at h ⊢
                cases hb : convertObjectMembers c1 (aNode.get "members").items importer
                    ⟨0, (aNode.get "name").text, []⟩ with
                | none =>
                  rw [hb] at h
                  cases h
                | some b =>
                  rw [convertObjectMembers_mono c1 c2 ih _ _ _ _ hb]
                  rw [hb] at h
                  exact h
              · by_cases hma : (aNode.get "members").isArray = true
                · simp only [hmo, hma, if_true] at h ⊢
                  simp only [Bool.false_eq_true, if_false] at h ⊢
                  cases hb : convertArrayMembers c1 (aNode.get "members").arrayView importer
                      ⟨0, (aNode.get "name").text, []⟩ with
                  | none =>
                    rw [hb] at h
                    cases h
                  | some b =>
                    rw [convertArrayMembers_mono c1 c2 ih _ _ _ _ hb]
                    rw [hb] at h
                    exact h
                · simp only [hmo, hma] at h ⊢
                  exact h
        · rw [if_neg hk] at h ⊢
          exact h
      · rw [if_neg ho] at h ⊢
        exact h

theorem convertTypeFrom_mono (fuel : Nat) (aNode : Node) (typeFromName : TypeFromName)
    (r : Except Error TypeDescriptorOwner)
    (h : convertTypeFrom fuel aNode typeFromName = some r) :
    convertTypeFrom (fuel + 1) aNode typeFromName = some r := by
  unfold convertTypeFrom at h ⊢
  simp only at h ⊢
  cases hc : convertType fuel ⟨some TypeDescriptorOwner.new, typeFromName⟩ aNode with
  | none =>
    rw [hc] at h
    cases h
  | some c =>
    rw [convertType_mono _ _ _ _ hc]
    rw [hc] at h
    exact h

theorem decodeSlot_mono (conv1 conv2 : TypedPtr → Node → Option Outcome)
    (hconv : ∀ x n r, conv1 x n = some r → conv2 x n = some r) (type : TypeDescriptor)
    (i : Nat) (aNode : Node) (obj : Value) (r : Outcome)
    (h : decodeSlot conv1 type i aNode obj = some r) :
    decodeSlot conv2 type i aNode obj = some r := by
  unfold decodeSlot at h ⊢
  cases hc : conv1 ⟨obj.slot i, type⟩ aNode with
  | none =>
    rw [hc] at h
    cases h
  | some c =>
    rw [hconv _ _ _ hc]
    rw [hc] at h
    exact h

theorem Outcome.andThen_mono (first : Option Outcome) (next1 next2 : Value → Option Outcome)
    (hnext : ∀ v r, next1 v = some r → next2 v = some r) (r : Outcome)
    (h : Outcome.andThen first next1 = some r) : Outcome.andThen first next2 = some r := by
  unfold Outcome.andThen at h ⊢
  cases first with
  | none => cases h
  | some o =>
    obtain ⟨obj, f⟩ := o
    cases f with
    | some e => exact h
    | none => exact hnext _ _ h

theorem convertStructMembers_mono (conv1 conv2 : TypedPtr → Node → Option Outcome)
    (hconv : ∀ x n r, conv1 x n = some r → conv2 x n = some r) (aNode : Node) :
    ∀ (members : List (Member TypeDescriptor)) (k : Nat) (obj : Value) (r : Outcome),
      convertStructMembers conv1 aNode members k obj = some r →
      convertStructMembers conv2 aNode members k obj = some r := by
  intro members
  induction members with
  | nil =>
    intro k obj r h
    exact h
  | cons member rest ih =>
    intro k obj r h
    unfold convertStructMembers at h ⊢
    simp only at h ⊢
    by_cases hv : (aNode.get member.name).isValid = true
    · rw [if_pos hv] at h ⊢
      cases hd : decodeSlot conv1 member.type k (aNode.get member.name) obj with
      | none =>
        rw [hd] at h
        cases h
      | some d =>
        rw [decodeSlot_mono conv1 conv2 hconv _ _ _ _ _ hd]
        rw [hd] at h
        exact Outcome.andThen_mono _ _ _ (ih (k + 1)) r h
    · rw [if_neg hv] at h ⊢
      exact ih (k + 1) obj r h

theorem convertEnumIndexed_mono (conv1 conv2 : TypedPtr → Node → Option Outcome)
    (hconv : ∀ x n r, conv1 x n = some r → conv2 x n = some r) (aNode : Node)
    (itemType : TypeDescriptor) :
    ∀ (identifiers : List Identifier) (obj : Value) (r : Outcome),
      convertEnumIndexed conv1 aNode itemType identifiers obj = some r →
      convertEnumIndexed conv2 aNode itemType identifiers obj = some r := by
  intro identifiers
  induction identifiers with
  | nil =>
    intro obj r h
    exact h
  | cons identifier rest ih =>
    intro obj r h
    unfold convertEnumIndexed at h ⊢
    simp only at h ⊢
    by_cases hv : (aNode.get identifier.name).isValid = true
    · rw [if_pos hv] at h ⊢
      cases hd : decodeSlot conv1 itemType identifier.value (aNode.get identifier.name) obj with
      | none =>
        rw [hd] at h
        cases h
      | some d =>
        rw [decodeSlot_mono conv1 conv2 hconv _ _ _ _ _ hd]
        rw [hd] at h
        exact Outcome.andThen_mono _ _ _ ih r h
    · rw [if_neg hv] at h ⊢
      exact ih obj r h

theorem forRange_mono (body1 body2 : Nat → Value → Option Outcome)
    (hbody : ∀ i v r, body1 i v = some r → body2 i v = some r) :
    ∀ (count start : Nat) (obj : Value) (r : Outcome),
      forRange body1 count start obj = some r → forRange body2 count start obj = some r := by
  intro count
  induction count with
  | zero =>
    intro start obj r h
    exact h
  | succ count ih =>
    intro start obj r h
    unfold forRange at h ⊢
    cases hb : body1 start obj with
    | none =>
      rw [hb] at h
      cases h
    | some b =>
      rw [hbody _ _ _ hb]
      rw [hb] at h
      exact Outcome.andThen_mono _ _ _ (ih (start + 1)) r h

/-- A decode that returned under the bound `fuel` returns the same under the
bound `fuel + 1`. -/
theorem convertFrom_mono (construct : TypeDescriptor → Value) (typeFromName : TypeFromName) :
    ∀ (fuel : Nat) (obj : TypedPtr) (aNode : Node) (out : Outcome),
      convertFrom construct typeFromName fuel obj aNode = some out →
      convertFrom construct typeFromName (fuel + 1) obj aNode = some out := by
  intro fuel
  induction fuel with
  | zero =>
    intro obj aNode out h
    simp [convertFrom] at h
  | succ fuel ih =>
    intro obj aNode out h
    obtain ⟨ptr, type⟩ := obj
    rw [convertFrom] at h ⊢
    have htype : ∀ n r, convertTypeFrom fuel n typeFromName = some r →
        convertTypeFrom (fuel + 1) n typeFromName = some r :=
      fun n r hr => convertTypeFrom_mono fuel n typeFromName r hr
    generalize convertFrom construct typeFromName fuel = c1 at h ih
    generalize convertFrom construct typeFromName (fuel + 1) = c2 at ih ⊢
    generalize convertTypeFrom fuel = t1 at h htype
    generalize convertTypeFrom (fuel + 1) = t2 at htype ⊢
    by_cases hv : (!aNode.isValid) = true
    · rw [if_pos hv] at h ⊢
      exact h
    · rw [if_neg hv] at h ⊢
      cases type with
      | struct fs name members =>
        simp only at h ⊢
        by_cases ho : (!aNode.isObject) = true
        · rw [if_pos ho] at h ⊢
          exact h
        · rw [if_neg ho] at h ⊢
          exact convertStructMembers_mono c1 c2 ih aNode members 0 ptr out h
      | float => exact h
      | u8 => exact h
      | u16 => exact h
      | bool => exact h
      | u32 => exact h
      | s32 => exact h
      | fixedArray fs itemType numItems =>
        simp only at h ⊢
        by_cases ha : (!aNode.isArray) = true
        · rw [if_pos ha] at h ⊢
          exact h
        · rw [if_neg ha] at h ⊢
          exact forRange_mono _ _
            (fun i v r hr => decodeSlot_mono c1 c2 ih _ _ _ _ _ hr) _ _ _ _ h
      | string fs => exact h
      | array fs itemType =>
        simp only at h ⊢
        by_cases ha : (!aNode.isArray) = true
        · rw [if_pos ha] at h ⊢
          exact h
        · rw [if_neg ha] at h ⊢
          exact forRange_mono _ _
            (fun i v r hr => decodeSlot_mono c1 c2 ih _ _ _ _ _ hr) _ _ _ _ h
      | enumIndexedArray fs itemType enumType =>
        simp only at h ⊢
        by_cases ho : (!aNode.isObject) = true
        · rw [if_pos ho] at h ⊢
          exact h
        · rw [if_neg ho] at h ⊢
          exact convertEnumIndexed_mono c1 c2 ih aNode itemType _ ptr out h
      | enum desc => exact h
      | savedTypedPtr fs =>
        simp only at h ⊢
        by_cases ho : (!aNode.isObject) = true
        · rw [if_pos ho] at h ⊢
          exact h
        · rw [if_neg ho] at h ⊢
          cases ht : t1 (aNode.get "type") typeFromName with
          | none =>
            rw [ht] at h
            cases h
          | some tr =>
            rw [htype _ _ ht]
            rw [ht] at h
            cases tr with
            | error e => exact h
            | ok owner =>
              simp only at h ⊢
              cases hroot : owner.getRootType with
              | none =>
                simp only [hroot] at h ⊢
                exact h
              | some rootType =>
                simp only [hroot] at h ⊢
                cases hc : c1 (TypedPtr.create construct rootType) (aNode.get "value") with
                | none =>
                  rw [hc] at h
                  cases h
                | some c =>
                  rw [ih _ _ _ hc]
                  rw [hc] at h
                  exact h
      | typedArray fs =>
        simp only at h ⊢
        by_cases ho : (!aNode.isObject) = true
        · rw [if_pos ho] at h ⊢
          exact h
        · rw [if_neg ho] at h ⊢
          cases ht : t1 (aNode.get "type") typeFromName with
          | none =>
            rw [ht] at h
            cases h
          | some tr =>
            rw [htype _ _ ht]
            rw [ht] at h
            cases tr with
            | error e => exact h
            | ok owner =>
              simp only at h ⊢
              cases hroot : owner.getRootType with
              | none =>
                simp only [hroot] at h ⊢
                exact h
              | some rootType =>
                simp only [hroot] at h ⊢
                exact forRange_mono _ _
                  (fun i v r hr => decodeSlot_mono c1 c2 ih _ _ _ _ _ hr) _ _ _ _ h
      | switch fs storageOffset states =>
        simp only at h ⊢
        by_cases ho : (!aNode.isObject) = true
        · rw [if_pos ho] at h ⊢
          exact h
        · rw [if_neg ho] at h ⊢
          split
          · rename_i iter hitems
            rw [hitems] at h
            simp only at h
            cases hf : findState iter.key states 0 with
            | none =>
              simp only [hf] at h ⊢
              exact h
            | some found =>
              obtain ⟨i, state⟩ := found
              simp only [hf] at h ⊢
              cases hc : c1 ⟨(ensureStateIs ptr (i % 65536)).switchStorage, state.structType⟩
                  iter.value with
              | none =>
                rw [hc] at h
                cases h
              | some c =>
                rw [ih _ _ _ hc]
                rw [hc] at h
                exact h
          · rename_i hitems
            split at h
            · rename_i iter hitems2
              exact absurd hitems2 (hitems iter)
            · exact h
      | owned fs targetType =>
        simp only at h ⊢
        cases hc : c1 (TypedPtr.create construct targetType) aNode with
        | none =>
          rw [hc] at h
          cases h
        | some c =>
          rw [ih _ _ _ hc]
          rw [hc] at h
          exact h
      | other fs => exact h

/-! ## Every call returns under a large enough recursion bound -/

theorem Node.depth_lookup_le (key : String) (items : List (Item Node)) :
    (Node.lookup key items).depth ≤ Node.depthItems items := by
  induction items with
  | nil => simp [Node.lookup, Node.depth]
  | cons item rest ih =>
    obtain ⟨k, v⟩ := item
    unfold Node.lookup
    by_cases hk : k = key
    · simp only [hk, if_true, Node.depthItems, Node.depthItem]
      exact le_max_left _ _
    · simp only [hk, if_false, Node.depthItems]
      exact le_trans ih (le_max_right _ _)

theorem Node.depth_get_lt (aNode : Node) (key : String) (h : aNode.isObject = true) :
    (aNode.get key).depth < aNode.depth := by
  cases aNode with
  | Object items =>
    simp only [Node.get, Node.depth]
    exact Nat.lt_succ_of_le (Node.depth_lookup_le key items)
  | Invalid => simp [Node.isObject] at h
  | Text s => simp [Node.isObject] at h
  | Array elems => simp [Node.isObject] at h

theorem Node.depth_mem_items (items : List (Item Node)) (item : Item Node) (h : item ∈ items) :
    item.value.depth ≤ Node.depthItems items := by
  induction items with
  | nil => simp at h
  | cons head rest ih =>
    simp only [Node.depthItems]
    rcases List.mem_cons.mp h with h1 | h1
    · subst h1
      obtain ⟨k, v⟩ := item
      simp only [Node.depthItem]
      exact le_max_left _ _
    · exact le_trans (ih h1) (le_max_right _ _)

theorem Node.depth_mem_elems (elems : List Node) (elem : Node) (h : elem ∈ elems) :
    elem.depth ≤ Node.depthElems elems := by
  induction elems with
  | nil => simp at h
  | cons head rest ih =>
    simp only [Node.depthElems]
    rcases List.mem_cons.mp h with h1 | h1
    · subst h1
      exact le_max_left _ _
    · exact le_trans (ih h1) (le_max_right _ _)

theorem Node.depth_items_lt (aNode : Node) (item : Item Node) (h : item ∈ aNode.items) :
    item.value.depth < aNode.depth := by
  cases aNode with
  | Object items =>
    simp only [Node.items] at h
    simp only [Node.depth]
    exact Nat.lt_succ_of_le (Node.depth_mem_items items item h)
  | Invalid => simp [Node.items] at h
  | Text s => simp [Node.items] at h
  | Array elems => simp [Node.items] at h

theorem Node.depth_arrayView_lt (aNode : Node) (elem : Node) (h : elem ∈ aNode.arrayView) :
    elem.depth < aNode.depth := by
  cases aNode with
  | Array elems =>
    simp only [Node.arrayView] at h
    simp only [Node.depth]
    exact Nat.lt_succ_of_le (Node.depth_mem_elems elems elem h)
  | Invalid => simp [Node.arrayView] at h
  | Text s => simp [Node.arrayView] at h
  | Object items => simp [Node.arrayView] at h

theorem Node.getD_arrayView (aNode : Node) (i : Nat) :
    aNode.arrayView.getD i .Invalid = .Invalid ∨ aNode.arrayView.getD i .Invalid ∈ aNode.arrayView := by
  by_cases hi : i < aNode.arrayView.length
  · right
    rw [List.getD_eq_getElem _ _ hi]
    exact List.getElem_mem _
  · left
    exact List.getD_eq_default _ _ (by omega)

theorem Node.getAt_eq_getD (aNode : Node) (i : Nat) :
    aNode.getAt i = aNode.arrayView.getD i .Invalid := by
  simp [Node.getAt, List.getD]

theorem convertObjectMembers_returns
    (conv : PylonTypeImporter → Node → Option (Converted TypeDescriptor)) :
    ∀ (items : List (Item Node)) (importer : PylonTypeImporter) (s : TypeDescriptor_Struct),
      (∀ item ∈ items, ∀ imp, conv imp item.value ≠ none) →
      convertObjectMembers conv items importer s ≠ none := by
  intro items
  induction items with
  | nil =>
    intro importer s _
    simp [convertObjectMembers]
  | cons item rest ih =>
    intro importer s h
    unfold convertObjectMembers
    cases hc : conv importer item.value with
    | none => exact absurd hc (h item (List.mem_cons_self _ _) importer)
    | some c =>
      cases c with
      | error e => simp
      | ok pair =>
        obtain ⟨t, imp⟩ := pair
        simp only
        cases appendMember s item.key t with
        | error e => simp
        | ok s1 =>
          simp only
          exact ih imp s1 (fun it hit => h it (List.mem_cons_of_mem _ hit))

theorem convertArrayMembers_returns
    (conv : PylonTypeImporter → Node → Option (Converted TypeDescriptor)) :
    ∀ (elems : List Node) (importer : PylonTypeImporter) (s : TypeDescriptor_Struct),
      (∀ aMember ∈ elems, ∀ imp, conv imp (aMember.arrayView.getD 1 .Invalid) ≠ none) →
      convertArrayMembers conv elems importer s ≠ none := by
  intro elems
  induction elems with
  | nil =>
    intro importer s _
    simp [convertArrayMembers]
  | cons aMember rest ih =>
    intro importer s h
    unfold convertArrayMembers
    by_cases h1 : (!aMember.isArray) = true
    · rw [if_pos h1]
      simp
    · rw [if_neg h1]
      by_cases h2 : aMember.arrayView.length ≠ 2
      · rw [if_pos h2]
        simp
      · rw [if_neg h2]
        cases hc : conv importer (aMember.arrayView.getD 1 .Invalid) with
        | none => exact absurd hc (h aMember (List.mem_cons_self _ _) importer)
        | some c =>
          cases c with
          | error e => simp
          | ok pair =>
            obtain ⟨t, imp⟩ := pair
            simp only
            cases appendMember s (aMember.arrayView.getD 0 .Invalid).text t with
            | error e => simp
            | ok s1 =>
              simp only
              exact ih imp s1 (fun it hit => h it (List.mem_cons_of_mem _ hit))

/-- The type importer returns on every node under every bound that exceeds the
depth of the node. -/
theorem convertType_returns :
    ∀ (fuel : Nat) (importer : PylonTypeImporter) (aNode : Node),
      aNode.depth < fuel → convertType fuel importer aNode ≠ none := by
  intro fuel
  induction fuel with
  | zero =>
    intro importer aNode h
    omega
  | succ fuel ih =>
    intro importer aNode hdepth
    rw [convertType]
    by_cases ht : aNode.isText = true
    · rw [if_pos ht]
      simp only
      repeat' split
      all_goals simp
    · rw [if_neg ht]
      by_cases ho : aNode.isObject = true
      · rw [if_pos ho]
        simp only
        by_cases hk : (aNode.get "key").text = "struct"
        · rw [if_pos hk]
          cases hown : importer.typeOwner with
          | none => simp
          | some o =>
            simp only
            by_cases hn : (!(aNode.get "name").isText) = true
            · rw [if_pos hn]
              simp
            · rw [if_neg hn]
              have hm : (aNode.get "members").depth < aNode.depth :=
                Node.depth_get_lt aNode "members" ho
              have hbuilt : (if (aNode.get "members").isObject = true then
                    convertObjectMembers (convertType fuel) (aNode.get "members").items
                      importer ⟨0, (aNode.get "name").text, []⟩
                  else if (aNode.get "members").isArray = true then
                    convertArrayMembers (convertType fuel) (aNode.get "members").arrayView
                      importer ⟨0, (aNode.get "name").text, []⟩
                  else some (.error .InvalidMemberListShape)) ≠ none := by
                by_cases hmo : (aNode.get "members").isObject = true
                · rw [if_pos hmo]
                  apply convertObjectMembers_returns
                  intro item hitem imp
                  apply ih
                  have := Node.depth_items_lt _ item hitem
                  omega
                · rw [if_neg hmo]
                  by_cases hma : (aNode.get "members").isArray = true
                  · rw [if_pos hma]
                    apply convertArrayMembers_returns
                    intro aMember hmem imp
                    apply ih
                    have h1 := Node.depth_arrayView_lt _ aMember hmem
                    rcases Node.getD_arrayView aMember 1 with h2 | h2
                    · rw [h2]
                      simp only [Node.depth]
                      omega
                    · have h3 := Node.depth_arrayView_lt _ _ h2
                      omega
                  · rw [if_neg hma]
                    simp
              revert hbuilt
              generalize (if (aNode.get "members").isObject = true then
                    convertObjectMembers (convertType fuel) (aNode.get "members").items
                      importer ⟨0, (aNode.get "name").text, []⟩
                  else if (aNode.get "members").isArray = true then
                    convertArrayMembers (convertType fuel) (aNode.get "members").arrayView
                      importer ⟨0, (aNode.get "name").text, []⟩
                  else some (.error .InvalidMemberListShape)) = built
              intro hbuilt
              cases built with
              | none => exact absurd rfl hbuilt
              | some b =>
                cases b with
                | error e => simp
                | ok pair => simp
        · rw [if_neg hk]
          simp
      · rw [if_neg ho]
        simp

theorem convertType_mono_le (fuel1 fuel2 : Nat) (hle : fuel1 ≤ fuel2)
    (importer : PylonTypeImporter) (aNode : Node) (r : Converted TypeDescriptor)
    (h : convertType fuel1 importer aNode = some r) :
    convertType fuel2 importer aNode = some r := by
  induction hle with
  | refl => exact h
  | step _ ih => exact convertType_mono _ _ _ _ ih

theorem convertTypeFrom_mono_le (fuel1 fuel2 : Nat) (hle : fuel1 ≤ fuel2) (aNode : Node)
    (typeFromName : TypeFromName) (r : Except Error TypeDescriptorOwner)
    (h : convertTypeFrom fuel1 aNode typeFromName = some r) :
    convertTypeFrom fuel2 aNode typeFromName = some r := by
  induction hle with
  | refl => exact h
  | step _ ih => exact convertTypeFrom_mono _ _ _ _ ih

theorem convertFrom_mono_le (construct : TypeDescriptor → Value) (typeFromName : TypeFromName)
    (fuel1 fuel2 : Nat) (hle : fuel1 ≤ fuel2) (obj : TypedPtr) (aNode : Node) (out : Outcome)
    (h : convertFrom construct typeFromName fuel1 obj aNode = some out) :
    convertFrom construct typeFromName fuel2 obj aNode = some out := by
  induction hle with
  | refl => exact h
  | step _ ih => exact convertFrom_mono construct typeFromName _ _ _ _ ih

theorem convertFrom_returns_le (construct : TypeDescriptor → Value) (typeFromName : TypeFromName)
    (fuel1 fuel2 : Nat) (hle : fuel1 ≤ fuel2) (obj : TypedPtr) (aNode : Node)
    (h : convertFrom construct typeFromName fuel1 obj aNode ≠ none) :
    convertFrom construct typeFromName fuel2 obj aNode ≠ none := by
  cases hc : convertFrom construct typeFromName fuel1 obj aNode with
  | none => exact absurd hc h
  | some out =>
    rw [convertFrom_mono_le construct typeFromName fuel1 fuel2 hle obj aNode out hc]
    simp

theorem convertTypeFrom_returns (fuel : Nat) (aNode : Node) (typeFromName : TypeFromName)
    (h : aNode.depth < fuel) : convertTypeFrom fuel aNode typeFromName ≠ none := by
  unfold convertTypeFrom
  simp only
  cases hc : convertType fuel ⟨some TypeDescriptorOwner.new, typeFromName⟩ aNode with
  | none => exact absurd hc (convertType_returns fuel _ aNode h)
  | some c =>
    cases c with
    | error e => simp
    | ok pair =>
      obtain ⟨t, imp⟩ := pair
      simp only
      cases imp.typeOwner with
      | none => simp
      | some o => simp

/-- A bound that serves every element of a list, from a bound for each. -/
theorem exists_common_bound {α : Type} (P : α → Nat → Prop)
    (hmono : ∀ x n m, n ≤ m → P x n → P x m) :
    ∀ l : List α, (∀ x ∈ l, ∃ n, P x n) → ∃ N, ∀ x ∈ l, P x N := by
  intro l
  induction l with
  | nil =>
    intro _
    exact ⟨0, fun x hx => absurd hx (List.not_mem_nil x)⟩
  | cons head rest ih =>
    intro h
    obtain ⟨n1, h1⟩ := h head (List.mem_cons_self _ _)
    obtain ⟨n2, h2⟩ := ih (fun x hx => h x (List.mem_cons_of_mem _ hx))
    refine ⟨max n1 n2, ?_⟩
    intro x hx
    rcases List.mem_cons.mp hx with hx1 | hx1
    · subst hx1
      exact hmono _ _ _ (le_max_left _ _) h1
    · exact hmono _ _ _ (le_max_right _ _) (h2 x hx1)

theorem Outcome.andThen_returns (first : Option Outcome) (next : Value → Option Outcome)
    (h1 : first ≠ none) (h2 : ∀ v, next v ≠ none) : Outcome.andThen first next ≠ none := by
  unfold Outcome.andThen
  cases first with
  | none => exact absurd rfl h1
  | some o =>
    obtain ⟨obj, f⟩ := o
    cases f with
    | some e => simp
    | none => exact h2 obj

theorem decodeSlot_returns (conv : TypedPtr → Node → Option Outcome) (type : TypeDescriptor)
    (i : Nat) (aNode : Node) (obj : Value) (h : ∀ v, conv ⟨v, type⟩ aNode ≠ none) :
    decodeSlot conv type i aNode obj ≠ none := by
  unfold decodeSlot
  cases hc : conv ⟨obj.slot i, type⟩ aNode with
  | none => exact absurd hc (h _)
  | some o => simp

theorem convertStructMembers_returns (conv : TypedPtr → Node → Option Outcome) (aNode : Node) :
    ∀ (members : List (Member TypeDescriptor)),
      (∀ m ∈ members, (aNode.get m.name).isValid = true →
        ∀ v, conv ⟨v, m.type⟩ (aNode.get m.name) ≠ none) →
      ∀ (k : Nat) (obj : Value), convertStructMembers conv aNode members k obj ≠ none := by
  intro members
  induction members with
  | nil =>
    intro _ k obj
    simp [convertStructMembers]
  | cons member rest ih =>
    intro h k obj
    have hrest := ih (fun m hm => h m (List.mem_cons_of_mem _ hm))
    unfold convertStructMembers
    simp only
    by_cases hv : (aNode.get member.name).isValid = true
    · rw [if_pos hv]
      exact Outcome.andThen_returns _ _
        (decodeSlot_returns conv _ _ _ _ (h member (List.mem_cons_self _ _) hv))
        (hrest (k + 1))
    · rw [if_neg hv]
      exact hrest (k + 1) obj

theorem convertEnumIndexed_returns (conv : TypedPtr → Node → Option Outcome) (aNode : Node)
    (itemType : TypeDescriptor) :
    ∀ (identifiers : List Identifier),
      (∀ identifier ∈ identifiers, (aNode.get identifier.name).isValid = true →
        ∀ v, conv ⟨v, itemType⟩ (aNode.get identifier.name) ≠ none) →
      ∀ (obj : Value), convertEnumIndexed conv aNode itemType identifiers obj ≠ none := by
  intro identifiers
  induction identifiers with
  | nil =>
    intro _ obj
    simp [convertEnumIndexed]
  | cons identifier rest ih =>
    intro h obj
    have hrest := ih (fun m hm => h m (List.mem_cons_of_mem _ hm))
    unfold convertEnumIndexed
    simp only
    by_cases hv : (aNode.get identifier.name).isValid = true
    · rw [if_pos hv]
      exact Outcome.andThen_returns _ _
        (decodeSlot_returns conv _ _ _ _ (h identifier (List.mem_cons_self _ _) hv))
        hrest
    · rw [if_neg hv]
      exact hrest obj

theorem forRange_returns (body : Nat → Value → Option Outcome)
    (h : ∀ i v, body i v ≠ none) :
    ∀ (count start : Nat) (obj : Value), forRange body count start obj ≠ none := by
  intro count
  induction count with
  | zero =>
    intro start obj
    simp [forRange]
  | succ count ih =>
    intro start obj
    unfold forRange
    exact Outcome.andThen_returns _ _ (h start obj) (ih (start + 1))

theorem convertFrom_invalid_returns (construct : TypeDescriptor → Value)
    (typeFromName : TypeFromName) (fuel : Nat) (obj : TypedPtr) (aNode : Node)
    (hv : aNode.isValid = false) :
    convertFrom construct typeFromName (fuel + 1) obj aNode ≠ none := by
  rw [convertFrom]
  simp [hv]

/-- One node of the induction behind `convertFrom_returns`: when every node of
smaller depth is decoded under some bound, so is this node, for every type. -/
theorem convertFrom_returns_step (construct : TypeDescriptor → Value)
    (typeFromName : TypeFromName) (aNode : Node)
    (hchild : ∀ c : Node, c.depth < aNode.depth → ∀ type : TypeDescriptor,
      ∃ n, ∀ v, convertFrom construct typeFromName n ⟨v, type⟩ c ≠ none) :
    ∀ (k : Nat) (type : TypeDescriptor), type.ownedDepth = k →
      ∃ n, ∀ v, convertFrom construct typeFromName n ⟨v, type⟩ aNode ≠ none := by
  have hmono : ∀ (type : TypeDescriptor) (c : Node) (n m : Nat), n ≤ m →
      (∀ v, convertFrom construct typeFromName n ⟨v, type⟩ c ≠ none) →
      ∀ v, convertFrom construct typeFromName m ⟨v, type⟩ c ≠ none :=
    fun type c n m hnm h v => convertFrom_returns_le construct typeFromName n m hnm _ _ (h v)
  by_cases hvalid : aNode.isValid = true
  swap
  · intro k type _
    exact ⟨1, fun v => convertFrom_invalid_returns construct typeFromName 0 _ aNode (by simpa using hvalid)⟩
  have hnv : ¬ ((!aNode.isValid) = true) := by simp [hvalid]
  intro k
  induction k with
  | zero =>
    intro type hk
    cases type with
    | owned fs targetType => simp [TypeDescriptor.ownedDepth] at hk
    | float =>
      refine ⟨1, fun v => ?_⟩
      rw [convertFrom, if_neg hnv]
      simp only
      split <;> simp
    | u8 =>
      refine ⟨1, fun v => ?_⟩
      rw [convertFrom, if_neg hnv]
      simp only
      split <;> simp
    | u16 =>
      refine ⟨1, fun v => ?_⟩
      rw [convertFrom, if_neg hnv]
      simp only
      split <;> simp
    | bool =>
      refine ⟨1, fun v => ?_⟩
      rw [convertFrom, if_neg hnv]
      simp
    | u32 =>
      refine ⟨1, fun v => ?_⟩
      rw [convertFrom, if_neg hnv]
      simp only
      split <;> simp
    | s32 =>
      refine ⟨1, fun v => ?_⟩
      rw [convertFrom, if_neg hnv]
      simp only
      split <;> simp
    | string fs =>
      refine ⟨1, fun v => ?_⟩
      rw [convertFrom, if_neg hnv]
      simp only
      split <;> simp
    | enum desc =>
      refine ⟨1, fun v => ?_⟩
      rw [convertFrom, if_neg hnv]
      simp only
      repeat' split
      all_goals simp
    | other fs =>
      refine ⟨1, fun v => ?_⟩
      rw [convertFrom, if_neg hnv]
      simp
    | struct fs name members =>
      by_cases ho : aNode.isObject = true
      swap
      · refine ⟨1, fun v => ?_⟩
        rw [convertFrom, if_neg hnv]
        simp [ho]
      obtain ⟨N, hN⟩ := exists_common_bound
        (fun (m : Member TypeDescriptor) n => (aNode.get m.name).isValid = true →
          ∀ v, convertFrom construct typeFromName n ⟨v, m.type⟩ (aNode.get m.name) ≠ none)
        (fun m n1 n2 hle h hv => hmono _ _ n1 n2 hle (h hv)) members
        (fun m _ => by
          obtain ⟨n, hn⟩ := hchild (aNode.get m.name) (Node.depth_get_lt aNode m.name ho) m.type
          exact ⟨n, fun _ => hn⟩)
      refine ⟨N + 1, fun v => ?_⟩
      rw [convertFrom, if_neg hnv]
      simp only
      rw [if_neg (by simp [ho])]
      exact convertStructMembers_returns _ aNode members hN 0 v
    | enumIndexedArray fs itemType enumType =>
      by_cases ho : aNode.isObject = true
      swap
      · refine ⟨1, fun v => ?_⟩
        rw [convertFrom, if_neg hnv]
        simp [ho]
      obtain ⟨N, hN⟩ := exists_common_bound
        (fun (identifier : Identifier) n => (aNode.get identifier.name).isValid = true →
          ∀ v, convertFrom construct typeFromName n ⟨v, itemType⟩
            (aNode.get identifier.name) ≠ none)
        (fun m n1 n2 hle h hv => hmono _ _ n1 n2 hle (h hv)) enumType.identifiers
        (fun m _ => by
          obtain ⟨n, hn⟩ := hchild (aNode.get m.name) (Node.depth_get_lt aNode m.name ho) itemType
          exact ⟨n, fun _ => hn⟩)
      refine ⟨N + 1, fun v => ?_⟩
      rw [convertFrom, if_neg hnv]
      simp only
      rw [if_neg (by simp [ho])]
      exact convertEnumIndexed_returns _ aNode itemType enumType.identifiers hN v
    | fixedArray fs itemType numItems =>
      by_cases ha : aNode.isArray = true
      swap
      · refine ⟨1, fun v => ?_⟩
        rw [convertFrom, if_neg hnv]
        simp [ha]
      obtain ⟨N, hN⟩ := exists_common_bound
        (fun (c : Node) n => ∀ v, convertFrom construct typeFromName n ⟨v, itemType⟩ c ≠ none)
        (fun c n1 n2 hle h => hmono _ _ n1 n2 hle h) aNode.arrayView
        (fun c hc => hchild c (Node.depth_arrayView_lt aNode c hc) itemType)
      refine ⟨N + 1 + 1, fun v => ?_⟩
      rw [convertFrom, if_neg hnv]
      simp only
      rw [if_neg (by simp [ha])]
      apply forRange_returns
      intro i w
      apply decodeSlot_returns
      intro u
      rw [Node.getAt_eq_getD]
      rcases Node.getD_arrayView aNode i with h1 | h1
      · rw [h1]
        exact convertFrom_invalid_returns construct typeFromName N _ _ rfl
      · exact hmono _ _ N (N + 1) (by omega) (hN _ h1) u
    | array fs itemType =>
      by_cases ha : aNode.isArray = true
      swap
      · refine ⟨1, fun v => ?_⟩
        rw [convertFrom, if_neg hnv]
        simp [ha]
      obtain ⟨N, hN⟩ := exists_common_bound
        (fun (c : Node) n => ∀ v, convertFrom construct typeFromName n ⟨v, itemType⟩ c ≠ none)
        (fun c n1 n2 hle h => hmono _ _ n1 n2 hle h) aNode.arrayView
        (fun c hc => hchild c (Node.depth_arrayView_lt aNode c hc) itemType)
      refine ⟨N + 1 + 1, fun v => ?_⟩
      rw [convertFrom, if_neg hnv]
      simp only
      rw [if_neg (by simp [ha])]
      apply forRange_returns
      intro i w
      apply decodeSlot_returns
      intro u
      rcases Node.getD_arrayView aNode i with h1 | h1
      · rw [h1]
        exact convertFrom_invalid_returns construct typeFromName N _ _ rfl
      · exact hmono _ _ N (N + 1) (by omega) (hN _ h1) u
    | savedTypedPtr fs =>
      by_cases ho : aNode.isObject = true
      swap
      · refine ⟨1, fun v => ?_⟩
        rw [convertFrom, if_neg hnv]
        simp [ho]
      have hno : ¬ ((!aNode.isObject) = true) := by simp [ho]
      cases ht : convertTypeFrom ((aNode.get "type").depth + 1) (aNode.get "type")
          typeFromName with
      | none => exact absurd ht (convertTypeFrom_returns _ _ _ (Nat.lt_succ_self _))
      | some tr =>
        cases tr with
        | error e =>
          refine ⟨(aNode.get "type").depth + 1 + 1, fun v => ?_⟩
          rw [convertFrom, if_neg hnv]
          simp only
          rw [if_neg hno, ht]
          simp
        | ok owner =>
          cases hroot : owner.getRootType with
          | none =>
            refine ⟨(aNode.get "type").depth + 1 + 1, fun v => ?_⟩
            rw [convertFrom, if_neg hnv]
            simp only
            rw [if_neg hno, ht]
            simp [hroot]
          | some rootType =>
            obtain ⟨n, hn⟩ := hchild (aNode.get "value") (Node.depth_get_lt aNode "value" ho)
              rootType
            refine ⟨max ((aNode.get "type").depth + 1) n + 1, fun v => ?_⟩
            rw [convertFrom, if_neg hnv]
            simp only
            rw [if_neg hno, convertTypeFrom_mono_le _ _ (le_max_left _ _) _ _ _ ht]
            simp only [hroot]
            have := hmono rootType (aNode.get "value") n _ (le_max_right
              ((aNode.get "type").depth + 1) n) hn (construct rootType)
            revert this
            unfold TypedPtr.create
            generalize convertFrom construct typeFromName
              (max ((aNode.get "type").depth + 1) n) ⟨construct rootType, rootType⟩
              (aNode.get "value") = res
            intro hres
            cases res with
            | none => exact absurd rfl hres
            | some o => simp
    | typedArray fs =>
      by_cases ho : aNode.isObject = true
      swap
      · refine ⟨1, fun v => ?_⟩
        rw [convertFrom, if_neg hnv]
        simp [ho]
      have hno : ¬ ((!aNode.isObject) = true) := by simp [ho]
      cases ht : convertTypeFrom ((aNode.get "type").depth + 1) (aNode.get "type")
          typeFromName with
      | none => exact absurd ht (convertTypeFrom_returns _ _ _ (Nat.lt_succ_self _))
      | some tr =>
        cases tr with
        | error e =>
          refine ⟨(aNode.get "type").depth + 1 + 1, fun v => ?_⟩
          rw [convertFrom, if_neg hnv]
          simp only
          rw [if_neg hno, ht]
          simp
        | ok owner =>
          cases hroot : owner.getRootType with
          | none =>
            refine ⟨(aNode.get "type").depth + 1 + 1, fun v => ?_⟩
            rw [convertFrom, if_neg hnv]
            simp only
            rw [if_neg hno, ht]
            simp [hroot]
          | some rootType =>
            obtain ⟨N, hN⟩ := exists_common_bound
              (fun (c : Node) n =>
                ∀ v, convertFrom construct typeFromName n ⟨v, rootType⟩ c ≠ none)
              (fun c n1 n2 hle h => hmono _ _ n1 n2 hle h) (aNode.get "data").arrayView
              (fun c hc => hchild c
                (lt_trans (Node.depth_arrayView_lt _ c hc) (Node.depth_get_lt aNode "data" ho))
                rootType)
            refine ⟨max ((aNode.get "type").depth + 1) (N + 1) + 1, fun v => ?_⟩
            rw [convertFrom, if_neg hnv]
            simp only
            rw [if_neg hno, convertTypeFrom_mono_le _ _ (le_max_left _ _) _ _ _ ht]
            simp only [hroot]
            apply forRange_returns
            intro i w
            apply decodeSlot_returns
            intro u
            rcases Node.getD_arrayView (aNode.get "data") i with h1 | h1
            · rw [h1]
              have hpos : max ((aNode.get "type").depth + 1) (N + 1)
                  = (max ((aNode.get "type").depth + 1) (N + 1) - 1) + 1 := by
                have := le_max_right ((aNode.get "type").depth + 1) (N + 1)
                omega
              rw [hpos]
              exact convertFrom_invalid_returns construct typeFromName _ _ _ rfl
            · exact hmono _ _ N _
                (le_trans (Nat.le_succ N) (le_max_right ((aNode.get "type").depth + 1) (N + 1)))
                (hN _ h1) u
    | switch fs storageOffset states =>
      by_cases ho : aNode.isObject = true
      swap
      · refine ⟨1, fun v => ?_⟩
        rw [convertFrom, if_neg hnv]
        simp [ho]
      have hno : ¬ ((!aNode.isObject) = true) := by simp [ho]
      cases hitems : aNode.items with
      | nil =>
        refine ⟨1, fun v => ?_⟩
        rw [convertFrom, if_neg hnv]
        simp only
        rw [if_neg hno, hitems]
        simp
      | cons iter rest =>
        cases rest with
        | cons second rest2 =>
          refine ⟨1, fun v => ?_⟩
          rw [convertFrom, if_neg hnv]
          simp only
          rw [if_neg hno, hitems]
          simp
        | nil =>
          cases hf : findState iter.key states 0 with
          | none =>
            refine ⟨1, fun v => ?_⟩
            rw [convertFrom, if_neg hnv]
            simp only
            rw [if_neg hno, hitems]
            simp [hf]
          | some found =>
            obtain ⟨i, state⟩ := found
            obtain ⟨n, hn⟩ := hchild iter.value
              (Node.depth_items_lt aNode iter (by rw [hitems]; exact List.mem_cons_self _ _))
              state.structType
            refine ⟨n + 1, fun v => ?_⟩
            rw [convertFrom, if_neg hnv]
            simp only
            rw [if_neg hno, hitems]
            simp only [hf]
            have := hn (ensureStateIs v (i % 65536)).switchStorage
            revert this
            generalize convertFrom construct typeFromName n
              ⟨(ensureStateIs v (i % 65536)).switchStorage, state.structType⟩ iter.value = res
            intro hres
            cases res with
            | none => exact absurd rfl hres
            | some o => simp
  | succ k ih =>
    intro type hk
    cases type with
    | owned fs targetType =>
      simp only [TypeDescriptor.ownedDepth, Nat.add_right_cancel_iff] at hk
      obtain ⟨n, hn⟩ := ih targetType hk
      refine ⟨n + 1, fun v => ?_⟩
      rw [convertFrom, if_neg hnv]
      simp only
      have := hn (construct targetType)
      revert this
      unfold TypedPtr.create
      generalize convertFrom construct typeFromName n ⟨construct targetType, targetType⟩ aNode
        = res
      intro hres
      cases res with
      | none => exact absurd rfl hres
      | some o => simp
    | struct fs name members => simp [TypeDescriptor.ownedDepth] at hk
    | float => simp [TypeDescriptor.ownedDepth] at hk
    | u8 => simp [TypeDescriptor.ownedDepth] at hk
    | u16 => simp [TypeDescriptor.ownedDepth] at hk
    | bool => simp [TypeDescriptor.ownedDepth] at hk
    | u32 => simp [TypeDescriptor.ownedDepth] at hk
    | s32 => simp [TypeDescriptor.ownedDepth] at hk
    | fixedArray fs itemType numItems => simp [TypeDescriptor.ownedDepth] at hk
    | string fs => simp [TypeDescriptor.ownedDepth] at hk
    | array fs itemType => simp [TypeDescriptor.ownedDepth] at hk
    | enumIndexedArray fs itemType enumType => simp [TypeDescriptor.ownedDepth] at hk
    | enum desc => simp [TypeDescriptor.ownedDepth] at hk
    | savedTypedPtr fs => simp [TypeDescriptor.ownedDepth] at hk
    | typedArray fs => simp [TypeDescriptor.ownedDepth] at hk
    | switch fs storageOffset states => simp [TypeDescriptor.ownedDepth] at hk
    | other fs => simp [TypeDescriptor.ownedDepth] at hk

/-- The value importer returns: for every destination type and node there is a
recursion bound under which, and by `convertFrom_mono_le` under every larger
one, the decode into any storage of that type returns or aborts. -/
theorem convertFrom_returns (construct : TypeDescriptor → Value) (typeFromName : TypeFromName) :
    ∀ (aNode : Node) (type : TypeDescriptor),
      ∃ n, ∀ v, convertFrom construct typeFromName n ⟨v, type⟩ aNode ≠ none := by
  have hall : ∀ (d : Nat) (aNode : Node), aNode.depth = d → ∀ type : TypeDescriptor,
      ∃ n, ∀ v, convertFrom construct typeFromName n ⟨v, type⟩ aNode ≠ none := by
    intro d
    induction d using Nat.strong_induction_on with
    | _ d ih =>
      intro aNode hd type
      exact convertFrom_returns_step construct typeFromName aNode
        (fun c hc type2 => ih c.depth (by omega) c rfl type2) type.ownedDepth type rfl
  intro aNode type
  exact hall aNode.depth aNode rfl type

/-! ## Scalar, bool and string decode -/

/-- C16 (bool decode).  Decoding a valid node into a bool destination never
fails; it writes `true` if and only if the node is the text `true`, exactly, and
`false` for every other node, the text `false` included. -/
theorem bool_decode (construct : TypeDescriptor → Value) (typeFromName : TypeFromName)
    (fuel : Nat) (ptr : Value) (aNode : Node) (hvalid : aNode.isValid = true) :
    ∃ b : Bool,
      convertFrom construct typeFromName (fuel + 1) ⟨ptr, .bool⟩ aNode = some ⟨.bool b, none⟩ ∧
      (b = true ↔ aNode = .Text "true") := by
  refine ⟨decide (aNode.text = "true"), ?_, ?_⟩
  · rw [convertFrom]
    simp [hvalid]
  · rw [decide_eq_true_iff]
    constructor
    · intro h
      cases aNode with
      | Text s =>
        simp only [Node.text] at h
        rw [h]
      | Invalid => simp [Node.text] at h
      | Object items => simp [Node.text] at h
      | Array elems => simp [Node.text] at h
    · intro h
      rw [h]
      rfl

/-- Witness for C16: the text `true` writes true; the texts `false` and `True`
and an empty array write false. -/
theorem bool_decode_witness :
    (∃ b : Bool,
      convertFrom (fun _ => .indeterminate) none 1 ⟨.indeterminate, .bool⟩ (.Text "false")
        = some ⟨.bool b, none⟩ ∧ (b = true ↔ Node.Text "false" = .Text "true")) ∧
    convertFrom (fun _ => .indeterminate) none 1 ⟨.indeterminate, .bool⟩ (.Text "true")
      = some ⟨.bool true, none⟩ ∧
    convertFrom (fun _ => .indeterminate) none 1 ⟨.indeterminate, .bool⟩ (.Text "false")
      = some ⟨.bool false, none⟩ ∧
    convertFrom (fun _ => .indeterminate) none 1 ⟨.indeterminate, .bool⟩ (.Text "True")
      = some ⟨.bool false, none⟩ ∧
    convertFrom (fun _ => .indeterminate) none 1 ⟨.indeterminate, .bool⟩ (.Array [])
      = some ⟨.bool false, none⟩ :=
  ⟨bool_decode (fun _ => .indeterminate) none 0 .indeterminate (.Text "false") rfl,
    rfl, rfl, rfl, rfl⟩

/-- C15 (string decode).  Decoding a text node into a `String` destination stores
the text of the node.  Decoding a valid node that is not text does not abort and
leaves the destination as it was; in the member loop of a struct the step of such
a `String` member writes the member back unchanged, every slot reads as before,
and the loop goes on with the members declared after it. -/
theorem string_decode (construct : TypeDescriptor → Value) (typeFromName : TypeFromName)
    (fuel fixedSize : Nat) (ptr : Value) :
    (∀ s : String,
      convertFrom construct typeFromName (fuel + 1) ⟨ptr, .string fixedSize⟩ (.Text s)
        = some ⟨.string s, none⟩) ∧
    (∀ aNode : Node, aNode.isValid = true → aNode.isText = false →
      convertFrom construct typeFromName (fuel + 1) ⟨ptr, .string fixedSize⟩ aNode
        = some ⟨ptr, none⟩) ∧
    (∀ (aNode : Node) (name : String) (offset : Nat) (rest : List (Member TypeDescriptor))
        (k : Nat),
      (aNode.get name).isValid = true → (aNode.get name).isText = false →
      convertStructMembers (convertFrom construct typeFromName (fuel + 1)) aNode
          (⟨name, offset, .string fixedSize⟩ :: rest) k ptr
        = convertStructMembers (convertFrom construct typeFromName (fuel + 1)) aNode
            rest (k + 1) (ptr.setSlot k (ptr.slot k)) ∧
      ∀ j, (ptr.setSlot k (ptr.slot k)).slot j = ptr.slot j) := by
  have hnontext : ∀ (v : Value) (aNode : Node), aNode.isValid = true → aNode.isText = false →
      convertFrom construct typeFromName (fuel + 1) ⟨v, .string fixedSize⟩ aNode
        = some ⟨v, none⟩ := by
    intro v aNode hvalid htext
    rw [convertFrom]
    simp [hvalid, htext]
  refine ⟨?_, hnontext ptr, ?_⟩
  · intro s
    rw [convertFrom]
    simp [Node.isValid, Node.isText, Node.text]
  · intro aNode name offset rest k hvalid htext
    constructor
    · rw [convertStructMembers]
      simp only [hvalid, if_true]
      unfold decodeSlot
      rw [hnontext _ _ hvalid htext]
      rfl
    · intro j
      by_cases hj : j = k
      · subst hj
        exact Value.slot_setSlot_same _ _ _
      · exact Value.slot_setSlot_other _ _ _ _ hj

/-- Witness for C15: a struct with the members `label: String`, holding `old`,
and `count: u16`, holding 0, decoded from a node whose `label` is an array; the
decode succeeds, `label` still holds `old` and `count` holds 3. -/
theorem string_decode_witness :
    ((Node.Array []).isValid = true ∧ (Node.Array []).isText = false ∧
      convertFrom (fun _ => .indeterminate) none 1 ⟨.string "old", .string 16⟩ (.Array [])
        = some ⟨.string "old", none⟩) ∧
    (convertFrom (fun _ => .indeterminate) none 2
        ⟨.slots (fun k => if k = 0 then .string "old" else .u16 0), labelledCount⟩
        (.Object [⟨"label", .Array []⟩, ⟨"count", .Text "3"⟩])).map
      (fun out => ((out.obj.slot 0).stringValue, (out.obj.slot 1).unsigned, out.failure))
      = some (some "old", some 3, none) ∧
    (convertFrom (fun _ => .indeterminate) none 2
        ⟨.slots (fun k => if k = 0 then .string "old" else .u16 0), labelledCount⟩
        (.Object [⟨"label", .Text "new"⟩, ⟨"count", .Text "3"⟩])).map
      (fun out => ((out.obj.slot 0).stringValue, (out.obj.slot 1).unsigned, out.failure))
      = some (some "new", some 3, none) :=
  ⟨⟨rfl, rfl,
      (string_decode (fun _ => .indeterminate) none 0 16 (.string "old")).2.1 (.Array []) rfl rfl⟩,
    by decide, by decide⟩

/-! ## Abort of the member loop -/

/-- When the present members at the head of the member list decode, and the
next member is present and its decode aborts, the member loop aborts with that
error, the slot of the aborting member holds what its decode left, and the slots
of the members after it are untouched. -/
theorem convertStructMembers_first_failure (conv : TypedPtr → Node → Option Outcome)
    (aNode : Node) (m : Member TypeDescriptor) (post : List (Member TypeDescriptor))
    (v : Value) (e : Error) :
    ∀ (pre : List (Member TypeDescriptor)) (k0 : Nat) (obj : Value),
      (∀ j p, pre.get? j = some p → (aNode.get p.name).isValid = true →
        ∃ o, conv ⟨obj.slot (k0 + j), p.type⟩ (aNode.get p.name) = some o ∧ o.failure = none) →
      (aNode.get m.name).isValid = true →
      conv ⟨obj.slot (k0 + pre.length), m.type⟩ (aNode.get m.name) = some ⟨v, some e⟩ →
      ∃ out, convertStructMembers conv aNode (pre ++ m :: post) k0 obj = some out ∧
        out.failure = some e ∧ out.obj.slot (k0 + pre.length) = v ∧
        ∀ j, k0 + pre.length < j → out.obj.slot j = obj.slot j := by
  intro pre
  induction pre with
  | nil =>
    intro k0 obj _ hpresent hfail
    simp only [List.length_nil, Nat.add_zero] at hfail
    refine ⟨⟨obj.setSlot k0 v, some e⟩, ?_, rfl, ?_, ?_⟩
    · simp only [List.nil_append]
      rw [convertStructMembers]
      simp only [hpresent, if_true]
      unfold decodeSlot
      rw [hfail]
      rfl
    · exact Value.slot_setSlot_same _ _ _
    · intro j hj
      exact Value.slot_setSlot_other _ _ _ _ (by simp at hj; omega)
  | cons p pre ih =>
    intro k0 obj hpre hpresent hfail
    simp only [List.cons_append]
    rw [convertStructMembers]
    have hlen : k0 + (p :: pre).length = k0 + 1 + pre.length := by
      simp only [List.length_cons]; omega
    rw [hlen] at hfail ⊢
    by_cases hp : (aNode.get p.name).isValid = true
    · obtain ⟨o, ho, hof⟩ := hpre 0 p rfl hp
      obtain ⟨w, f⟩ := o
      simp only at hof
      subst hof
      simp only [hp, if_true]
      unfold decodeSlot
      simp only [Nat.add_zero] at ho
      rw [ho]
      simp only [Outcome.andThen]
      have hother : ∀ j, k0 < j → (obj.setSlot k0 w).slot j = obj.slot j :=
        fun j hj => Value.slot_setSlot_other _ _ _ _ (by omega)
      obtain ⟨out, hout, hf, hv, hframe⟩ := ih (k0 + 1) (obj.setSlot k0 w)
        (by
          intro j q hq hqv
          rw [hother _ (by omega)]
          have := hpre (j + 1) q (by simpa using hq) hqv
          rwa [show k0 + (j + 1) = k0 + 1 + j by omega] at this)
        hpresent
        (by rw [hother _ (by omega)]; exact hfail)
      refine ⟨out, hout, hf, hv, ?_⟩
      intro j hj
      rw [hframe j hj]
      exact hother j (by omega)
    · simp only [hp, if_false, Bool.false_eq_true]
      obtain ⟨out, hout, hf, hv, hframe⟩ := ih (k0 + 1) obj
        (by
          intro j q hq hqv
          have := hpre (j + 1) q (by simpa using hq) hqv
          rwa [show k0 + (j + 1) = k0 + 1 + j by omega] at this)
        hpresent hfail
      exact ⟨out, hout, hf, hv, hframe⟩

/-- C18 (fail-fast struct decode).  When the present members declared before a
member decode, and that member is present and its decode aborts with an error,
the decode of the struct aborts with the same error, and no member declared
after the aborting one is written. -/
theorem struct_decode_fails_fast (construct : TypeDescriptor → Value)
    (typeFromName : TypeFromName) (fuel fixedSize : Nat) (name : String)
    (pre : List (Member TypeDescriptor)) (m : Member TypeDescriptor)
    (post : List (Member TypeDescriptor)) (ptr : Value) (items : List (Item Node))
    (v : Value) (e : Error)
    (hpre : ∀ j p, pre.get? j = some p → ((Node.Object items).get p.name).isValid = true →
      ∃ o, convertFrom construct typeFromName fuel ⟨ptr.slot j, p.type⟩
          ((Node.Object items).get p.name) = some o ∧ o.failure = none)
    (hpresent : ((Node.Object items).get m.name).isValid = true)
    (hfail : convertFrom construct typeFromName fuel ⟨ptr.slot pre.length, m.type⟩
      ((Node.Object items).get m.name) = some ⟨v, some e⟩) :
    ∃ out, convertFrom construct typeFromName (fuel + 1)
        ⟨ptr, .struct fixedSize name (pre ++ m :: post)⟩ (.Object items) = some out ∧
      out.failure = some e ∧
      ∀ j, pre.length < j → out.obj.slot j = ptr.slot j := by
  obtain ⟨out, hout, hf, _, hframe⟩ :=
    convertStructMembers_first_failure (convertFrom construct typeFromName fuel)
      (.Object items) m post v e pre 0 ptr
      (by
        intro j p hp hpv
        rw [Nat.zero_add]
        exact hpre j p hp hpv)
      hpresent (by rw [Nat.zero_add]; exact hfail)
  refine ⟨out, ?_, hf, ?_⟩
  · rw [convertFrom]
    simp only [Node.isValid, Node.isObject, Bool.not_true, Bool.false_eq_true, if_false]
    exact hout
  · intro j hj
    exact hframe j (by omega)

/-- Witness for C18: a struct with the members `a`, `b`, `c`, all `u16` and all
holding 9, decoded from a node with `a = 1`, `b = x` and `c = 3`; the decode of
`b` aborts because `x` is no number, the struct decode aborts with the same
error, `a` holds 1 and `c` still holds 9. -/
theorem struct_decode_fails_fast_witness :
    (∃ out, convertFrom (fun _ => .indeterminate) none 2
        ⟨.slots (fun _ => .u16 9), .struct 12 "T" ([⟨"a", 0, .u16⟩] ++ ⟨"b", 4, .u16⟩ ::
          [⟨"c", 8, .u16⟩])⟩
        (.Object [⟨"a", .Text "1"⟩, ⟨"b", .Text "x"⟩, ⟨"c", .Text "3"⟩]) = some out ∧
      out.failure = some .NumericCoercionFailed ∧
      ∀ j, [(⟨"a", 0, .u16⟩ : Member TypeDescriptor)].length < j →
        out.obj.slot j = (Value.slots (fun _ => .u16 9)).slot j) ∧
    (convertFrom (fun _ => .indeterminate) none 2 ⟨.slots (fun _ => .u16 9), threeU16Struct⟩
        (.Object [⟨"a", .Text "1"⟩, ⟨"b", .Text "x"⟩, ⟨"c", .Text "3"⟩])).map
      (fun out => ((out.obj.slot 0).unsigned, (out.obj.slot 1).unsigned,
        (out.obj.slot 2).unsigned, out.failure))
      = some (some 1, some 9, some 9, some .NumericCoercionFailed) :=
  ⟨struct_decode_fails_fast (fun _ => .indeterminate) none 1 12 "T" [⟨"a", 0, .u16⟩]
      ⟨"b", 4, .u16⟩ [⟨"c", 8, .u16⟩] (.slots (fun _ => .u16 9))
      [⟨"a", .Text "1"⟩, ⟨"b", .Text "x"⟩, ⟨"c", .Text "3"⟩] (.u16 9) .NumericCoercionFailed
      (by
        intro j p hp _
        cases j with
        | zero =>
          simp only [List.get?_cons_zero, Option.some.injEq] at hp
          subst hp
          exact ⟨⟨.u16 1, none⟩, rfl, rfl⟩
        | succ j => simp at hp)
      rfl rfl,
    by decide⟩

/-! ## Dynamic arrays -/

theorem Value.numItems_setSlot (obj : Value) (i : Nat) (v : Value) :
    (obj.setSlot i v).numItems = obj.numItems := by
  cases obj <;> rfl

/-- A loop that overwrites the slots of a range with one value. -/
theorem forRangeDo_setSlot (c : Value) :
    ∀ (count start : Nat) (obj : Value),
      (forRangeDo (fun i a => a.setSlot i c) count start obj).numItems = obj.numItems ∧
      ∀ j, (forRangeDo (fun i a => a.setSlot i c) count start obj).slot j
        = if start ≤ j ∧ j < start + count then c else obj.slot j := by
  intro count
  induction count with
  | zero =>
    intro start obj
    refine ⟨rfl, fun j => ?_⟩
    rw [if_neg (by omega)]
    rfl
  | succ count ih =>
    intro start obj
    obtain ⟨hn, hs⟩ := ih (start + 1) (obj.setSlot start c)
    refine ⟨?_, fun j => ?_⟩
    · show (forRangeDo _ count (start + 1) (obj.setSlot start c)).numItems = _
      rw [hn, Value.numItems_setSlot]
    · show (forRangeDo _ count (start + 1) (obj.setSlot start c)).slot j = _
      rw [hs j]
      by_cases h1 : start + 1 ≤ j ∧ j < start + 1 + count
      · rw [if_pos h1, if_pos (by omega)]
      · rw [if_neg h1]
        by_cases h2 : j = start
        · subst h2
          rw [if_pos (by omega)]
          exact Value.slot_setSlot_same _ _ _
        · rw [if_neg (by omega)]
          exact Value.slot_setSlot_other _ _ _ _ h2

/-- The same loop on the header of an array leaves the header of an array. -/
theorem forRangeDo_setSlot_array (c : Value) :
    ∀ (count start n : Nat) (items : Nat → Value),
      forRangeDo (fun i a => a.setSlot i c) count start (.array n items)
        = .array n (fun j => if start ≤ j ∧ j < start + count then c else items j) := by
  intro count
  induction count with
  | zero =>
    intro start n items
    show Value.array n items = _
    congr 1
    funext j
    rw [if_neg (by omega)]
  | succ count ih =>
    intro start n items
    show forRangeDo _ count (start + 1) (.array n (Function.update items start c)) = _
    rw [ih]
    congr 1
    funext j
    by_cases h1 : start + 1 ≤ j ∧ j < start + 1 + count
    · rw [if_pos h1, if_pos (by omega)]
    · rw [if_neg h1]
      by_cases h2 : j = start
      · subst h2
        rw [if_pos (by omega)]
        simp
      · rw [if_neg (by omega)]
        simp [Function.update, h2]

/-- The resize of a dynamic array in closed form: the new header counts
`newArrSize` items; an item below both the old and the new length is kept, an
item from the old length on is default constructed, and nothing determinate lies
past the new length. -/
theorem resizeArray_eq (construct : TypeDescriptor → Value) (itemType : TypeDescriptor)
    (arr : Value) (newArrSize : Nat) :
    resizeArray construct itemType arr newArrSize
      = .array newArrSize (fun i =>
          if i < newArrSize then
            (if i < arr.numItems then arr.slot i else construct itemType)
          else .indeterminate) := by
  unfold resizeArray
  simp only [TypedPtr.destruct, TypedPtr.construct, BaseArray.realloc]
  obtain ⟨hn, hs⟩ := forRangeDo_setSlot .indeterminate (arr.numItems - newArrSize) newArrSize arr
  rw [forRangeDo_setSlot_array, hn]
  congr 1
  funext i
  rw [hs i]
  by_cases h1 : i < newArrSize
  · rw [if_pos h1]
    by_cases h2 : i < arr.numItems
    · rw [if_pos h2, if_neg (by omega), if_pos ⟨h2, h1⟩, if_neg (by omega)]
    · rw [if_neg h2, if_pos (by omega)]
  · rw [if_neg h1, if_neg (by omega), if_neg (by omega)]

theorem convertFrom_array (construct : TypeDescriptor → Value)
    (typeFromName : TypeFromName) (fuel fixedSize : Nat) (itemType : TypeDescriptor)
    (ptr : Value) (elems : List Node) :
    convertFrom construct typeFromName (fuel + 1) ⟨ptr, .array fixedSize itemType⟩
        (.Array elems)
      = forRange
          (fun i => decodeSlot (convertFrom construct typeFromName fuel) itemType i
            (elems.getD i .Invalid))
          elems.length 0 (resizeArray construct itemType ptr elems.length) := by
  rw [convertFrom]
  simp [Node.isValid, Node.isArray, Node.arrayView]

/-- A positional decode loop leaves the header of the storage as it is: the same
number of items, and an array stays an array. -/
theorem forRange_decodeSlot_header (conv : TypedPtr → Node → Option Outcome)
    (type : TypeDescriptor) (nodeAt : Nat → Node) :
    ∀ (count start : Nat) (obj : Value) (out : Outcome),
      forRange (fun i => decodeSlot conv type i (nodeAt i)) count start obj = some out →
      out.obj.numItems = obj.numItems ∧
      ∀ n items, obj = .array n items → ∃ items2, out.obj = .array n items2 := by
  intro count
  induction count with
  | zero =>
    intro start obj out h
    simp [forRange] at h
    subst h
    exact ⟨rfl, fun n items hobj => ⟨items, hobj⟩⟩
  | succ count ih =>
    intro start obj out h
    rw [forRange] at h
    cases hd : decodeSlot conv type start (nodeAt start) obj with
    | none => simp [hd, Outcome.andThen] at h
    | some o1 =>
      obtain ⟨o, _, ho1⟩ := decodeSlot_eq_some hd
      have hnum : o1.obj.numItems = obj.numItems := by
        rw [ho1]
        exact Value.numItems_setSlot _ _ _
      have harr : ∀ n items, obj = .array n items → ∃ items2, o1.obj = .array n items2 := by
        intro n items hobj
        rw [ho1, hobj]
        exact ⟨_, rfl⟩
      rw [hd] at h
      obtain ⟨obj1, f1⟩ := o1
      cases f1 with
      | some e =>
        simp [Outcome.andThen] at h
        subst h
        exact ⟨hnum, harr⟩
      | none =>
        simp only [Outcome.andThen] at h
        obtain ⟨h1, h2⟩ := ih (start + 1) obj1 out h
        refine ⟨h1.trans hnum, fun n items hobj => ?_⟩
        obtain ⟨items1, hitems1⟩ := harr n items hobj
        exact h2 n items1 hitems1

/-- Effect of a successful decode into a dynamic array: the header counts the
elements of the node, every item holds what the decode of its element wrote into
the kept or default constructed item, and nothing determinate lies past the last
item. -/
theorem convertFrom_array_success (construct : TypeDescriptor → Value)
    (typeFromName : TypeFromName) (fuel fixedSize : Nat) (itemType : TypeDescriptor)
    (ptr : Value) (elems : List Node) (out : Outcome)
    (h : convertFrom construct typeFromName (fuel + 1) ⟨ptr, .array fixedSize itemType⟩
      (.Array elems) = some out)
    (hok : out.failure = none) :
    out.obj.numItems = elems.length ∧
    (∃ items, out.obj = .array elems.length items) ∧
    (∀ i elem, elems.get? i = some elem →
      ∃ o, convertFrom construct typeFromName fuel
          ⟨if i < ptr.numItems then ptr.slot i else construct itemType, itemType⟩ elem
          = some o ∧
        o.failure = none ∧ out.obj.slot i = o.obj) ∧
    (∀ i, elems.length ≤ i → out.obj.slot i = .indeterminate) := by
  rw [convertFrom_array, resizeArray_eq] at h
  obtain ⟨hnum, harr⟩ := forRange_decodeSlot_header _ _ _ _ _ _ _ h
  obtain ⟨hframe, hslots, _⟩ := forRange_decodeSlot _ _ _ _ _ _ _ h
  refine ⟨hnum, harr _ _ rfl, ?_, ?_⟩
  · intro i elem hi
    have hlt : i < elems.length := by
      rcases Nat.lt_or_ge i elems.length with hlt | hge
      · exact hlt
      · rw [List.get?_eq_none.mpr hge] at hi
        cases hi
    obtain ⟨o, ho, hof, hos⟩ := hslots hok i (Nat.zero_le _) (by omega)
    refine ⟨o, ?_, hof, hos⟩
    have hel : elems.getD i .Invalid = elem := by
      rw [List.getD_eq_getElem?_getD, ← List.get?_eq_getElem?, hi]
      rfl
    rw [hel] at ho
    simp only [Value.slot, if_pos hlt] at ho
    exact ho
  · intro i hi
    rw [hframe i (Or.inr (by omega))]
    simp only [Value.slot]
    rw [if_neg (by omega)]

/-- C11 (dynamic array resize).  When the decode of an array node of `n` elements
into a dynamic array succeeds, the destination holds exactly `n` items; item `i`
holds what the decode of element `i` wrote into the item that was there, when the
destination had more than `i` items, and into a default constructed item
otherwise; nothing determinate lies past item `n`. -/
theorem dynamic_array_decode (construct : TypeDescriptor → Value)
    (typeFromName : TypeFromName) (fuel fixedSize : Nat) (itemType : TypeDescriptor)
    (ptr : Value) (elems : List Node) (out : Outcome)
    (h : convertFrom construct typeFromName (fuel + 1) ⟨ptr, .array fixedSize itemType⟩
      (.Array elems) = some out)
    (hok : out.failure = none) :
    out.obj.numItems = elems.length ∧
    (∃ items, out.obj = .array elems.length items) ∧
    (∀ i elem, elems.get? i = some elem →
      ∃ o, convertFrom construct typeFromName fuel
          ⟨if i < ptr.numItems then ptr.slot i else construct itemType, itemType⟩ elem
          = some o ∧
        o.failure = none ∧ out.obj.slot i = o.obj) ∧
    (∀ i, elems.length ≤ i → out.obj.slot i = .indeterminate) :=
  convertFrom_array_success construct typeFromName fuel fixedSize itemType ptr elems out h hok

/-- Witness for C11: the node `[1, 2]` decoded into an array of `u16` that held
the five items 10 to 14; the array holds exactly two items afterwards, 1 and 2. -/
theorem dynamic_array_decode_witness :
    (∃ out, convertFrom (fun _ => .u16 0) none 2
        ⟨.array 5 (fun i => if i < 5 then .u16 (10 + i) else .indeterminate), .array 16 .u16⟩
        (.Array [.Text "1", .Text "2"]) = some out ∧ out.failure = none ∧
      out.obj.numItems = [Node.Text "1", Node.Text "2"].length ∧
      (∃ items, out.obj = .array [Node.Text "1", Node.Text "2"].length items) ∧
      (∀ i elem, [Node.Text "1", Node.Text "2"].get? i = some elem →
        ∃ o, convertFrom (fun _ => .u16 0) none 1
            ⟨if i < (Value.array 5
                  (fun i => if i < 5 then .u16 (10 + i) else .indeterminate)).numItems
              then (Value.array 5
                  (fun i => if i < 5 then .u16 (10 + i) else .indeterminate)).slot i
              else (fun _ => Value.u16 0) TypeDescriptor.u16, .u16⟩ elem
            = some o ∧
          o.failure = none ∧ out.obj.slot i = o.obj) ∧
      (∀ i, [Node.Text "1", Node.Text "2"].length ≤ i → out.obj.slot i = .indeterminate)) ∧
    (convertFrom (fun _ => .u16 0) none 2
        ⟨.array 5 (fun i => if i < 5 then .u16 (10 + i) else .indeterminate), .array 16 .u16⟩
        (.Array [.Text "1", .Text "2"])).map
      (fun out => (out.obj.numItems, (out.obj.slot 0).unsigned, (out.obj.slot 1).unsigned,
        (out.obj.slot 2).unsigned, out.failure))
      = some (2, some 1, some 2, none, none) := by
  have hrun : (convertFrom (fun _ => .u16 0) none 2
        ⟨.array 5 (fun i => if i < 5 then .u16 (10 + i) else .indeterminate), .array 16 .u16⟩
        (.Array [.Text "1", .Text "2"])).map
      (fun out => (out.obj.numItems, (out.obj.slot 0).unsigned, (out.obj.slot 1).unsigned,
        (out.obj.slot 2).unsigned, out.failure))
      = some (2, some 1, some 2, none, none) := by decide
  refine ⟨?_, hrun⟩
  cases h : convertFrom (fun _ => .u16 0) none 2
      ⟨.array 5 (fun i => if i < 5 then .u16 (10 + i) else .indeterminate), .array 16 .u16⟩
      (.Array [.Text "1", .Text "2"]) with
  | none =>
    rw [h] at hrun
    cases hrun
  | some out =>
    rw [h] at hrun
    have hok : out.failure = none := by
      simp only [Option.map_some', Option.some.injEq, Prod.mk.injEq] at hrun
      exact hrun.2.2.2.2
    exact ⟨out, rfl, hok,
      dynamic_array_decode (fun _ => .u16 0) none 1 16 .u16
        (.array 5 (fun i => if i < 5 then .u16 (10 + i) else .indeterminate))
        [.Text "1", .Text "2"] out h hok⟩

/-- Counterexample to C12: the node `[{a: 1}]` decoded into an array of `Pair`
structs that holds the one item `(5, 7)`, and into an empty array of the same
type.  Both decodes succeed with one item whose `a` is 1, but `b` is 7 in the
first, kept from the previous item, and 0 in the second, from default
construction; so the array values differ.  Likewise the node `[[]]` decoded into
an array of `String` leaves `old` in a retained item and the empty text in a new
one. -/
theorem array_decode_keeps_previous_contents :
    (convertFrom exampleConstruct none 3
        ⟨.array 1 (fun _ => .slots (fun k => if k = 0 then .u16 5 else .u16 7)),
          .array 16 pairStruct⟩
        (.Array [.Object [⟨"a", .Text "1"⟩]])).map
      (fun out => (out.obj.numItems, ((out.obj.slot 0).slot 0).unsigned,
        ((out.obj.slot 0).slot 1).unsigned, out.failure))
      = some (1, some 1, some 7, none) ∧
    (convertFrom exampleConstruct none 3
        ⟨.array 0 (fun _ => .indeterminate), .array 16 pairStruct⟩
        (.Array [.Object [⟨"a", .Text "1"⟩]])).map
      (fun out => (out.obj.numItems, ((out.obj.slot 0).slot 0).unsigned,
        ((out.obj.slot 0).slot 1).unsigned, out.failure))
      = some (1, some 1, some 0, none) ∧
    (∀ out1 out2,
      convertFrom exampleConstruct none 3
        ⟨.array 1 (fun _ => .slots (fun k => if k = 0 then .u16 5 else .u16 7)),
          .array 16 pairStruct⟩
        (.Array [.Object [⟨"a", .Text "1"⟩]]) = some out1 →
      convertFrom exampleConstruct none 3
        ⟨.array 0 (fun _ => .indeterminate), .array 16 pairStruct⟩
        (.Array [.Object [⟨"a", .Text "1"⟩]]) = some out2 →
      out1.obj ≠ out2.obj) ∧
    (convertFrom exampleConstruct none 2
        ⟨.array 1 (fun _ => .string "old"), .array 16 (.string 16)⟩
        (.Array [.Array []])).map
      (fun out => (out.obj.numItems, (out.obj.slot 0).stringValue, out.failure))
      = some (1, some "old", none) ∧
    (convertFrom exampleConstruct none 2
        ⟨.array 0 (fun _ => .indeterminate), .array 16 (.string 16)⟩
        (.Array [.Array []])).map
      (fun out => (out.obj.numItems, (out.obj.slot 0).stringValue, out.failure))
      = some (1, some "", none) := by
  have h1 : (convertFrom exampleConstruct none 3
        ⟨.array 1 (fun _ => .slots (fun k => if k = 0 then .u16 5 else .u16 7)),
          .array 16 pairStruct⟩
        (.Array [.Object [⟨"a", .Text "1"⟩]])).map
      (fun out => (out.obj.numItems, ((out.obj.slot 0).slot 0).unsigned,
        ((out.obj.slot 0).slot 1).unsigned, out.failure))
      = some (1, some 1, some 7, none) := by decide
  have h2 : (convertFrom exampleConstruct none 3
        ⟨.array 0 (fun _ => .indeterminate), .array 16 pairStruct⟩
        (.Array [.Object [⟨"a", .Text "1"⟩]])).map
      (fun out => (out.obj.numItems, ((out.obj.slot 0).slot 0).unsigned,
        ((out.obj.slot 0).slot 1).unsigned, out.failure))
      = some (1, some 1, some 0, none) := by decide
  refine ⟨h1, h2, ?_, by decide, by decide⟩
  intro out1 out2 e1 e2 heq
  rw [e1] at h1
  rw [e2] at h2
  simp only [Option.map_some', Option.some.injEq, Prod.mk.injEq] at h1 h2
  have hb1 := h1.2.2.1
  have hb2 := h2.2.2.1
  rw [heq, hb2] at hb1
  cases hb1

/-- C12 (amended array decode).  When the successful decode of the item type does
not depend on the previous contents of the item, as for the numeric scalars, a
successful decode of an array node into a dynamic array of that item type is
determined by the node alone: the decode of the same node into any other
destination succeeds as well and yields the same array value. -/
theorem dynamic_array_decode_determined (construct : TypeDescriptor → Value)
    (typeFromName : TypeFromName) (fuel fixedSize : Nat) (itemType : TypeDescriptor)
    (hitem : ∀ (v w : Value) (aNode : Node) (o : Outcome),
      convertFrom construct typeFromName fuel ⟨v, itemType⟩ aNode = some o →
      o.failure = none →
      convertFrom construct typeFromName fuel ⟨w, itemType⟩ aNode = some o)
    (ptr1 ptr2 : Value) (elems : List Node) (out : Outcome)
    (h : convertFrom construct typeFromName (fuel + 1) ⟨ptr1, .array fixedSize itemType⟩
      (.Array elems) = some out)
    (hok : out.failure = none) :
    convertFrom construct typeFromName (fuel + 1) ⟨ptr2, .array fixedSize itemType⟩
      (.Array elems) = some out := by
  obtain ⟨_, ⟨items1, hitems1⟩, hslot1, hpast1⟩ :=
    convertFrom_array_success construct typeFromName fuel fixedSize itemType ptr1 elems out h hok
  have hget : ∀ i, i < elems.length → elems.get? i = some (elems.getD i .Invalid) := by
    intro i hi
    rw [List.getD_eq_getElem?_getD, List.get?_eq_getElem?, List.getElem?_eq_getElem hi]
    rfl
  have hany : ∀ i, i < elems.length → ∀ w, ∃ o,
      convertFrom construct typeFromName fuel ⟨w, itemType⟩ (elems.getD i .Invalid) = some o ∧
        o.failure = none ∧ out.obj.slot i = o.obj := by
    intro i hi w
    obtain ⟨o, ho, hof, hos⟩ := hslot1 i _ (hget i hi)
    exact ⟨o, hitem _ w _ o ho hof, hof, hos⟩
  rw [convertFrom_array]
  obtain ⟨out2, hout2⟩ := forRange_decodeSlot_returns (convertFrom construct typeFromName fuel)
    itemType (fun i => elems.getD i .Invalid) elems.length 0
    (resizeArray construct itemType ptr2 elems.length)
    (by
      intro i _ hi
      obtain ⟨o, ho, _⟩ := hany i (by omega) ((resizeArray construct itemType ptr2 elems.length).slot i)
      exact ⟨o, ho⟩)
  rw [hout2]
  obtain ⟨hframe, hslots, hfail⟩ := forRange_decodeSlot _ _ _ _ _ _ _ hout2
  obtain ⟨_, harr⟩ := forRange_decodeSlot_header _ _ _ _ _ _ _ hout2
  have hok2 : out2.failure = none := by
    cases hf : out2.failure with
    | none => rfl
    | some e =>
      obtain ⟨i, _, hi, ⟨o, ho, hoe⟩, _⟩ := hfail e hf
      obtain ⟨o2, ho2, hof2, _⟩ := hany i (by omega)
        ((resizeArray construct itemType ptr2 elems.length).slot i)
      rw [ho2] at ho
      cases ho
      rw [hof2] at hoe
      cases hoe
  obtain ⟨items2, hitems2⟩ := harr _ _ (resizeArray_eq construct itemType ptr2 elems.length)
  obtain ⟨obj1, f1⟩ := out
  obtain ⟨obj2, f2⟩ := out2
  simp only at hok hok2 hitems1 hitems2 hframe hslots hpast1 hany
  subst hok hok2
  have hobj : obj2 = obj1 := by
    rw [hitems1, hitems2]
    congr 1
    funext i
    have e1 : obj1.slot i = items1 i := by rw [hitems1]; rfl
    have e2 : obj2.slot i = items2 i := by rw [hitems2]; rfl
    rw [← e1, ← e2]
    by_cases hi : i < elems.length
    · obtain ⟨o, ho, _, hos⟩ := hslots rfl i (Nat.zero_le _) (by omega)
      obtain ⟨o1, ho1, _, hos1⟩ := hany i hi
        ((resizeArray construct itemType ptr2 elems.length).slot i)
      rw [ho1] at ho
      cases ho
      rw [hos, hos1]
    · rw [hpast1 i (by omega), hframe i (Or.inr (by omega)), resizeArray_eq]
      simp only [Value.slot]
      rw [if_neg hi]
  rw [hobj]

/-- Witness for C12 as amended: the node `[1, 2]` decoded into an array of `u16`
that held five items, and into an empty one; both give the same array. -/
theorem dynamic_array_decode_determined_witness :
    ∃ out, convertFrom (fun _ => .u16 0) none 2
        ⟨.array 5 (fun i => if i < 5 then .u16 (10 + i) else .indeterminate), .array 16 .u16⟩
        (.Array [.Text "1", .Text "2"]) = some out ∧ out.failure = none ∧
      convertFrom (fun _ => .u16 0) none 2
        ⟨.array 0 (fun _ => .indeterminate), .array 16 .u16⟩
        (.Array [.Text "1", .Text "2"]) = some out := by
  have hrun : (convertFrom (fun _ => .u16 0) none 2
        ⟨.array 5 (fun i => if i < 5 then .u16 (10 + i) else .indeterminate), .array 16 .u16⟩
        (.Array [.Text "1", .Text "2"])).map (fun out => out.failure) = some none := by decide
  cases h : convertFrom (fun _ => .u16 0) none 2
      ⟨.array 5 (fun i => if i < 5 then .u16 (10 + i) else .indeterminate), .array 16 .u16⟩
      (.Array [.Text "1", .Text "2"]) with
  | none =>
    rw [h] at hrun
    cases hrun
  | some out =>
    rw [h] at hrun
    have hok : out.failure = none := by
      simpa using hrun
    refine ⟨out, rfl, hok, ?_⟩
    exact dynamic_array_decode_determined (fun _ => .u16 0) none 1 16 .u16
      (by
        intro v w aNode o ho hof
        rw [convertFrom] at ho ⊢
        by_cases hv : aNode.isValid = true
        · by_cases hn : aNode.numeric.1 = true
          · simp only [hv, hn, Bool.not_true, Bool.false_eq_true, if_false] at ho ⊢
            exact ho
          · simp only [hv, hn, Bool.not_true, Bool.false_eq_true, if_false, Bool.not_eq_true,
              Bool.not_false, if_true] at ho
            simp only [Bool.not_eq_true] at hn
            simp only [hn, Bool.not_false, if_true, Option.some.injEq] at ho
            subst ho
            cases hof
        · simp only [Bool.not_eq_true] at hv
          simp only [hv, Bool.not_false, if_true, Option.some.injEq] at ho
          subst ho
          cases hof)
      _ _ _ out h hok

/-! ## The arena of synthesized types -/

theorem OwnerExtends.refl (importer : PylonTypeImporter) : OwnerExtends importer importer :=
  ⟨rfl, fun o ho => ⟨o, [], ho, rfl, by simp⟩⟩

theorem OwnerExtends.trans {a b c : PylonTypeImporter} (h1 : OwnerExtends a b)
    (h2 : OwnerExtends b c) : OwnerExtends a c := by
  refine ⟨h2.1.trans h1.1, fun o ho => ?_⟩
  obtain ⟨o1, added1, ho1, hr1, ht1⟩ := h1.2 o ho
  obtain ⟨o2, added2, ho2, hr2, ht2⟩ := h2.2 o1 ho1
  exact ⟨o2, added1 ++ added2, ho2, hr2.trans hr1, by rw [ht2, ht1, List.append_assoc]⟩

theorem convertObjectMembers_owner
    (conv : PylonTypeImporter → Node → Option (Converted TypeDescriptor))
    (hconv : ∀ importer aNode t importer2, conv importer aNode = some (.ok (t, importer2)) →
      OwnerExtends importer importer2) :
    ∀ (items : List (Item Node)) (importer : PylonTypeImporter) (s r : TypeDescriptor_Struct)
      (importer2 : PylonTypeImporter),
      convertObjectMembers conv items importer s = some (.ok (r, importer2)) →
      OwnerExtends importer importer2 := by
  intro items
  induction items with
  | nil =>
    intro importer s r importer2 h
    simp [convertObjectMembers] at h
    obtain ⟨_, h⟩ := h
    subst h
    exact OwnerExtends.refl _
  | cons item rest ih =>
    intro importer s r importer2 h
    unfold convertObjectMembers at h
    split at h
    · cases h
    · cases h
    · rename_i memberType imp1 hc
      split at h
      · cases h
      · rename_i s1 _
        exact (hconv _ _ _ _ hc).trans (ih imp1 s1 r importer2 h)

theorem convertArrayMembers_owner
    (conv : PylonTypeImporter → Node → Option (Converted TypeDescriptor))
    (hconv : ∀ importer aNode t importer2, conv importer aNode = some (.ok (t, importer2)) →
      OwnerExtends importer importer2) :
    ∀ (elems : List Node) (importer : PylonTypeImporter) (s r : TypeDescriptor_Struct)
      (importer2 : PylonTypeImporter),
      convertArrayMembers conv elems importer s = some (.ok (r, importer2)) →
      OwnerExtends importer importer2 := by
  intro elems
  induction elems with
  | nil =>
    intro importer s r importer2 h
    simp [convertArrayMembers] at h
    obtain ⟨_, h⟩ := h
    subst h
    exact OwnerExtends.refl _
  | cons aMember rest ih =>
    intro importer s r importer2 h
    unfold convertArrayMembers at h
    split at h
    · cases h
    · split at h
      · cases h
      · split at h
        · cases h
        · cases h
        · rename_i memberType imp1 hc
          split at h
          · cases h
          · rename_i s1 _
            exact (hconv _ _ _ _ hc).trans (ih imp1 s1 r importer2 h)

/-- What a successful `convertType` does to the arena: nothing for a text node;
for any other node it adopts descriptors, the result last. -/
theorem convertType_owner :
    ∀ (fuel : Nat) (importer : PylonTypeImporter) (aNode : Node) (t : TypeDescriptor)
      (importer2 : PylonTypeImporter),
      convertType fuel importer aNode = some (.ok (t, importer2)) →
      OwnerExtends importer importer2 ∧
      (aNode.isText = true → importer2 = importer) ∧
      (aNode.isText = false → ∀ o2, importer2.typeOwner = some o2 →
        o2.types.getLast? = some t) := by
  intro fuel
  induction fuel with
  | zero =>
    intro importer aNode t importer2 h
    simp [convertType] at h
  | succ fuel ih =>
    intro importer aNode t importer2 h
    rw [convertType] at h
    by_cases htext : aNode.isText = true
    · have himp : importer2 = importer := by
        simp only [htext, if_true] at h
        repeat' split at h
        all_goals (cases h <;> rfl)
      refine ⟨?_, fun _ => himp, fun hf => ?_⟩
      · rw [himp]
        exact OwnerExtends.refl _
      · rw [htext] at hf
        cases hf
    · simp only [Bool.not_eq_true] at htext
      simp only [htext, Bool.false_eq_true, if_false] at h
      by_cases hobj : aNode.isObject = true
      swap
      · simp only [hobj, if_false] at h
        cases h
      simp only [hobj, if_true] at h
      by_cases hkey : (aNode.get "key").text = "struct"
      swap
      · simp only [hkey, if_false] at h
        cases h
      simp only [hkey, if_true] at h
      cases hown : importer.typeOwner with
      | none =>
        rw [hown] at h
        cases h
      | some owner =>
        rw [hown] at h
        simp only at h
        by_cases hname : (aNode.get "name").isText = true
        swap
        · simp only [Bool.not_eq_true] at hname
          simp only [hname, Bool.not_false, if_true] at h
          cases h
        simp only [hname, Bool.not_true, Bool.false_eq_true, if_false] at h
        have hbuilt : ∀ s imp1,
            (if (aNode.get "members").isObject = true then
              convertObjectMembers (convertType fuel) (aNode.get "members").items importer
                ⟨0, (aNode.get "name").text, []⟩
            else if (aNode.get "members").isArray = true then
              convertArrayMembers (convertType fuel) (aNode.get "members").arrayView importer
                ⟨0, (aNode.get "name").text, []⟩
            else some (.error .InvalidMemberListShape)) = some (.ok (s, imp1)) →
            OwnerExtends importer imp1 := by
          intro s imp1 hb
          have hconv : ∀ importer aNode t importer2,
              convertType fuel importer aNode = some (.ok (t, importer2)) →
              OwnerExtends importer importer2 := fun a b c d e => (ih a b c d e).1
          split at hb
          · exact convertObjectMembers_owner _ hconv _ _ _ _ _ hb
          · split at hb
            · exact convertArrayMembers_owner _ hconv _ _ _ _ _ hb
            · cases hb
        split at h
        · cases h
        · cases h
        · rename_i s imp1 hb
          have hext := hbuilt s imp1 hb
          simp only [Option.some.injEq, Except.ok.injEq, Prod.mk.injEq] at h
          obtain ⟨ht, himp⟩ := h
          subst ht himp
          obtain ⟨o1, added, ho1, hr1, ht1⟩ := hext.2 owner hown
          refine ⟨⟨hext.1, fun o ho => ?_⟩, fun hf => ?_, fun _ o2 ho2 => ?_⟩
          · rw [hown] at ho
            cases ho
            refine ⟨o1.adoptType s.toDescriptor, added ++ [s.toDescriptor], ?_, hr1, ?_⟩
            · simp [ho1]
            · simp [TypeDescriptorOwner.adoptType, ht1]
          · rw [htext] at hf
            cases hf
          · simp only [ho1, Option.map_some', Option.some.injEq] at ho2
            subst ho2
            simp [TypeDescriptorOwner.adoptType]

/-- A successful `convertTypeFrom` in terms of `convertType`: the arena is the
one the conversion left, with the result marked as root. -/
theorem convertTypeFrom_ok (fuel : Nat) (aNode : Node) (typeFromName : TypeFromName)
    (owner : TypeDescriptorOwner)
    (h : convertTypeFrom fuel aNode typeFromName = some (.ok owner)) :
    ∃ t importer2 o,
      convertType fuel ⟨some TypeDescriptorOwner.new, typeFromName⟩ aNode
        = some (.ok (t, importer2)) ∧
      importer2.typeOwner = some o ∧ owner = o.setRootType t := by
  unfold convertTypeFrom at h
  simp only at h
  split at h
  · cases h
  · cases h
  · rename_i t imp hc
    split at h
    · rename_i o ho
      simp only [Option.some.injEq, Except.ok.injEq] at h
      exact ⟨t, imp, o, hc, ho, h.symm⟩
    · cases h

/-- Counterexample to C14: from the text node `u16` the returned arena has the
built-in descriptor `u16` as root and has adopted nothing, and from the text node
`Pair`, a name of the resolver, the root is the struct of the resolver and again
nothing was adopted; the root is none of the descriptors of the arena. -/
theorem text_type_root_not_adopted :
    convertTypeFrom 1 (.Text "u16") none = some (.ok ⟨[], some .u16⟩) ∧
    convertTypeFrom 1 (.Text "Pair") pairResolver = some (.ok ⟨[], some pairStruct⟩) ∧
    ¬ (TypeDescriptor.u16 ∈ ([] : List TypeDescriptor)) ∧
    ¬ (pairStruct ∈ ([] : List TypeDescriptor)) :=
  ⟨rfl, rfl, List.not_mem_nil _, List.not_mem_nil _⟩

/-- C14 (amended type owner root).  When `convertTypeFrom` succeeds, the returned
arena has a root, which is the descriptor that `convertType` synthesized for the
node into a fresh arena, and holds the descriptors adopted during that call.  For
a node that is not text the root is the descriptor adopted last, so it is one of
the descriptors of the arena; for a text node the arena has adopted nothing. -/
theorem type_owner_root (fuel : Nat) (aNode : Node) (typeFromName : TypeFromName)
    (owner : TypeDescriptorOwner)
    (h : convertTypeFrom fuel aNode typeFromName = some (.ok owner)) :
    ∃ t importer2,
      convertType fuel ⟨some TypeDescriptorOwner.new, typeFromName⟩ aNode
        = some (.ok (t, importer2)) ∧
      owner.getRootType = some t ∧
      importer2.typeOwner.map (fun o => o.types) = some owner.types ∧
      (aNode.isText = false → owner.types.getLast? = some t ∧ t ∈ owner.types) ∧
      (aNode.isText = true → owner.types = []) := by
  obtain ⟨t, importer2, o, hc, ho, hown⟩ := convertTypeFrom_ok fuel aNode typeFromName owner h
  obtain ⟨_, htext, hlast⟩ := convertType_owner fuel _ aNode t importer2 hc
  subst hown
  refine ⟨t, importer2, hc, rfl, by rw [ho]; rfl, ?_, ?_⟩
  · intro hf
    have := hlast hf o ho
    exact ⟨this, List.mem_of_getLast?_eq_some this⟩
  · intro ht
    have := htext ht
    rw [this] at ho
    simp only [Option.some.injEq] at ho
    rw [← ho]
    rfl

/-- Witness for C14 as amended: the struct node of `twoU16Node`; the root of the
arena is the synthesized struct, the one descriptor the arena has adopted. -/
theorem type_owner_root_witness :
    convertTypeFrom 3 twoU16Node none = some (.ok ⟨[twoU16Struct], some twoU16Struct⟩) ∧
    ∃ t importer2,
      convertType 3 ⟨some TypeDescriptorOwner.new, none⟩ twoU16Node
        = some (.ok (t, importer2)) ∧
      (⟨[twoU16Struct], some twoU16Struct⟩ : TypeDescriptorOwner).getRootType = some t ∧
      importer2.typeOwner.map (fun o => o.types)
        = some (⟨[twoU16Struct], some twoU16Struct⟩ : TypeDescriptorOwner).types ∧
      (twoU16Node.isText = false →
        (⟨[twoU16Struct], some twoU16Struct⟩ : TypeDescriptorOwner).types.getLast? = some t ∧
        t ∈ (⟨[twoU16Struct], some twoU16Struct⟩ : TypeDescriptorOwner).types) ∧
      (twoU16Node.isText = true →
        (⟨[twoU16Struct], some twoU16Struct⟩ : TypeDescriptorOwner).types = []) :=
  ⟨rfl, type_owner_root 3 twoU16Node none ⟨[twoU16Struct], some twoU16Struct⟩ rfl⟩

/-! ## Dynamically typed values -/

/-- C13 (SavedTypedPtr decode).  When the decode of an object node with the
entries `type = T` and `value = V` into a dynamically typed destination
succeeds, the destination holds the arena that `convertTypeFrom` returned for
`T`, whose root is the descriptor that `convertType` synthesized from `T`, and an
instance of that root type, which is what the decode of `V` wrote into a freshly
created instance. -/
theorem saved_typed_ptr_decode (construct : TypeDescriptor → Value)
    (typeFromName : TypeFromName) (fuel fixedSize : Nat) (ptr : Value)
    (items : List (Item Node)) (aType aValue : Node) (out : Outcome)
    (htype : (Node.Object items).get "type" = aType)
    (hvalue : (Node.Object items).get "value" = aValue)
    (h : convertFrom construct typeFromName (fuel + 1) ⟨ptr, .savedTypedPtr fixedSize⟩
      (.Object items) = some out)
    (hok : out.failure = none) :
    ∃ owner rootType importer2 o,
      convertTypeFrom fuel aType typeFromName = some (.ok owner) ∧
      convertType fuel ⟨some TypeDescriptorOwner.new, typeFromName⟩ aType
        = some (.ok (rootType, importer2)) ∧
      owner.getRootType = some rootType ∧
      convertFrom construct typeFromName fuel (TypedPtr.create construct rootType) aValue
        = some o ∧
      o.failure = none ∧
      out.obj = .savedTypedPtr owner rootType o.obj := by
  rw [convertFrom] at h
  simp only [Node.isValid, Node.isObject, Bool.not_true, Bool.false_eq_true, if_false,
    htype, hvalue] at h
  cases hc : convertTypeFrom fuel aType typeFromName with
  | none =>
    rw [hc] at h
    cases h
  | some r =>
    cases r with
    | error e =>
      rw [hc] at h
      simp only [Option.some.injEq] at h
      subst h
      cases hok
    | ok owner =>
      rw [hc] at h
      simp only at h
      obtain ⟨t, importer2, o1, hct, _, hown⟩ := convertTypeFrom_ok fuel aType typeFromName owner hc
      have hroot : owner.getRootType = some t := by
        rw [hown]
        rfl
      rw [hroot] at h
      simp only at h
      cases hd : convertFrom construct typeFromName fuel (TypedPtr.create construct t) aValue with
      | none =>
        rw [hd] at h
        cases h
      | some o =>
        rw [hd] at h
        obtain ⟨v, f⟩ := o
        simp only [Option.some.injEq] at h
        subst h
        exact ⟨owner, t, importer2, ⟨v, f⟩, rfl, hct, hroot, hd, hok, rfl⟩

/-- Witness for C13: the node with `type = u16` and `value = 7`; the destination
holds an arena whose root is the built-in `u16`, of size 2, and an instance of
it that holds 7. -/
theorem saved_typed_ptr_decode_witness :
    (∃ owner rootType importer2 o,
      convertTypeFrom 2 (.Text "u16") none = some (.ok owner) ∧
      convertType 2 ⟨some TypeDescriptorOwner.new, none⟩ (.Text "u16")
        = some (.ok (rootType, importer2)) ∧
      owner.getRootType = some rootType ∧
      convertFrom exampleConstruct none 2 (TypedPtr.create exampleConstruct rootType)
        (.Text "7") = some o ∧
      o.failure = none ∧
      (Outcome.mk (.savedTypedPtr ⟨[], some .u16⟩ .u16 (.u16 7)) none).obj
        = .savedTypedPtr owner rootType o.obj) ∧
    convertFrom exampleConstruct none 3 ⟨.indeterminate, .savedTypedPtr 16⟩
        (.Object [⟨"type", .Text "u16"⟩, ⟨"value", .Text "7"⟩])
      = some ⟨.savedTypedPtr ⟨[], some .u16⟩ .u16 (.u16 7), none⟩ ∧
    TypeDescriptor.u16.fixedSize = 2 ∧ (Value.u16 7).unsigned = some 7 :=
  ⟨saved_typed_ptr_decode exampleConstruct none 2 16 .indeterminate
      [⟨"type", .Text "u16"⟩, ⟨"value", .Text "7"⟩] (.Text "u16") (.Text "7")
      ⟨.savedTypedPtr ⟨[], some .u16⟩ .u16 (.u16 7), none⟩ rfl rfl rfl rfl,
    rfl, rfl, rfl⟩

/-! ## Enum indexed arrays -/

/-- Effect of the loop over the enumerators.  A slot that is the value of no
enumerator with a valid entry is untouched; when no two enumerators share a value
and the loop finished, the slot of every enumerator with a valid entry holds what
the decode of that entry wrote into the previous contents of the slot. -/
theorem convertEnumIndexed_spec (conv : TypedPtr → Node → Option Outcome) (aNode : Node)
    (itemType : TypeDescriptor) :
    ∀ (identifiers : List Identifier) (obj : Value) (out : Outcome),
      convertEnumIndexed conv aNode itemType identifiers obj = some out →
      (∀ k, (∀ identifier ∈ identifiers, identifier.value = k →
          (aNode.get identifier.name).isValid = false) → out.obj.slot k = obj.slot k) ∧
      (identifiers.Pairwise (fun a b => a.value ≠ b.value) → out.failure = none →
        ∀ identifier ∈ identifiers, (aNode.get identifier.name).isValid = true →
          ∃ o, conv ⟨obj.slot identifier.value, itemType⟩ (aNode.get identifier.name) = some o ∧
            o.failure = none ∧ out.obj.slot identifier.value = o.obj) := by
  intro identifiers
  induction identifiers with
  | nil =>
    intro obj out h
    simp [convertEnumIndexed] at h
    subst h
    exact ⟨fun _ _ => rfl, fun _ _ identifier hmem => absurd hmem (List.not_mem_nil _)⟩
  | cons head rest ih =>
    intro obj out h
    rw [convertEnumIndexed] at h
    by_cases hv : (aNode.get head.name).isValid = true
    · simp only [hv, if_true] at h
      cases hd : decodeSlot conv itemType head.value (aNode.get head.name) obj with
      | none =>
        rw [hd] at h
        cases h
      | some o1 =>
        obtain ⟨o, ho, ho1⟩ := decodeSlot_eq_some hd
        rw [hd, ho1] at h
        obtain ⟨w, f⟩ := o
        cases f with
        | some e =>
          simp only [Outcome.andThen, Option.some.injEq] at h
          subst h
          refine ⟨?_, ?_⟩
          · intro k hk
            by_cases hkv : k = head.value
            · have := hk head (List.mem_cons_self _ _) hkv.symm
              rw [hv] at this
              cases this
            · exact Value.slot_setSlot_other _ _ _ _ hkv
          · intro _ hok
            cases hok
        | none =>
          simp only [Outcome.andThen] at h
          obtain ⟨hframe, hslots⟩ := ih (obj.setSlot head.value w) out h
          refine ⟨?_, ?_⟩
          · intro k hk
            rw [hframe k (fun identifier hmem => hk identifier (List.mem_cons_of_mem _ hmem))]
            by_cases hkv : k = head.value
            · have := hk head (List.mem_cons_self _ _) hkv.symm
              rw [hv] at this
              cases this
            · exact Value.slot_setSlot_other _ _ _ _ hkv
          · intro hpw hok identifier hmem hvalid
            rw [List.pairwise_cons] at hpw
            rcases List.mem_cons.mp hmem with hhead | hrest
            · subst hhead
              refine ⟨⟨w, none⟩, ho, rfl, ?_⟩
              rw [hframe identifier.value (fun other hother hval =>
                absurd hval.symm (hpw.1 other hother))]
              exact Value.slot_setSlot_same _ _ _
            · obtain ⟨o2, ho2, hof2, hos2⟩ := hslots hpw.2 hok identifier hrest hvalid
              rw [Value.slot_setSlot_other _ _ _ _
                (fun heq => hpw.1 identifier hrest heq.symm)] at ho2
              exact ⟨o2, ho2, hof2, hos2⟩
    · simp only [hv, if_false, Bool.false_eq_true] at h
      obtain ⟨hframe, hslots⟩ := ih obj out h
      refine ⟨?_, ?_⟩
      · intro k hk
        exact hframe k (fun identifier hmem => hk identifier (List.mem_cons_of_mem _ hmem))
      · intro hpw hok identifier hmem hvalid
        rw [List.pairwise_cons] at hpw
        rcases List.mem_cons.mp hmem with hhead | hrest
        · subst hhead
          exact absurd hvalid hv
        · exact hslots hpw.2 hok identifier hrest hvalid

/-- The loop over the enumerators looks at the node only through the entries
under the names of the enumerators. -/
theorem convertEnumIndexed_congr (conv : TypedPtr → Node → Option Outcome) (aNode aNode2 : Node)
    (itemType : TypeDescriptor) :
    ∀ (identifiers : List Identifier) (obj : Value),
      (∀ identifier ∈ identifiers, aNode2.get identifier.name = aNode.get identifier.name) →
      convertEnumIndexed conv aNode2 itemType identifiers obj
        = convertEnumIndexed conv aNode itemType identifiers obj := by
  intro identifiers
  induction identifiers with
  | nil =>
    intro obj _
    rfl
  | cons head rest ih =>
    intro obj hsame
    have hrest : ∀ identifier ∈ rest, aNode2.get identifier.name = aNode.get identifier.name :=
      fun identifier hmem => hsame identifier (List.mem_cons_of_mem _ hmem)
    rw [convertEnumIndexed, convertEnumIndexed, hsame head (List.mem_cons_self _ _)]
    have hfun : convertEnumIndexed conv aNode2 itemType rest
        = convertEnumIndexed conv aNode itemType rest := funext (fun v => ih v hrest)
    rw [hfun]

theorem convertFrom_enumIndexedArray (construct : TypeDescriptor → Value)
    (typeFromName : TypeFromName) (fuel fixedSize : Nat) (itemType : TypeDescriptor)
    (enumType : TypeDescriptor_Enum) (ptr : Value) (items : List (Item Node)) :
    convertFrom construct typeFromName (fuel + 1)
        ⟨ptr, .enumIndexedArray fixedSize itemType enumType⟩ (.Object items)
      = convertEnumIndexed (convertFrom construct typeFromName fuel) (.Object items) itemType
          enumType.identifiers ptr := by
  rw [convertFrom]
  simp [Node.isValid, Node.isObject]

/-- Counterexample to C17: an array of `u16` indexed by an enum in which `First`
and `Default` both have the value 0, holding 9 in every element.  From the node
with `First = 1` and `Default = 2` the decode succeeds and element 0 holds 2,
not 1, the decode of the entry of `First`.  From the node with only `First = 1`
element 0, which is also the element of `Default`, no key of the node, holds 1
and not 9 as before. -/
theorem enum_indexed_shared_value :
    (convertFrom exampleConstruct none 2
        ⟨.slots (fun _ => .u16 9), .enumIndexedArray 4 .u16 aliasedEnum⟩
        (.Object [⟨"First", .Text "1"⟩, ⟨"Default", .Text "2"⟩])).map
      (fun out => ((out.obj.slot 0).unsigned, out.failure)) = some (some 2, none) ∧
    (convertFrom exampleConstruct none 1 ⟨.u16 9, .u16⟩ (.Text "1")).map
      (fun out => (out.obj.unsigned, out.failure)) = some (some 1, none) ∧
    (convertFrom exampleConstruct none 2
        ⟨.slots (fun _ => .u16 9), .enumIndexedArray 4 .u16 aliasedEnum⟩
        (.Object [⟨"First", .Text "1"⟩])).map
      (fun out => ((out.obj.slot 0).unsigned, out.failure)) = some (some 1, none) ∧
    ((Node.Object [⟨"First", .Text "1"⟩]).get "Default").isValid = false ∧
    ((Value.slots (fun _ => .u16 9)).slot 0).unsigned = some 9 := by
  decide

/-- C17 (amended enum indexed array decode).  For an enum in which no two
enumerators share a value: when the decode of an object node into an array
indexed by the enum succeeds, then for every enumerator with a valid entry under
its name the element at the value of the enumerator holds what the decode of that
entry wrote into it; every element that is the element of no such enumerator is
unchanged; and a node with the same entries under the names of the enumerators,
whatever other keys it has, decodes to the same outcome. -/
theorem enum_indexed_array_decode (construct : TypeDescriptor → Value)
    (typeFromName : TypeFromName) (fuel fixedSize : Nat) (itemType : TypeDescriptor)
    (enumType : TypeDescriptor_Enum) (ptr : Value) (items : List (Item Node)) (out : Outcome)
    (hdistinct : enumType.identifiers.Pairwise (fun a b => a.value ≠ b.value))
    (h : convertFrom construct typeFromName (fuel + 1)
      ⟨ptr, .enumIndexedArray fixedSize itemType enumType⟩ (.Object items) = some out)
    (hok : out.failure = none) :
    (∀ identifier ∈ enumType.identifiers,
      ((Node.Object items).get identifier.name).isValid = true →
      ∃ o, convertFrom construct typeFromName fuel ⟨ptr.slot identifier.value, itemType⟩
          ((Node.Object items).get identifier.name) = some o ∧
        o.failure = none ∧ out.obj.slot identifier.value = o.obj) ∧
    (∀ k, (∀ identifier ∈ enumType.identifiers, identifier.value = k →
        ((Node.Object items).get identifier.name).isValid = false) →
      out.obj.slot k = ptr.slot k) ∧
    (∀ items2 : List (Item Node),
      (∀ identifier ∈ enumType.identifiers,
        (Node.Object items2).get identifier.name = (Node.Object items).get identifier.name) →
      convertFrom construct typeFromName (fuel + 1)
        ⟨ptr, .enumIndexedArray fixedSize itemType enumType⟩ (.Object items2) = some out) := by
  rw [convertFrom_enumIndexedArray] at h
  obtain ⟨hframe, hslots⟩ := convertEnumIndexed_spec _ _ _ _ _ _ h
  refine ⟨hslots hdistinct hok, hframe, ?_⟩
  intro items2 hsame
  rw [convertFrom_enumIndexedArray, convertEnumIndexed_congr _ _ _ _ _ _ hsame]
  exact h

/-- Witness for C17 as amended: an array of `u16` indexed by `Red = 0`,
`Green = 1`, `Blue = 2` that holds 9 everywhere, decoded from the node with
`Green = 5` and `Purple = 7`; `Green` holds 5, `Red` and `Blue` still hold 9. -/
theorem enum_indexed_array_decode_witness :
    (∃ out, convertFrom exampleConstruct none 2
        ⟨.slots (fun _ => .u16 9), .enumIndexedArray 6 .u16 rgbEnum⟩
        (.Object [⟨"Green", .Text "5"⟩, ⟨"Purple", .Text "7"⟩]) = some out ∧
      out.failure = none ∧
      (∀ identifier ∈ rgbEnum.identifiers,
        ((Node.Object [⟨"Green", .Text "5"⟩, ⟨"Purple", .Text "7"⟩]).get
          identifier.name).isValid = true →
        ∃ o, convertFrom exampleConstruct none 1
            ⟨(Value.slots (fun _ => .u16 9)).slot identifier.value, .u16⟩
            ((Node.Object [⟨"Green", .Text "5"⟩, ⟨"Purple", .Text "7"⟩]).get identifier.name)
            = some o ∧
          o.failure = none ∧ out.obj.slot identifier.value = o.obj) ∧
      (∀ k, (∀ identifier ∈ rgbEnum.identifiers, identifier.value = k →
          ((Node.Object [⟨"Green", .Text "5"⟩, ⟨"Purple", .Text "7"⟩]).get
            identifier.name).isValid = false) →
        out.obj.slot k = (Value.slots (fun _ => .u16 9)).slot k) ∧
      (∀ items2 : List (Item Node),
        (∀ identifier ∈ rgbEnum.identifiers,
          (Node.Object items2).get identifier.name
            = (Node.Object [⟨"Green", .Text "5"⟩, ⟨"Purple", .Text "7"⟩]).get
              identifier.name) →
        convertFrom exampleConstruct none 2
          ⟨.slots (fun _ => .u16 9), .enumIndexedArray 6 .u16 rgbEnum⟩ (.Object items2)
          = some out)) ∧
    (convertFrom exampleConstruct none 2
        ⟨.slots (fun _ => .u16 9), .enumIndexedArray 6 .u16 rgbEnum⟩
        (.Object [⟨"Green", .Text "5"⟩, ⟨"Purple", .Text "7"⟩])).map
      (fun out => ((out.obj.slot 0).unsigned, (out.obj.slot 1).unsigned,
        (out.obj.slot 2).unsigned, out.failure))
      = some (some 9, some 5, some 9, none) := by
  have hrun : (convertFrom exampleConstruct none 2
        ⟨.slots (fun _ => .u16 9), .enumIndexedArray 6 .u16 rgbEnum⟩
        (.Object [⟨"Green", .Text "5"⟩, ⟨"Purple", .Text "7"⟩])).map
      (fun out => ((out.obj.slot 0).unsigned, (out.obj.slot 1).unsigned,
        (out.obj.slot 2).unsigned, out.failure))
      = some (some 9, some 5, some 9, none) := by decide
  refine ⟨?_, hrun⟩
  cases h : convertFrom exampleConstruct none 2
      ⟨.slots (fun _ => .u16 9), .enumIndexedArray 6 .u16 rgbEnum⟩
      (.Object [⟨"Green", .Text "5"⟩, ⟨"Purple", .Text "7"⟩]) with
  | none =>
    rw [h] at hrun
    cases hrun
  | some out =>
    rw [h] at hrun
    have hok : out.failure = none := by
      simp only [Option.map_some', Option.some.injEq, Prod.mk.injEq] at hrun
      exact hrun.2.2.2
    exact ⟨out, rfl, hok,
      enum_indexed_array_decode exampleConstruct none 1 6 .u16 rgbEnum
        (.slots (fun _ => .u16 9)) [⟨"Green", .Text "5"⟩, ⟨"Purple", .Text "7"⟩] out
        (by decide) h hok⟩

/-! ## Decoding twice -/

theorem Value.isComposite_setSlot (obj : Value) (i : Nat) (v : Value) :
    (obj.setSlot i v).isComposite = true := by
  cases obj <;> rfl

theorem Value.setSlot_slot_self (obj : Value) (i : Nat) (w : Value)
    (hc : obj.isComposite = true) (hw : obj.slot i = w) : obj.setSlot i w = obj := by
  subst hw
  cases obj <;> first
    | (simp only [Value.setSlot, Value.slot, Function.update_eq_self]; done)
    | cases hc

theorem convertStructMembers_eq_steps (conv : TypedPtr → Node → Option Outcome) (aNode : Node) :
    ∀ (members : List (Member TypeDescriptor)) (k : Nat) (obj : Value),
      convertStructMembers conv aNode members k obj
        = decodeSteps conv (structSteps aNode members k) obj := by
  intro members
  induction members with
  | nil =>
    intro k obj
    rfl
  | cons member rest ih =>
    intro k obj
    rw [convertStructMembers, structSteps]
    by_cases hv : (aNode.get member.name).isValid = true
    · simp only [hv, if_true]
      rw [decodeSteps]
      have hfun : convertStructMembers conv aNode rest (k + 1)
          = decodeSteps conv (structSteps aNode rest (k + 1)) := funext (fun v => ih (k + 1) v)
      rw [hfun]
    · simp only [hv, if_false, Bool.false_eq_true]
      exact ih (k + 1) obj

theorem forRange_eq_steps (conv : TypedPtr → Node → Option Outcome) (type : TypeDescriptor)
    (nodeAt : Nat → Node) :
    ∀ (count start : Nat) (obj : Value),
      forRange (fun i => decodeSlot conv type i (nodeAt i)) count start obj
        = decodeSteps conv (rangeSteps type nodeAt count start) obj := by
  intro count
  induction count with
  | zero =>
    intro start obj
    rfl
  | succ count ih =>
    intro start obj
    rw [forRange, rangeSteps, decodeSteps]
    have hfun : forRange (fun i => decodeSlot conv type i (nodeAt i)) count (start + 1)
        = decodeSteps conv (rangeSteps type nodeAt count (start + 1)) :=
      funext (fun v => ih (start + 1) v)
    rw [hfun]

theorem convertEnumIndexed_eq_steps (conv : TypedPtr → Node → Option Outcome) (aNode : Node)
    (itemType : TypeDescriptor) :
    ∀ (identifiers : List Identifier) (obj : Value),
      convertEnumIndexed conv aNode itemType identifiers obj
        = decodeSteps conv (enumSteps aNode itemType identifiers) obj := by
  intro identifiers
  induction identifiers with
  | nil =>
    intro obj
    rfl
  | cons identifier rest ih =>
    intro obj
    rw [convertEnumIndexed, enumSteps]
    by_cases hv : (aNode.get identifier.name).isValid = true
    · simp only [hv, if_true]
      rw [decodeSteps]
      have hfun : convertEnumIndexed conv aNode itemType rest
          = decodeSteps conv (enumSteps aNode itemType rest) := funext (fun v => ih v)
      rw [hfun]
    · simp only [hv, if_false, Bool.false_eq_true]
      exact ih obj

/-- The slots of the steps of a member loop are the positions from `k` on, in
increasing order, and the types are types of members. -/
theorem structSteps_spec (aNode : Node) :
    ∀ (members : List (Member TypeDescriptor)) (k : Nat),
      (∀ s ∈ structSteps aNode members k, k ≤ s.slot ∧ ∃ m ∈ members, s.type = m.type) ∧
      (structSteps aNode members k).Pairwise (fun a b => a.slot ≠ b.slot) := by
  intro members
  induction members with
  | nil =>
    intro k
    exact ⟨fun s hs => absurd hs (List.not_mem_nil _), List.Pairwise.nil⟩
  | cons member rest ih =>
    intro k
    obtain ⟨hmem, hpw⟩ := ih (k + 1)
    have hmem2 : ∀ s ∈ structSteps aNode rest (k + 1),
        k ≤ s.slot ∧ ∃ m ∈ member :: rest, s.type = m.type := by
      intro s hs
      obtain ⟨h1, m, hm, hty⟩ := hmem s hs
      exact ⟨by omega, m, List.mem_cons_of_mem _ hm, hty⟩
    rw [structSteps]
    by_cases hv : (aNode.get member.name).isValid = true
    · simp only [hv, if_true]
      refine ⟨?_, ?_⟩
      · intro s hs
        rcases List.mem_cons.mp hs with h | h
        · subst h
          exact ⟨le_refl _, member, List.mem_cons_self _ _, rfl⟩
        · exact hmem2 s h
      · rw [List.pairwise_cons]
        refine ⟨?_, hpw⟩
        intro s hs
        have := (hmem s hs).1
        show k ≠ s.slot
        omega
    · simp only [hv, if_false, Bool.false_eq_true]
      exact ⟨hmem2, hpw⟩

theorem rangeSteps_spec (type : TypeDescriptor) (nodeAt : Nat → Node) :
    ∀ (count start : Nat),
      (∀ s ∈ rangeSteps type nodeAt count start, start ≤ s.slot ∧ s.type = type) ∧
      (rangeSteps type nodeAt count start).Pairwise (fun a b => a.slot ≠ b.slot) := by
  intro count
  induction count with
  | zero =>
    intro start
    exact ⟨fun s hs => absurd hs (List.not_mem_nil _), List.Pairwise.nil⟩
  | succ count ih =>
    intro start
    obtain ⟨hmem, hpw⟩ := ih (start + 1)
    rw [rangeSteps]
    refine ⟨?_, ?_⟩
    · intro s hs
      rcases List.mem_cons.mp hs with h | h
      · subst h
        exact ⟨le_refl _, rfl⟩
      · obtain ⟨h1, h2⟩ := hmem s h
        exact ⟨by omega, h2⟩
    · rw [List.pairwise_cons]
      refine ⟨?_, hpw⟩
      intro s hs
      have := (hmem s hs).1
      show start ≠ s.slot
      omega

theorem enumSteps_spec (aNode : Node) (itemType : TypeDescriptor) :
    ∀ (identifiers : List Identifier),
      (∀ s ∈ enumSteps aNode itemType identifiers,
        s.type = itemType ∧ ∃ identifier ∈ identifiers, s.slot = identifier.value) ∧
      (identifiers.Pairwise (fun a b => a.value ≠ b.value) →
        (enumSteps aNode itemType identifiers).Pairwise (fun a b => a.slot ≠ b.slot)) := by
  intro identifiers
  induction identifiers with
  | nil =>
    exact ⟨fun s hs => absurd hs (List.not_mem_nil _), fun _ => List.Pairwise.nil⟩
  | cons identifier rest ih =>
    obtain ⟨hmem, hpw⟩ := ih
    have hmem2 : ∀ s ∈ enumSteps aNode itemType rest,
        s.type = itemType ∧ ∃ other ∈ identifier :: rest, s.slot = other.value := by
      intro s hs
      obtain ⟨h1, other, ho, hval⟩ := hmem s hs
      exact ⟨h1, other, List.mem_cons_of_mem _ ho, hval⟩
    rw [enumSteps]
    by_cases hv : (aNode.get identifier.name).isValid = true
    · simp only [hv, if_true]
      refine ⟨?_, ?_⟩
      · intro s hs
        rcases List.mem_cons.mp hs with h | h
        · subst h
          exact ⟨rfl, identifier, List.mem_cons_self _ _, rfl⟩
        · exact hmem2 s h
      · intro hdist
        rw [List.pairwise_cons] at hdist ⊢
        refine ⟨?_, hpw hdist.2⟩
        intro s hs
        obtain ⟨_, other, ho, hval⟩ := hmem s hs
        show identifier.value ≠ s.slot
        rw [hval]
        exact hdist.1 other ho
    · simp only [hv, if_false, Bool.false_eq_true]
      exact ⟨hmem2, fun hdist => hpw (List.pairwise_cons.mp hdist).2⟩

/-- A sequence of slot decodes leaves the slots of no step untouched and keeps
storage made of slots made of slots; after a first step the storage is made of
slots. -/
theorem decodeSteps_frame (conv : TypedPtr → Node → Option Outcome) :
    ∀ (steps : List SlotStep) (obj : Value) (out : Outcome),
      decodeSteps conv steps obj = some out →
      (∀ k, (∀ s ∈ steps, s.slot ≠ k) → out.obj.slot k = obj.slot k) ∧
      (obj.isComposite = true → out.obj.isComposite = true) ∧
      (steps ≠ [] → out.obj.isComposite = true) := by
  intro steps
  induction steps with
  | nil =>
    intro obj out h
    simp [decodeSteps] at h
    subst h
    exact ⟨fun _ _ => rfl, fun hc => hc, fun hne => absurd rfl hne⟩
  | cons step rest ih =>
    intro obj out h
    rw [decodeSteps] at h
    cases hd : decodeSlot conv step.type step.slot step.node obj with
    | none =>
      rw [hd] at h
      cases h
    | some o1 =>
      obtain ⟨o, _, ho1⟩ := decodeSlot_eq_some hd
      rw [hd, ho1] at h
      obtain ⟨w, f⟩ := o
      have hother : ∀ k, (∀ s ∈ step :: rest, s.slot ≠ k) →
          (obj.setSlot step.slot w).slot k = obj.slot k := fun k hk =>
        Value.slot_setSlot_other _ _ _ _ (fun heq => hk step (List.mem_cons_self _ _) heq.symm)
      cases f with
      | some e =>
        simp only [Outcome.andThen, Option.some.injEq] at h
        subst h
        exact ⟨hother, fun _ => Value.isComposite_setSlot _ _ _,
          fun _ => Value.isComposite_setSlot _ _ _⟩
      | none =>
        simp only [Outcome.andThen] at h
        obtain ⟨hframe, hcomp, _⟩ := ih (obj.setSlot step.slot w) out h
        have hc := hcomp (Value.isComposite_setSlot _ _ _)
        refine ⟨?_, fun _ => hc, fun _ => hc⟩
        intro k hk
        rw [hframe k (fun s hs => hk s (List.mem_cons_of_mem _ hs))]
        exact hother k hk

/-- Running a sequence of slot decodes with pairwise distinct slots again, on
storage made of slots that holds in the slots of the steps what the first run
left there, succeeds and changes nothing, when the decode of each step is
idempotent. -/
theorem decodeSteps_rerun (conv : TypedPtr → Node → Option Outcome)
    (P : TypeDescriptor → Prop)
    (hconv : ∀ type, P type → ∀ v aNode o, conv ⟨v, type⟩ aNode = some o → o.failure = none →
      conv ⟨o.obj, type⟩ aNode = some o) :
    ∀ (steps : List SlotStep) (obj : Value) (out : Outcome),
      steps.Pairwise (fun a b => a.slot ≠ b.slot) → (∀ s ∈ steps, P s.type) →
      decodeSteps conv steps obj = some out → out.failure = none →
      ∀ fin : Value, fin.isComposite = true →
        (∀ s ∈ steps, fin.slot s.slot = out.obj.slot s.slot) →
        decodeSteps conv steps fin = some ⟨fin, none⟩ := by
  intro steps
  induction steps with
  | nil =>
    intro obj out _ _ _ _ fin _ _
    rfl
  | cons step rest ih =>
    intro obj out hpw hP h hok fin hfc hfin
    rw [List.pairwise_cons] at hpw
    rw [decodeSteps] at h
    cases hd : decodeSlot conv step.type step.slot step.node obj with
    | none =>
      rw [hd] at h
      cases h
    | some o1 =>
      obtain ⟨o, ho, ho1⟩ := decodeSlot_eq_some hd
      rw [hd, ho1] at h
      obtain ⟨w, f⟩ := o
      cases f with
      | some e =>
        simp only [Outcome.andThen, Option.some.injEq] at h
        subst h
        cases hok
      | none =>
        simp only [Outcome.andThen] at h
        obtain ⟨hframe, _, _⟩ := decodeSteps_frame conv rest _ out h
        have hw : fin.slot step.slot = w := by
          rw [hfin step (List.mem_cons_self _ _), hframe step.slot (fun s hs heq =>
            hpw.1 s hs heq.symm)]
          exact Value.slot_setSlot_same _ _ _
        have hagain := hconv step.type (hP step (List.mem_cons_self _ _)) _ _ _ ho rfl
        simp only at hagain
        rw [decodeSteps]
        unfold decodeSlot
        rw [hw, hagain]
        simp only [Outcome.andThen]
        rw [Value.setSlot_slot_self fin step.slot w hfc hw]
        exact ih (obj.setSlot step.slot w) out hpw.2
          (fun s hs => hP s (List.mem_cons_of_mem _ hs)) h hok fin hfc
          (fun s hs => hfin s (List.mem_cons_of_mem _ hs))

/-- Running a sequence of slot decodes with pairwise distinct slots a second
time, on the storage that the first, successful run left, succeeds and leaves
the same storage. -/
theorem decodeSteps_twice (conv : TypedPtr → Node → Option Outcome)
    (P : TypeDescriptor → Prop)
    (hconv : ∀ type, P type → ∀ v aNode o, conv ⟨v, type⟩ aNode = some o → o.failure = none →
      conv ⟨o.obj, type⟩ aNode = some o)
    (steps : List SlotStep) (obj : Value) (out : Outcome)
    (hpw : steps.Pairwise (fun a b => a.slot ≠ b.slot)) (hP : ∀ s ∈ steps, P s.type)
    (h : decodeSteps conv steps obj = some out) (hok : out.failure = none) :
    decodeSteps conv steps out.obj = some out := by
  obtain ⟨v, f⟩ := out
  simp only at hok
  subst hok
  cases steps with
  | nil => rfl
  | cons step rest =>
    obtain ⟨_, _, hc⟩ := decodeSteps_frame conv _ obj _ h
    exact decodeSteps_rerun conv P hconv _ obj _ hpw hP h rfl v (hc (List.cons_ne_nil _ _))
      (fun _ _ => rfl)

theorem enumeratorsDistinct_member :
    ∀ (members : List (Member TypeDescriptor)), enumeratorsDistinctMembers members = true →
      ∀ m ∈ members, m.type.enumeratorsDistinct = true := by
  intro members
  induction members with
  | nil =>
    intro _ m hm
    exact absurd hm (List.not_mem_nil _)
  | cons member rest ih =>
    intro h m hm
    rw [enumeratorsDistinctMembers, Bool.and_eq_true] at h
    rcases List.mem_cons.mp hm with heq | hrest
    · subst heq
      obtain ⟨name, offset, type⟩ := m
      exact h.1
    · exact ih h.2 m hrest

theorem enumeratorsDistinct_state :
    ∀ (states : List (State TypeDescriptor)), enumeratorsDistinctStates states = true →
      ∀ st ∈ states, st.structType.enumeratorsDistinct = true := by
  intro states
  induction states with
  | nil =>
    intro _ st hst
    exact absurd hst (List.not_mem_nil _)
  | cons state rest ih =>
    intro h st hst
    rw [enumeratorsDistinctStates, Bool.and_eq_true] at h
    rcases List.mem_cons.mp hst with heq | hrest
    · subst heq
      obtain ⟨name, structType⟩ := st
      exact h.1
    · exact ih h.2 st hrest

theorem findState_mem (stateName : String) :
    ∀ (states : List (State TypeDescriptor)) (start i : Nat) (state : State TypeDescriptor),
      findState stateName states start = some (i, state) → state ∈ states := by
  intro states
  induction states with
  | nil =>
    intro start i state h
    simp [findState] at h
  | cons head rest ih =>
    intro start i state h
    rw [findState] at h
    by_cases hname : head.name = stateName
    · simp only [hname, if_true, Option.some.injEq, Prod.mk.injEq] at h
      rw [← h.2]
      exact List.mem_cons_self _ _
    · simp only [hname, if_false] at h
      exact List.mem_cons_of_mem _ (ih _ _ _ h)
/-- Decoding a node again into the storage that a successful decode of it left
succeeds and leaves the same storage, for destinations in which every enum
indexed array decoded in place has one element per enumerator. -/
theorem convertFrom_twice (construct : TypeDescriptor → Value) (typeFromName : TypeFromName) :
    ∀ (fuel : Nat) (type : TypeDescriptor), type.enumeratorsDistinct = true →
      ∀ (v : Value) (aNode : Node) (o : Outcome),
        convertFrom construct typeFromName fuel ⟨v, type⟩ aNode = some o → o.failure = none →
        convertFrom construct typeFromName fuel ⟨o.obj, type⟩ aNode = some o := by
  intro fuel
  induction fuel with
  | zero =>
    intro type _ v aNode o h _
    simp [convertFrom] at h
  | succ fuel ih =>
    intro type hP v aNode o h hok
    have hfail : ∀ (w : Value) (e : Error), some (Outcome.mk w (some e)) = some o → False := by
      intro w e heq
      simp only [Option.some.injEq] at heq
      rw [← heq] at hok
      cases hok
    by_cases hvalid : aNode.isValid = true
    swap
    · rw [convertFrom] at h
      simp only [Bool.not_eq_true] at hvalid
      simp only [hvalid, Bool.not_false, if_true] at h
      exact (hfail _ _ h).elim
    have hv : (!aNode.isValid) = false := by rw [hvalid]; rfl
    cases type with
    | struct fixedSize name members =>
      rw [convertFrom] at h ⊢
      simp only [hv, Bool.false_eq_true, if_false] at h ⊢
      by_cases hobj : aNode.isObject = true
      swap
      · simp only [Bool.not_eq_true] at hobj
        simp only [hobj, Bool.not_false, if_true] at h
        exact (hfail _ _ h).elim
      simp only [hobj, Bool.not_true, Bool.false_eq_true, if_false] at h ⊢
      rw [convertStructMembers_eq_steps] at h ⊢
      obtain ⟨hmem, hpw⟩ := structSteps_spec aNode members 0
      refine decodeSteps_twice _ (fun t => t.enumeratorsDistinct = true) ih _ v o hpw ?_ h hok
      intro s hs
      obtain ⟨_, m, hm, hty⟩ := hmem s hs
      rw [hty]
      exact enumeratorsDistinct_member members (by simpa [TypeDescriptor.enumeratorsDistinct] using hP)
        m hm
    | float =>
      rw [convertFrom] at h ⊢
      simp only [hv, Bool.false_eq_true, if_false] at h ⊢
      by_cases hn : aNode.numeric.1 = true
      · simp only [hn, Bool.not_true, Bool.false_eq_true, if_false] at h ⊢
        exact h
      · simp only [Bool.not_eq_true] at hn
        simp only [hn, Bool.not_false, if_true] at h
        exact (hfail _ _ h).elim
    | u8 =>
      rw [convertFrom] at h ⊢
      simp only [hv, Bool.false_eq_true, if_false] at h ⊢
      by_cases hn : aNode.numeric.1 = true
      · simp only [hn, Bool.not_true, Bool.false_eq_true, if_false] at h ⊢
        exact h
      · simp only [Bool.not_eq_true] at hn
        simp only [hn, Bool.not_false, if_true] at h
        exact (hfail _ _ h).elim
    | u16 =>
      rw [convertFrom] at h ⊢
      simp only [hv, Bool.false_eq_true, if_false] at h ⊢
      by_cases hn : aNode.numeric.1 = true
      · simp only [hn, Bool.not_true, Bool.false_eq_true, if_false] at h ⊢
        exact h
      · simp only [Bool.not_eq_true] at hn
        simp only [hn, Bool.not_false, if_true] at h
        exact (hfail _ _ h).elim
    | bool =>
      rw [convertFrom] at h ⊢
      simp only [hv, Bool.false_eq_true, if_false] at h ⊢
      exact h
    | u32 =>
      rw [convertFrom] at h ⊢
      simp only [hv, Bool.false_eq_true, if_false] at h ⊢
      by_cases hn : aNode.numeric.1 = true
      · simp only [hn, Bool.not_true, Bool.false_eq_true, if_false] at h ⊢
        exact h
      · simp only [Bool.not_eq_true] at hn
        simp only [hn, Bool.not_false, if_true] at h
        exact (hfail _ _ h).elim
    | s32 =>
      rw [convertFrom] at h ⊢
      simp only [hv, Bool.false_eq_true, if_false] at h ⊢
      by_cases hn : aNode.numeric.1 = true
      · simp only [hn, Bool.not_true, Bool.false_eq_true, if_false] at h ⊢
        exact h
      · simp only [Bool.not_eq_true] at hn
        simp only [hn, Bool.not_false, if_true] at h
        exact (hfail _ _ h).elim
    | fixedArray fixedSize itemType numItems =>
      rw [convertFrom] at h ⊢
      simp only [hv, Bool.false_eq_true, if_false] at h ⊢
      by_cases harr : aNode.isArray = true
      swap
      · simp only [Bool.not_eq_true] at harr
        simp only [harr, Bool.not_false, if_true] at h
        exact (hfail _ _ h).elim
      simp only [harr, Bool.not_true, Bool.false_eq_true, if_false] at h ⊢
      rw [forRange_eq_steps] at h ⊢
      obtain ⟨hmem, hpw⟩ := rangeSteps_spec itemType (fun i => aNode.getAt i) numItems 0
      refine decodeSteps_twice _ (fun t => t.enumeratorsDistinct = true) ih _ v o hpw ?_ h hok
      intro s hs
      rw [(hmem s hs).2]
      simpa [TypeDescriptor.enumeratorsDistinct] using hP
    | string fixedSize =>
      rw [convertFrom] at h ⊢
      simp only [hv, Bool.false_eq_true, if_false] at h ⊢
      by_cases htext : aNode.isText = true
      · simp only [htext, if_true] at h ⊢
        exact h
      · simp only [htext, if_false, Bool.false_eq_true, Option.some.injEq] at h ⊢
        rw [← h]
    | array fixedSize itemType =>
      rw [convertFrom] at h ⊢
      simp only [hv, Bool.false_eq_true, if_false] at h ⊢
      by_cases harr : aNode.isArray = true
      swap
      · simp only [Bool.not_eq_true] at harr
        simp only [harr, Bool.not_false, if_true] at h
        exact (hfail _ _ h).elim
      simp only [harr, Bool.not_true, Bool.false_eq_true, if_false] at h ⊢
      have hitem : itemType.enumeratorsDistinct = true := by
        simpa [TypeDescriptor.enumeratorsDistinct] using hP
      obtain ⟨_, hheader⟩ := forRange_decodeSlot_header _ _ _ _ _ _ _ h
      obtain ⟨hframe, _, _⟩ := forRange_decodeSlot _ _ _ _ _ _ _ h
      obtain ⟨items2, hitems2⟩ := hheader _ _ (resizeArray_eq construct itemType v _)
      have hsame : resizeArray construct itemType o.obj aNode.arrayView.length = o.obj := by
        rw [resizeArray_eq]
        rw [hitems2]
        congr 1
        funext i
        simp only [Value.numItems, Value.slot]
        by_cases hi : i < aNode.arrayView.length
        · rw [if_pos hi, if_pos hi]
        · rw [if_neg hi]
          have := hframe i (Or.inr (by omega))
          rw [hitems2, resizeArray_eq] at this
          simp only [Value.slot, if_neg hi] at this
          exact this.symm
      rw [hsame]
      rw [forRange_eq_steps] at h ⊢
      obtain ⟨hmem, hpw⟩ := rangeSteps_spec itemType (fun i => aNode.arrayView.getD i .Invalid)
        aNode.arrayView.length 0
      have htwice := decodeSteps_twice _ (fun t => t.enumeratorsDistinct = true) ih _ _ o hpw
        (by
          intro s hs
          rw [(hmem s hs).2]
          exact hitem) h hok
      exact htwice
    | enumIndexedArray fixedSize itemType enumType =>
      rw [convertFrom] at h ⊢
      simp only [hv, Bool.false_eq_true, if_false] at h ⊢
      by_cases hobj : aNode.isObject = true
      swap
      · simp only [Bool.not_eq_true] at hobj
        simp only [hobj, Bool.not_false, if_true] at h
        exact (hfail _ _ h).elim
      simp only [hobj, Bool.not_true, Bool.false_eq_true, if_false] at h ⊢
      have hP2 : enumType.identifiers.Pairwise (fun a b => a.value ≠ b.value) ∧
          itemType.enumeratorsDistinct = true := by
        simpa [TypeDescriptor.enumeratorsDistinct] using hP
      rw [convertEnumIndexed_eq_steps] at h ⊢
      obtain ⟨hmem, hpw⟩ := enumSteps_spec aNode itemType enumType.identifiers
      refine decodeSteps_twice _ (fun t => t.enumeratorsDistinct = true) ih _ v o (hpw hP2.1) ?_
        h hok
      intro s hs
      rw [(hmem s hs).1]
      exact hP2.2
    | «enum» desc =>
      rw [convertFrom] at h ⊢
      simp only [hv, Bool.false_eq_true, if_false] at h ⊢
      by_cases htext : aNode.isText = true
      swap
      · simp only [Bool.not_eq_true] at htext
        simp only [htext, Bool.not_false, if_true] at h
        exact (hfail _ _ h).elim
      simp only [htext, Bool.not_true, Bool.false_eq_true, if_false] at h ⊢
      cases hfind : desc.identifiers.find? (fun identifier => identifier.name = aNode.text) with
      | none =>
        rw [hfind] at h
        exact (hfail _ _ h).elim
      | some identifier =>
        rw [hfind] at h
        simp only at h ⊢
        by_cases h1 : desc.fixedSize = 1
        · simp only [h1, if_true] at h ⊢
          by_cases hr : identifier.value ≤ 255
          · simp only [hr, if_true] at h ⊢
            exact h
          · simp only [hr, if_false] at h
            exact (hfail _ _ h).elim
        · simp only [h1, if_false] at h ⊢
          by_cases h2 : desc.fixedSize = 2
          · simp only [h2, if_true] at h ⊢
            by_cases hr : identifier.value ≤ 65535
            · simp only [hr, if_true] at h ⊢
              exact h
            · simp only [hr, if_false] at h
              exact (hfail _ _ h).elim
          · simp only [h2, if_false] at h ⊢
            by_cases h4 : desc.fixedSize = 4
            · simp only [h4, if_true] at h ⊢
              exact h
            · simp only [h4, if_false] at h
              exact (hfail _ _ h).elim
    | savedTypedPtr fixedSize =>
      rw [convertFrom] at h ⊢
      simp only [hv, Bool.false_eq_true, if_false] at h ⊢
      by_cases hobj : aNode.isObject = true
      swap
      · simp only [Bool.not_eq_true] at hobj
        simp only [hobj, Bool.not_false, if_true] at h
        exact (hfail _ _ h).elim
      simp only [hobj, Bool.not_true, Bool.false_eq_true, if_false] at h ⊢
      cases hc : convertTypeFrom fuel (aNode.get "type") typeFromName with
      | none =>
        rw [hc] at h
        cases h
      | some r =>
        cases r with
        | error e =>
          rw [hc] at h
          exact (hfail _ _ h).elim
        | ok owner =>
          rw [hc] at h
          simp only at h ⊢
          cases hroot : owner.getRootType with
          | none =>
            rw [hroot] at h
            exact (hfail _ _ h).elim
          | some rootType =>
            rw [hroot] at h
            simp only at h ⊢
            exact h
    | typedArray fixedSize =>
      rw [convertFrom] at h ⊢
      simp only [hv, Bool.false_eq_true, if_false] at h ⊢
      by_cases hobj : aNode.isObject = true
      swap
      · simp only [Bool.not_eq_true] at hobj
        simp only [hobj, Bool.not_false, if_true] at h
        exact (hfail _ _ h).elim
      simp only [hobj, Bool.not_true, Bool.false_eq_true, if_false] at h ⊢
      cases hc : convertTypeFrom fuel (aNode.get "type") typeFromName with
      | none =>
        rw [hc] at h
        cases h
      | some r =>
        cases r with
        | error e =>
          rw [hc] at h
          exact (hfail _ _ h).elim
        | ok owner =>
          rw [hc] at h
          simp only at h ⊢
          cases hroot : owner.getRootType with
          | none =>
            rw [hroot] at h
            exact (hfail _ _ h).elim
          | some rootType =>
            rw [hroot] at h
            simp only at h ⊢
            exact h
    | switch fixedSize storageOffset states =>
      rw [convertFrom] at h ⊢
      simp only [hv, Bool.false_eq_true, if_false] at h ⊢
      by_cases hobj : aNode.isObject = true
      swap
      · simp only [Bool.not_eq_true] at hobj
        simp only [hobj, Bool.not_false, if_true] at h
        exact (hfail _ _ h).elim
      simp only [hobj, Bool.not_true, Bool.false_eq_true, if_false] at h ⊢
      cases hitems : aNode.items with
      | nil =>
        rw [hitems] at h
        exact (hfail _ _ h).elim
      | cons iter more =>
        cases more with
        | cons second others =>
          rw [hitems] at h
          exact (hfail _ _ h).elim
        | nil =>
          rw [hitems] at h
          simp only at h ⊢
          cases hfind : findState iter.key states 0 with
          | none =>
            rw [hfind] at h
            exact (hfail _ _ h).elim
          | some found =>
            obtain ⟨i, state⟩ := found
            rw [hfind] at h
            have hss : ∀ (id : Nat) (s : Value), (Value.switch id s).switchStorage = s :=
              fun _ _ => rfl
            have hset : ∀ (id : Nat) (s w : Value),
                (Value.switch id s).setSwitchStorage w = .switch id w := fun _ _ _ => rfl
            simp only [ensureStateIs, hss, hset] at h ⊢
            have hstate : state.structType.enumeratorsDistinct = true :=
              enumeratorsDistinct_state states
                (by simpa [TypeDescriptor.enumeratorsDistinct] using hP) state
                (findState_mem _ _ _ _ _ hfind)
            cases hd : convertFrom construct typeFromName fuel
                ⟨v.switchStorage, state.structType⟩ iter.value with
            | none =>
              rw [hd] at h
              cases h
            | some o1 =>
              obtain ⟨w, f⟩ := o1
              rw [hd] at h
              simp only [Option.some.injEq] at h
              subst h
              simp only at hok
              subst hok
              have hagain := ih state.structType hstate _ _ _ hd rfl
              simp only at hagain
              simp only [hss]
              rw [hagain]
    | owned fixedSize targetType =>
      rw [convertFrom] at h ⊢
      simp only [hv, Bool.false_eq_true, if_false] at h ⊢
      exact h
    | other fixedSize =>
      rw [convertFrom] at h
      simp only [hv, Bool.false_eq_true, if_false] at h
      exact (hfail _ _ h).elim
/-! ## The two shapes of a member list -/

theorem arrayMembers_wellShaped (pairs : List (String × Node)) :
    ((pairs.map (fun p => Node.Array [.Text p.1, p.2])).all
      (fun aMember => aMember.isArray && aMember.arrayView.length == 2)) = true := by
  induction pairs with
  | nil => rfl
  | cons p rest ih =>
    simp only [List.map_cons, List.all_cons, ih, Bool.and_true]
    rfl

theorem arrayMembers_memberItem (pairs : List (String × Node)) :
    (pairs.map (fun p => Node.Array [.Text p.1, p.2])).map memberItem
      = pairs.map (fun p => (⟨p.1, p.2⟩ : Item Node)) := by
  induction pairs with
  | nil => rfl
  | cons p rest ih =>
    simp only [List.map_cons, ih]
    rfl

/-- The array loop over the pairs `[name, type node]` does what the object loop
does over the entries `name: type node`. -/
theorem convertArrayMembers_pairs
    (conv : PylonTypeImporter → Node → Option (Converted TypeDescriptor))
    (pairs : List (String × Node)) (importer : PylonTypeImporter) (s : TypeDescriptor_Struct) :
    convertArrayMembers conv (arrayMembers pairs).arrayView importer s
      = convertObjectMembers conv (objectMembers pairs).items importer s := by
  simp only [arrayMembers, objectMembers, Node.arrayView, Node.items]
  rw [convertArrayMembers_eq_object conv _ importer s (arrayMembers_wellShaped pairs),
    arrayMembers_memberItem]

/-- Two struct nodes that agree in `key` and `name`, one with the member list
as an object and one with the same pairs as an array, are converted alike. -/
theorem convertType_member_shapes (fuel : Nat) (importer : PylonTypeImporter)
    (items1 items2 : List (Item Node)) (pairs : List (String × Node))
    (hkey : (Node.Object items2).get "key" = (Node.Object items1).get "key")
    (hname : (Node.Object items2).get "name" = (Node.Object items1).get "name")
    (hobj : (Node.Object items1).get "members" = objectMembers pairs)
    (harr : (Node.Object items2).get "members" = arrayMembers pairs) :
    convertType fuel importer (.Object items2) = convertType fuel importer (.Object items1) := by
  cases fuel with
  | zero => rfl
  | succ fuel =>
    rw [convertType, convertType]
    simp only [show (Node.Object items1).isText = false from rfl,
      show (Node.Object items2).isText = false from rfl,
      show (Node.Object items1).isObject = true from rfl,
      show (Node.Object items2).isObject = true from rfl,
      hkey, hname, hobj, harr,
      show (objectMembers pairs).isObject = true from rfl,
      show (arrayMembers pairs).isObject = false from rfl,
      show (arrayMembers pairs).isArray = true from rfl,
      convertArrayMembers_pairs, Bool.false_eq_true, if_false, if_true]
/-- C21 (equivalence of the member list shapes).  For two struct nodes that agree
in `key` and `name`, one with the members as an object of entries
`name: type node` and one with the same pairs, in the same order, as an array of
two-element arrays `[name, type node]`, `convertType` gives the same outcome
under every recursion bound: the same abort, or the same struct descriptor, that
is the same name, fixed size and member list with names, types, offsets and
padding members, and the same arena.  Under a bound above the depth of the object
shaped node both calls return. -/
theorem member_shapes_equivalent (fuel : Nat) (importer : PylonTypeImporter)
    (items1 items2 : List (Item Node)) (pairs : List (String × Node))
    (hkey : (Node.Object items2).get "key" = (Node.Object items1).get "key")
    (hname : (Node.Object items2).get "name" = (Node.Object items1).get "name")
    (hobj : (Node.Object items1).get "members" = objectMembers pairs)
    (harr : (Node.Object items2).get "members" = arrayMembers pairs) :
    convertType fuel importer (.Object items2) = convertType fuel importer (.Object items1) ∧
    ((Node.Object items1).depth < fuel →
      convertType fuel importer (.Object items1) ≠ none ∧
      convertType fuel importer (.Object items2) ≠ none) := by
  have heq := convertType_member_shapes fuel importer items1 items2 pairs hkey hname hobj harr
  refine ⟨heq, fun hdepth => ?_⟩
  have hret := convertType_returns fuel importer (.Object items1) hdepth
  exact ⟨hret, by rw [heq]; exact hret⟩

/-- Witness for C21: the struct `S` with the members `a: u16` and `b: u16`, as
an object and as an array of pairs; both nodes give the descriptor
`twoU16Struct`.  With a member of the unknown type `byte` both abort with
`UnknownTypeName`. -/
theorem member_shapes_equivalent_witness :
    (convertType 3 ⟨some TypeDescriptorOwner.new, none⟩
        (structNodeOf "S" (arrayMembers [("a", .Text "u16"), ("b", .Text "u16")]))
      = convertType 3 ⟨some TypeDescriptorOwner.new, none⟩
        (structNodeOf "S" (objectMembers [("a", .Text "u16"), ("b", .Text "u16")])) ∧
      ((structNodeOf "S" (objectMembers [("a", .Text "u16"), ("b", .Text "u16")])).depth < 3 →
        convertType 3 ⟨some TypeDescriptorOwner.new, none⟩
          (structNodeOf "S" (objectMembers [("a", .Text "u16"), ("b", .Text "u16")])) ≠ none ∧
        convertType 3 ⟨some TypeDescriptorOwner.new, none⟩
          (structNodeOf "S" (arrayMembers [("a", .Text "u16"), ("b", .Text "u16")])) ≠ none)) ∧
    convertType 3 ⟨some TypeDescriptorOwner.new, none⟩
        (structNodeOf "S" (arrayMembers [("a", .Text "u16"), ("b", .Text "u16")]))
      = some (.ok (twoU16Struct, ⟨some ⟨[twoU16Struct], none⟩, none⟩)) ∧
    convertType 3 ⟨some TypeDescriptorOwner.new, none⟩
        (structNodeOf "S" (objectMembers [("a", .Text "u16"), ("b", .Text "u16")]))
      = some (.ok (twoU16Struct, ⟨some ⟨[twoU16Struct], none⟩, none⟩)) ∧
    convertType 3 ⟨some TypeDescriptorOwner.new, none⟩
        (structNodeOf "S" (arrayMembers [("a", .Text "byte")]))
      = some (.error .UnknownTypeName) ∧
    convertType 3 ⟨some TypeDescriptorOwner.new, none⟩
        (structNodeOf "S" (objectMembers [("a", .Text "byte")]))
      = some (.error .UnknownTypeName) :=
  ⟨member_shapes_equivalent 3 ⟨some TypeDescriptorOwner.new, none⟩
      [⟨"key", .Text "struct"⟩, ⟨"name", .Text "S"⟩,
        ⟨"members", objectMembers [("a", .Text "u16"), ("b", .Text "u16")]⟩]
      [⟨"key", .Text "struct"⟩, ⟨"name", .Text "S"⟩,
        ⟨"members", arrayMembers [("a", .Text "u16"), ("b", .Text "u16")]⟩]
      [("a", .Text "u16"), ("b", .Text "u16")] rfl rfl rfl rfl,
    rfl, rfl, rfl, rfl⟩

end pylon
